import Mathlib

/-!
# KQL2QueryDSL: the translator of `KQL2QueryDSL.go`

A shallow embedding of `ConvertKQL2DSL`, `normalizeWhitespace`, `parseExpression`,
`parseTerm`, `safeSplit` and `balancedParentheses`, and of the library functions they
call (`strings.TrimSpace`, `strings.Trim`, the three regular expressions).

A Go string is a sequence of bytes; it is embedded as a list of natural numbers, one per
byte. Every marker the program looks for is an ASCII byte, and an ASCII byte is never part
of a multi-byte UTF-8 sequence, so the byte view agrees with the rune view that `range`,
`regexp` and `strings.TrimSpace` take. The result `map[string]interface{}` is embedded as
the tree `Query`: one constructor for each kind of node, the `bool` node with each of its
keys present or absent. A call returns `Except.ok` with the tree, or `Except.error`
with the error value; an out-of-range slice is the failure `panic`.
-/

namespace KQL

/-- A Go string: its bytes. -/
abbrev Str := List Nat

/-- UTF-8 encoding of one code point. -/
def encodeRune (n : Nat) : Str :=
  if n < 0x80 then [n]
  else if n < 0x800 then [0xC0 + n / 64, 0x80 + n % 64]
  else if n < 0x10000 then [0xE0 + n / 4096, 0x80 + (n / 64) % 64, 0x80 + n % 64]
  else [0xF0 + n / 262144, 0x80 + (n / 4096) % 64, 0x80 + (n / 64) % 64, 0x80 + n % 64]

/-- The bytes of a string literal. -/
def utf8 (s : String) : Str := s.toList.flatMap (fun c => encodeRune c.toNat)

/-! ## The output tree -/

/-- The query tree. `bool` carries the keys `must`, `should`, `minimum_should_match` and
`must_not` of the `bool` map, each absent (`none`) or present. -/
inductive Query where
  | matchAll
  | bool (must : Option (List Query)) (should : Option (List Query))
      (minimumShouldMatch : Option Nat) (mustNot : Option (List Query))
  | terms (field : Str) (values : List Str)
  | range (field : Str) (key : Str) (value : Str)
  | existsField (field : Str)
  | matchPhrase (field : Str) (value : Str)
  | wildcard (field : Str) (value : Str)
  | term (field : Str) (value : Str)

/-- How a call can fail: with the error value built by `fmt.Errorf` (its message), with a
run-time panic of an out-of-range slice, or, in the embedding only, by exhausting the
recursion budget. -/
inductive Failure where
  | message (msg : Str)
  | panic
  | outOfFuel

/-- The pair `(map, error)` a parsing function returns. -/
abbrev Result := Except Failure Query

/-! ## Library functions -/

/-- The slice `s[lo:hi]`, `none` when Go would panic. -/
def slice (s : Str) (lo hi : Nat) : Option Str :=
  if lo ≤ hi ∧ hi ≤ s.length then some ((s.take hi).drop lo) else none

/-- ASCII white space of `unicode.IsSpace`: tab, line feed, vertical tab, form feed,
carriage return, space. -/
def isAsciiSpace (c : Nat) : Bool :=
  c == 9 || c == 10 || c == 11 || c == 12 || c == 13 || c == 32

/-- Two-byte white space of `unicode.IsSpace`: U+0085 and U+00A0. -/
def isSpace2 (a b : Nat) : Bool :=
  a == 0xC2 && (b == 0x85 || b == 0xA0)

/-- Three-byte white space of `unicode.IsSpace`: U+1680, U+2000 to U+200A, U+2028, U+2029,
U+202F, U+205F, U+3000. -/
def isSpace3 (a b c : Nat) : Bool :=
  (a == 0xE1 && b == 0x9A && c == 0x80) ||
  (a == 0xE2 && b == 0x80 &&
    ((decide (0x80 ≤ c) && decide (c ≤ 0x8A)) || c == 0xA8 || c == 0xA9 || c == 0xAF)) ||
  (a == 0xE2 && b == 0x81 && c == 0x9F) ||
  (a == 0xE3 && b == 0x80 && c == 0x80)

/-- Drops the white-space runes at the front of a byte sequence; `sp2` and `sp3` recognise
the two-byte and three-byte white space from the bytes in the order they are met. -/
def dropSpaceRunes (sp2 : Nat → Nat → Bool) (sp3 : Nat → Nat → Nat → Bool) : Str → Str
  | [] => []
  | a :: rest =>
    if isAsciiSpace a then dropSpaceRunes sp2 sp3 rest
    else match rest with
      | [] => a :: rest
      | b :: rest2 =>
        if sp2 a b then dropSpaceRunes sp2 sp3 rest2
        else match rest2 with
          | [] => a :: rest
          | c :: rest3 => if sp3 a b c then dropSpaceRunes sp2 sp3 rest3 else a :: rest

/-- `strings.TrimLeftFunc(s, unicode.IsSpace)`. -/
def trimLeftSpace (s : Str) : Str := dropSpaceRunes isSpace2 isSpace3 s

/-- `strings.TrimRightFunc(s, unicode.IsSpace)` on the reversed string: the last byte comes
first. -/
def trimRightRev (s : Str) : Str :=
  dropSpaceRunes (fun c b => isSpace2 b c) (fun c b a => isSpace3 a b c) s

/-- `strings.TrimSpace`. -/
def TrimSpace (s : Str) : Str :=
  (trimRightRev (trimLeftSpace s).reverse).reverse

/-- `strings.Trim(s, cutset)` for an ASCII cutset: drops the bytes of the cutset at both
ends. -/
def Trim (s : Str) (cutset : Str) : Str :=
  ((s.reverse.dropWhile (fun c => cutset.contains c)).reverse).dropWhile
    (fun c => cutset.contains c)

/-- The class `\s` of Go's regexp: tab, line feed, form feed, carriage return, space. -/
def isReSpace (c : Nat) : Bool :=
  c == 9 || c == 10 || c == 12 || c == 13 || c == 32

/-- The class `\d`. -/
def isDigit (c : Nat) : Bool := decide (48 ≤ c) && decide (c ≤ 57)

/-- The class `\w`: digits, letters, underscore. -/
def isWordChar (c : Nat) : Bool :=
  isDigit c || (decide (65 ≤ c) && decide (c ≤ 90)) || (decide (97 ≤ c) && decide (c ≤ 122))
    || c == 95

/-- The class `[\w.@-]` of the field names. -/
def isFieldChar (c : Nat) : Bool :=
  isWordChar c || c == 46 || c == 64 || c == 45

/-- `ReplaceAllString` of the pattern `\s+` by one space; the flag says that the previous
byte belonged to a run already replaced. -/
def normalizeRuns : Bool → Str → Str
  | _, [] => []
  | inRun, c :: cs =>
    if isReSpace c then
      if inRun then normalizeRuns true cs else 32 :: normalizeRuns true cs
    else c :: normalizeRuns false cs

/-- Normalize whitespace to handle multiline queries. -/
def normalizeWhitespace (s : Str) : Str := normalizeRuns false s

/-! ## Scanner utilities -/

/-- The loop of `balancedParentheses` over the remaining runes. -/
def balancedLoop : Str → Int → Bool → Bool
  | [], depth, _ => depth == 0
  | r :: rs, depth, inQuote =>
    if r == 34 then balancedLoop rs depth (!inQuote)
    else if !inQuote then
      if r == 40 then balancedLoop rs (depth + 1) inQuote
      else if r == 41 then
        if depth - 1 < 0 then false else balancedLoop rs (depth - 1) inQuote
      else balancedLoop rs depth inQuote
    else balancedLoop rs depth inQuote

/-- The function `balancedParentheses`. -/
def balancedParentheses (s : Str) : Bool := balancedLoop s 0 false

/-- The quote state after the `switch` of `safeSplit` on the byte `c`. -/
def quoteAfter (c : Nat) (inQuote : Bool) : Bool :=
  if c == 34 then !inQuote else inQuote

/-- The depth after the `switch` of `safeSplit` on the byte `c`. -/
def depthAfter (c : Nat) (inQuote : Bool) (depth : Int) : Int :=
  if c == 40 && !inQuote then depth + 1
  else if c == 41 && !inQuote then depth - 1
  else depth

/-- The loop of `safeSplit` from index `i` on. The first argument after the delimiter is
`s[i:]`, `skip` counts the bytes of a matched delimiter still to step over, `cur` is
`s[start:i]`. The result lists the parts appended from here on. The delimiter is not empty
at either call site; with an empty delimiter the Go loop would not advance, which this
definition does not reproduce. -/
def safeSplitLoop (delim : Str) : Str → Nat → Str → Int → Bool → List Str
  | [], _, cur, _, _ => if cur.isEmpty then [] else [TrimSpace cur]
  | _ :: cs, skip + 1, cur, depth, inQuote => safeSplitLoop delim cs skip cur depth inQuote
  | c :: cs, 0, cur, depth, inQuote =>
    if depthAfter c inQuote depth == 0 && !quoteAfter c inQuote && delim.isPrefixOf (c :: cs) then
      TrimSpace cur ::
        safeSplitLoop delim cs (delim.length - 1) [] (depthAfter c inQuote depth)
          (quoteAfter c inQuote)
    else
      safeSplitLoop delim cs 0 (cur ++ [c]) (depthAfter c inQuote depth) (quoteAfter c inQuote)

/-- The function `safeSplit`. -/
def safeSplit (s delim : Str) : List Str := safeSplitLoop delim s 0 [] 0 false

/-! ## Regular expressions -/

/-- The pattern `^([\w.@-]+):\(([^()]+)\)$`: the two submatches, when it matches. -/
def termsPattern (expr : Str) : Option (Str × Str) :=
  let field := expr.takeWhile isFieldChar
  match expr.dropWhile isFieldChar with
  | c1 :: c2 :: rest =>
    if c1 == 58 && c2 == 40 && !field.isEmpty && rest.getLast? == some 41
        && !rest.dropLast.isEmpty && rest.dropLast.all (fun c => c != 40 && c != 41) then
      some (field, rest.dropLast)
    else none
  | _ => none

/-- Whether the alternation `"?[^"]+"?|\d+` matches the whole of `x`. -/
def matchValue (x : Str) : Bool :=
  let y := if x.head? == some 34 then x.drop 1 else x
  let z := if y.getLast? == some 34 then y.dropLast else y
  (!z.isEmpty && z.all (fun c => c != 34)) || (!x.isEmpty && x.all isDigit)

/-- The tail `\s*("?[^"]+"?|\d+)$` on `r`: the greedy `\s*` first takes `k` bytes, then
gives them back one at a time. -/
def rangeValue : Nat → Str → Option Str
  | 0, r => if matchValue r then some r else none
  | k + 1, r => if matchValue (r.drop (k + 1)) then some (r.drop (k + 1)) else rangeValue k r

/-- The pattern `^([\w.@-]+)\s*([><]=?)\s*("?[^"]+"?|\d+)$`: the three submatches, when
it matches. The greedy `=?` is tried with the `=` first. -/
def rangeRegex (expr : Str) : Option (Str × Str × Str) :=
  let field := expr.takeWhile isFieldChar
  if field.isEmpty then none
  else match (expr.dropWhile isFieldChar).dropWhile isReSpace with
    | [] => none
    | o :: r2 =>
      if o == 62 || o == 60 then
        let withEq : Option Str :=
          match r2 with
          | [] => none
          | e :: r3 =>
            if e == 61 then rangeValue (r3.takeWhile isReSpace).length r3 else none
        match withEq with
        | some v => some (field, [o, 61], v)
        | none =>
          match rangeValue (r2.takeWhile isReSpace).length r2 with
          | some v => some (field, [o], v)
          | none => none
      else none

/-! ## The parser -/

/-- The map `opMap` of `parseTerm`; a missing key reads as the empty string. -/
def opMap (op : Str) : Str :=
  if op == utf8 ">" then utf8 "gt"
  else if op == utf8 ">=" then utf8 "gte"
  else if op == utf8 "<" then utf8 "lt"
  else if op == utf8 "<=" then utf8 "lte"
  else []

/-- The function `parseTerm`. -/
def parseTerm (expr0 : Str) : Result :=
  let expr := TrimSpace expr0
  match rangeRegex expr with
  | some (field, op, v) => .ok (.range field (opMap op) (Trim v (utf8 "\"")))
  | none =>
    if expr.contains 58 then
      let field := TrimSpace (expr.takeWhile (fun c => c != 58))
      let value := Trim (TrimSpace ((expr.dropWhile (fun c => c != 58)).drop 1)) (utf8 "\" ")
      if field == utf8 "_exists_" then .ok (.existsField value)
      else if (utf8 "\"").isPrefixOf value && (utf8 "\"").isSuffixOf value then
        match slice value 1 (value.length - 1) with
        | none => .error .panic
        | some v => .ok (.matchPhrase field v)
      else if value.contains 42 then .ok (.wildcard field value)
      else .ok (.term field value)
    else .error (.message (utf8 "unrecognized expression: " ++ expr))

/-- The loop that strips redundant outer parentheses; `none` when a slice panics. Every
round removes two bytes, so a budget of `expr.length` rounds is never used up. -/
def stripParens : Nat → Str → Option Str
  | 0, expr => some expr
  | n + 1, expr =>
    if (utf8 "(").isPrefixOf expr && (utf8 ")").isSuffixOf expr then
      match slice expr 1 (expr.length - 1) with
      | none => none
      | some inner =>
        if balancedParentheses inner then stripParens n (TrimSpace inner) else some expr
    else some expr

/-- The loop `for _, part := range parts` of `parseExpression`: parses the parts in order
and stops at the first error. -/
def parseParts (recur : Str → Result) : List Str → Except Failure (List Query)
  | [] => .ok []
  | part :: parts =>
    match recur part with
    | .error err => .error err
    | .ok q =>
      match parseParts recur parts with
      | .error err => .error err
      | .ok qs => .ok (q :: qs)

/-- The delimiter of the disjunction. -/
def delimOr : Str := utf8 " or "

/-- The delimiter of the conjunction. -/
def delimAnd : Str := utf8 " and "

/-- The body of `parseExpression`, its recursive calls made through `recur`. -/
def parseStep (recur : Str → Result) (expr0 : Str) : Result :=
  match stripParens (TrimSpace expr0).length (TrimSpace expr0) with
  | none => .error .panic
  | some expr =>
    if (safeSplit expr delimOr).length > 1 then
      match parseParts recur (safeSplit expr delimOr) with
      | .error err => .error err
      | .ok should => .ok (.bool none (some should) (some 1) none)
    else if (safeSplit expr delimAnd).length > 1 then
      match parseParts recur (safeSplit expr delimAnd) with
      | .error err => .error err
      | .ok must => .ok (.bool (some must) none none none)
    else if (utf8 "not ").isPrefixOf expr then
      match slice expr 4 expr.length with
      | none => .error .panic
      | some rest =>
        match recur (TrimSpace rest) with
        | .error err => .error err
        | .ok sub => .ok (.bool none none none (some [sub]))
    else
      match termsPattern expr with
      | some (field, inner) =>
        .ok (.terms field ((safeSplit inner delimOr).map (fun v => Trim v (utf8 "\" "))))
      | none => parseTerm expr

/-- The function `parseExpression` with a bound on the depth of its recursion. -/
def parseFuel : Nat → Str → Result
  | 0, _ => .error .outOfFuel
  | n + 1, expr => parseStep (parseFuel n) expr

/-- The function `parseExpression`. Every recursive call is on a shorter string, so the
depth never exceeds the length. -/
def parseExpression (expr : Str) : Result := parseFuel (expr.length + 1) expr

/-- The function `ConvertKQL2DSL`. -/
def ConvertKQL2DSL (kql0 : Str) : Result :=
  let kql := normalizeWhitespace kql0
  if TrimSpace kql == [] then .ok .matchAll else parseExpression kql

/-! ## Vocabulary of the claims -/

/-- A field name: a non-empty string over `[A-Za-z0-9_.@-]`. -/
def isFieldName (f : Str) : Bool := !f.isEmpty && f.all isFieldChar

/-- A letter or a digit. -/
def isAlnum (c : Nat) : Bool :=
  isDigit c || (decide (65 ≤ c) && decide (c ≤ 90)) || (decide (97 ≤ c) && decide (c ≤ 122))

/-- A non-empty alphanumeric string. -/
def isAlnumWord (v : Str) : Bool := !v.isEmpty && v.all isAlnum

/-- A non-empty string of digits. -/
def isDigits (v : Str) : Bool := !v.isEmpty && v.all isDigit

/-- The choice `parseTerm` makes between its four nodes once the field and the value of a
`field:value` clause are known. -/
def classify (field value : Str) : Result :=
  if field == utf8 "_exists_" then .ok (.existsField value)
  else if (utf8 "\"").isPrefixOf value && (utf8 "\"").isSuffixOf value then
    match slice value 1 (value.length - 1) with
    | none => .error .panic
    | some v => .ok (.matchPhrase field v)
  else if value.contains 42 then .ok (.wildcard field value)
  else .ok (.term field value)

/-- A byte that cannot start a white-space rune, read from either end. -/
def isSolid (c : Nat) : Bool := decide (c < 128) && !isAsciiSpace c

/-- The quote state of `balancedParentheses` at the end of `s`. -/
def quoteState : Bool → Str → Bool
  | q, [] => q
  | q, c :: cs => quoteState (if c == 34 then !q else q) cs

/-- The string `e` inside `n` pairs of parentheses. -/
def wrap : Nat → Str → Str
  | 0, e => e
  | n + 1, e => utf8 "(" ++ wrap n e ++ utf8 ")"

/-- A byte the scan of `safeSplit` steps over without a change of state and at which no
delimiter starts: ASCII, not white space, not a quote, not a parenthesis. -/
def isInert (c : Nat) : Bool :=
  isSolid c && c != 34 && c != 40 && c != 41

/-- A non-empty string over letters, digits, `-`, `.` and `*` with at least one `*`. -/
def isGlob (t : Str) : Bool :=
  t.all (fun c => isAlnum c || c == 45 || c == 46 || c == 42) && t.contains 42

/-- The textual form of a `Term` and of an `Exists` node. -/
def render : Query → Str
  | .term f v => f ++ utf8 ":" ++ v
  | .existsField f => utf8 "_exists_:" ++ f
  | _ => []

/-- The words of a list, each preceded by one space. -/
def spaced : List Str → Str
  | [] => []
  | w :: ws => 32 :: (w ++ spaced ws)

/-- The terminal clause `field:value`. -/
def clause (f v : Str) : Str := f ++ utf8 ":" ++ v

/-- A word of inert bytes with a colon. -/
def isClauseWord (a : Str) : Prop := (∀ c ∈ a, isInert c = true) ∧ 58 ∈ a

/-- A word that may follow a space without starting the delimiter `32 :: tl`. -/
def isPlainWord (tl x : Str) : Prop :=
  x ≠ [] ∧ (∀ c ∈ x, isInert c = true) ∧
    ∀ r2 : Str, List.isPrefixOf (32 :: tl) (32 :: (x ++ r2)) = false

/-- The code points of `unicode.IsSpace`. -/
def spaceRunes : List Nat :=
  [9, 10, 11, 12, 13, 32, 0x85, 0xA0, 0x1680, 0x2000, 0x2001, 0x2002, 0x2003, 0x2004, 0x2005,
    0x2006, 0x2007, 0x2008, 0x2009, 0x200A, 0x2028, 0x2029, 0x202F, 0x205F, 0x3000]

/-- A white-space code point. -/
def isSpaceRune (r : Nat) : Bool := spaceRunes.contains r

/-- A string that `strings.TrimLeftFunc` removes whole, whatever follows it. -/
def Blank (s : Str) : Prop := ∀ t : Str, trimLeftSpace (s ++ t) = trimLeftSpace t

/-- A value of a terms shorthand as it is written: the word, in double quotes when the
flag is set. -/
def renderValue (v : Bool × Str) : Str :=
  if v.1 then utf8 "\"" ++ v.2 ++ utf8 "\"" else v.2

/-- The strings of a list with ` or ` between them. -/
def joinOr : List Str → Str
  | [] => []
  | [x] => x
  | x :: y :: ys => x ++ utf8 " or " ++ joinOr (y :: ys)

/-- A value as written: an alphanumeric word, bare or in double quotes. -/
def isValueWord (x : Str) : Prop :=
  ∃ w : Str, isAlnumWord w = true ∧ (x = w ∨ x = 34 :: (w ++ [34]))

/-! ## Vocabulary of the claims on trees, scans and errors -/

mutual
/-- Whether `p` holds at every node of a tree. -/
def Query.allNodes (p : Query → Bool) : Query → Bool
  | .bool must should msm mustNot =>
    p (.bool must should msm mustNot) && allNodesOpt p must && allNodesOpt p should
      && allNodesOpt p mustNot
  | .matchAll => p .matchAll
  | .terms f vs => p (.terms f vs)
  | .range f k v => p (.range f k v)
  | .existsField f => p (.existsField f)
  | .matchPhrase f v => p (.matchPhrase f v)
  | .wildcard f v => p (.wildcard f v)
  | .term f v => p (.term f v)
/-- Whether `p` holds at every node of the trees of a clause list, when the list is there. -/
def allNodesOpt (p : Query → Bool) : Option (List Query) → Bool
  | none => true
  | some l => allNodesList p l
/-- Whether `p` holds at every node of the trees of a list. -/
def allNodesList (p : Query → Bool) : List Query → Bool
  | [] => true
  | q :: qs => q.allNodes p && allNodesList p qs
end

/-- No MatchPhrase node. -/
def isNotPhrase : Query → Bool
  | .matchPhrase _ _ => false
  | _ => true

/-- The field name of a terminal node is a field name: all six kinds of terminal node. -/
def hasFieldName : Query → Bool
  | .terms f _ => isFieldName f
  | .range f _ _ => isFieldName f
  | .existsField f => isFieldName f
  | .matchPhrase f _ => isFieldName f
  | .wildcard f _ => isFieldName f
  | .term f _ => isFieldName f
  | _ => true

/-- The field name of a Terms or Range node is a field name. -/
def hasMatchedFieldName : Query → Bool
  | .terms f _ => isFieldName f
  | .range f _ _ => isFieldName f
  | _ => true

/-- A Bool node carries exactly one clause list: `should` with two or more children and
`minimum_should_match` 1, or `must` with two or more children, or `must_not` with exactly
one child, the last two without `minimum_should_match`. -/
def isBoolShape : Query → Bool
  | .bool none (some should) (some 1) none => decide (2 ≤ should.length)
  | .bool (some must) none none none => decide (2 ≤ must.length)
  | .bool none none none (some mustNot) => decide (mustNot.length = 1)
  | .bool _ _ _ _ => false
  | _ => true

/-- The number of bytes `b` of a string that lie outside its double-quoted runs; every
quote toggles the quote state, which starts as `inQuote`. -/
def countOutside (b : Nat) : Bool → Str → Nat
  | _, [] => 0
  | inQuote, c :: cs =>
    if c == 34 then countOutside b (!inQuote) cs
    else (if !inQuote && c == b then 1 else 0) + countOutside b inQuote cs

/-- The reference definition of balance: outside quoted runs, no prefix has more `)` than
`(`, and the whole string has as many of the one as of the other. -/
def balancedRef (s : Str) : Prop :=
  (∀ n : Nat, countOutside 41 false (s.take n) ≤ countOutside 40 false (s.take n)) ∧
    countOutside 40 false s = countOutside 41 false s

/-- The scan state, depth and quote state, after the bytes of a string: each quote toggles
the quote state, a parenthesis outside quotes raises or lowers the depth. -/
def scanState : Int → Bool → Str → Int × Bool
  | depth, inQuote, [] => (depth, inQuote)
  | depth, inQuote, c :: cs => scanState (depthAfter c inQuote depth) (quoteAfter c inQuote) cs

/-- The loop of `safeSplit` as the source writes it, on the indices `i` and `start`, with
every index and slice checked: `none` when one is out of range, or when the budget of
rounds runs out. Next to `parts` the loop records in `cuts` the indices at which it
cuts. -/
def safeSplitIdxLoop (s delim : Str) :
    Nat → Nat → Nat → Int → Bool → List Nat → List Str → Option (List Nat × List Str)
  | 0, _, _, _, _, _, _ => none
  | fuel + 1, i, start, depth, inQuote, cuts, parts =>
    if i < s.length then
      match s[i]? with
      | none => none
      | some c =>
        if depthAfter c inQuote depth == 0 && !quoteAfter c inQuote
            && decide (i + delim.length ≤ s.length) then
          match slice s i (i + delim.length) with
          | none => none
          | some w =>
            if w == delim then
              match slice s start i with
              | none => none
              | some seg =>
                safeSplitIdxLoop s delim fuel (i + delim.length) (i + delim.length)
                  (depthAfter c inQuote depth) (quoteAfter c inQuote) (cuts ++ [i])
                  (parts ++ [TrimSpace seg])
            else
              safeSplitIdxLoop s delim fuel (i + 1) start (depthAfter c inQuote depth)
                (quoteAfter c inQuote) cuts parts
        else
          safeSplitIdxLoop s delim fuel (i + 1) start (depthAfter c inQuote depth)
            (quoteAfter c inQuote) cuts parts
    else if start < s.length then
      match slice s start s.length with
      | none => none
      | some seg => some (cuts, parts ++ [TrimSpace seg])
    else some (cuts, parts)

/-- The function `safeSplit` on indices: the cuts and the parts. Every round moves `i`
forward, so `s.length + 1` rounds are enough. -/
def safeSplitIdx (s delim : Str) : Option (List Nat × List Str) :=
  safeSplitIdxLoop s delim (s.length + 1) 0 0 0 false [] []

/-- A result that is a tree or the error value with its message: no panic, and the
recursion budget not used up. -/
def Structured (r : Result) : Prop :=
  (∃ q : Query, r = .ok q) ∨ ∃ msg : Str, r = .error (.message msg)

/-- A value as written, without its opening quote. -/
def openValue (v : Bool × Str) : Str :=
  if v.1 then v.2 ++ utf8 "\"" else v.2

/-- A value as written, without its closing quote. -/
def closeValue (v : Bool × Str) : Str :=
  if v.1 then utf8 "\"" ++ v.2 else v.2

/-! # Proofs -/

/-! ## Lengths -/

theorem dropSpaceRunes_length_le_aux (sp2 : Nat → Nat → Bool) (sp3 : Nat → Nat → Nat → Bool)
    (n : Nat) : ∀ s : Str, s.length ≤ n → (dropSpaceRunes sp2 sp3 s).length ≤ s.length := by
  induction n with
  | zero =>
    intro s hs
    have : s = [] := List.length_eq_zero.mp (Nat.le_zero.mp hs)
    subst this; simp [dropSpaceRunes]
  | succ n ih =>
    intro s hs
    match s with
    | [] => simp [dropSpaceRunes]
    | [a] =>
      simp only [dropSpaceRunes]
      split_ifs <;> simp
    | [a, b] =>
      have h1 := ih [b] (by simp at hs ⊢; omega)
      simp only [dropSpaceRunes] at h1 ⊢
      split_ifs <;> simp at *
    | a :: b :: c :: rest =>
      have h1 := ih (b :: c :: rest) (by simp at hs ⊢; omega)
      have h2 := ih (c :: rest) (by simp at hs ⊢; omega)
      have h3 := ih rest (by simp at hs ⊢; omega)
      rw [dropSpaceRunes]
      split_ifs <;> simp at * <;> omega

theorem dropSpaceRunes_length_le (sp2 : Nat → Nat → Bool) (sp3 : Nat → Nat → Nat → Bool)
    (s : Str) : (dropSpaceRunes sp2 sp3 s).length ≤ s.length :=
  dropSpaceRunes_length_le_aux sp2 sp3 s.length s (Nat.le_refl _)

theorem TrimSpace_length_le (s : Str) : (TrimSpace s).length ≤ s.length := by
  unfold TrimSpace trimRightRev trimLeftSpace
  have h1 := dropSpaceRunes_length_le isSpace2 isSpace3 s
  have h2 := dropSpaceRunes_length_le (fun c b => isSpace2 b c) (fun c b a => isSpace3 a b c)
    (dropSpaceRunes isSpace2 isSpace3 s).reverse
  simp at h2 ⊢
  omega

theorem dropSpaceRunes_cons_left (c : Nat) (s : Str) (h : isSolid c = true) :
    dropSpaceRunes isSpace2 isSpace3 (c :: s) = c :: s := by
  simp only [isSolid, Bool.and_eq_true, decide_eq_true_eq, Bool.not_eq_true'] at h
  obtain ⟨h1, h2⟩ := h
  have e2 : ∀ b, isSpace2 c b = false := by
    intro b; simp [isSpace2]; omega
  have e3 : ∀ a b, isSpace3 c a b = false := by
    intro a b; simp [isSpace3]; omega
  match s with
  | [] => simp [dropSpaceRunes, h2]
  | [b] => simp [dropSpaceRunes, h2, e2]
  | b :: a :: rest => simp [dropSpaceRunes, h2, e2, e3]

theorem dropSpaceRunes_cons_right (c : Nat) (s : Str) (h : isSolid c = true) :
    dropSpaceRunes (fun c b => isSpace2 b c) (fun c b a => isSpace3 a b c) (c :: s) = c :: s := by
  simp only [isSolid, Bool.and_eq_true, decide_eq_true_eq, Bool.not_eq_true'] at h
  obtain ⟨h1, h2⟩ := h
  have e2 : ∀ b, isSpace2 b c = false := by
    intro b; simp [isSpace2]; omega
  have e3 : ∀ a b, isSpace3 a b c = false := by
    intro a b; simp [isSpace3]; omega
  match s with
  | [] => simp [dropSpaceRunes, h2]
  | [b] => simp [dropSpaceRunes, h2, e2]
  | b :: a :: rest => simp [dropSpaceRunes, h2, e2, e3]

/-- Trimming leaves a string alone when its first and last bytes are ASCII and not white
space. -/
theorem TrimSpace_eq_self (s : Str) (hh : ∀ c, s.head? = some c → isSolid c = true)
    (hl : ∀ c, s.getLast? = some c → isSolid c = true) : TrimSpace s = s := by
  match s with
  | [] => simp [TrimSpace, trimLeftSpace, trimRightRev, dropSpaceRunes]
  | a :: rest =>
    have ha := hh a (by simp)
    unfold TrimSpace trimLeftSpace trimRightRev
    rw [dropSpaceRunes_cons_left a rest ha]
    rcases hrev : (a :: rest).reverse with _ | ⟨l, m⟩
    · simp at hrev
    · have hlast : (a :: rest).getLast? = some l := by
        rw [List.getLast?_eq_head?_reverse, hrev]; simp
      rw [dropSpaceRunes_cons_right l m (hl l hlast), ← hrev, List.reverse_reverse]

theorem safeSplitLoop_part_le (delim : Str) (rest : Str) :
    ∀ (skip : Nat) (cur : Str) (depth : Int) (inQuote : Bool) (p : Str),
      p ∈ safeSplitLoop delim rest skip cur depth inQuote →
      p.length ≤ cur.length + rest.length := by
  induction rest with
  | nil =>
    intro skip cur depth inQuote p hp
    simp only [safeSplitLoop] at hp
    split_ifs at hp
    · simp at hp
    · simp only [List.mem_singleton] at hp
      subst hp
      have := TrimSpace_length_le cur
      simp; omega
  | cons c cs ih =>
    intro skip cur depth inQuote p hp
    cases skip with
    | succ k =>
      simp only [safeSplitLoop] at hp
      have := ih _ _ _ _ _ hp
      simp; omega
    | zero =>
      simp only [safeSplitLoop] at hp
      split_ifs at hp
      · rcases List.mem_cons.mp hp with h | h
        · subst h
          have := TrimSpace_length_le cur
          omega
        · have := ih _ _ _ _ _ h
          simp at this ⊢; omega
      · have := ih _ _ _ _ _ hp
        simp at this ⊢; omega

theorem safeSplitLoop_part_lt (delim : Str) (rest : Str) :
    ∀ (skip : Nat) (cur : Str) (depth : Int) (inQuote : Bool),
      1 < (safeSplitLoop delim rest skip cur depth inQuote).length →
      ∀ p ∈ safeSplitLoop delim rest skip cur depth inQuote,
        p.length < cur.length + rest.length := by
  induction rest with
  | nil =>
    intro skip cur depth inQuote hlen
    simp only [safeSplitLoop] at hlen
    split_ifs at hlen <;> simp at hlen
  | cons c cs ih =>
    intro skip cur depth inQuote hlen p hp
    cases skip with
    | succ k =>
      simp only [safeSplitLoop] at hp
      have := safeSplitLoop_part_le _ _ _ _ _ _ _ hp
      simp; omega
    | zero =>
      simp only [safeSplitLoop] at hp hlen
      split_ifs at hp hlen
      · rcases List.mem_cons.mp hp with h | h
        · subst h
          have := TrimSpace_length_le cur
          simp; omega
        · have := safeSplitLoop_part_le _ _ _ _ _ _ _ h
          simp at this ⊢; omega
      · have := ih _ _ _ _ hlen p hp
        simp at this ⊢; omega

/-- After a split into two or more parts, every part is shorter than the string. -/
theorem safeSplit_part_lt (s delim p : Str) (hlen : 1 < (safeSplit s delim).length)
    (hp : p ∈ safeSplit s delim) : p.length < s.length := by
  have := safeSplitLoop_part_lt delim s 0 [] 0 false hlen p hp
  simpa using this

theorem slice_length (s t : Str) (lo hi : Nat) (h : slice s lo hi = some t) :
    t.length = hi - lo ∧ hi ≤ s.length := by
  unfold slice at h
  split_ifs at h with hc
  simp only [Option.some.injEq] at h
  subst h
  simp
  omega

theorem stripParens_length_le (n : Nat) :
    ∀ (s t : Str), stripParens n s = some t → t.length ≤ s.length := by
  induction n with
  | zero => intro s t h; simp [stripParens] at h; subst h; exact Nat.le_refl _
  | succ n ih =>
    intro s t h
    simp only [stripParens] at h
    split_ifs at h with hc
    · split at h
      · simp at h
      · rename_i inner hin
        have hl := slice_length _ _ _ _ hin
        split_ifs at h
        · have := ih _ _ h
          have := TrimSpace_length_le inner
          omega
        · simp at h; subst h; exact Nat.le_refl _
    · simp at h; subst h; exact Nat.le_refl _

/-- The budget of the stripping loop does not matter once it covers the length. -/
theorem stripParens_fuel (n : Nat) :
    ∀ (m : Nat) (s : Str), s.length ≤ n → s.length ≤ m → stripParens n s = stripParens m s := by
  induction n with
  | zero =>
    intro m s hn _
    have : s = [] := List.length_eq_zero.mp (Nat.le_zero.mp hn)
    subst this
    cases m <;> simp [stripParens, utf8, encodeRune]
  | succ n ih =>
    intro m s hn hm
    cases m with
    | zero =>
      have : s = [] := List.length_eq_zero.mp (Nat.le_zero.mp hm)
      subst this
      simp [stripParens, utf8, encodeRune]
    | succ m =>
      simp only [stripParens]
      split_ifs with hc
      · cases hin : slice s 1 (s.length - 1) with
        | none => rfl
        | some inner =>
          have hl := slice_length _ _ _ _ hin
          simp only []
          split_ifs
          · have := TrimSpace_length_le inner
            have hpos : 0 < s.length := by
              rcases s with _ | ⟨a, s⟩
              · simp [utf8, encodeRune] at hc
              · simp
            exact ih m _ (by omega) (by omega)
          · rfl
      · rfl

theorem parseParts_congr (f g : Str → Result) (parts : List Str)
    (h : ∀ p ∈ parts, f p = g p) : parseParts f parts = parseParts g parts := by
  induction parts with
  | nil => rfl
  | cons p ps ih =>
    simp only [parseParts]
    rw [h p (by simp), ih (fun q hq => h q (by simp [hq]))]

/-- The body of `parseExpression` calls itself on shorter strings only. -/
theorem parseStep_congr (f g : Str → Result) (e : Str)
    (h : ∀ t : Str, t.length < e.length → f t = g t) : parseStep f e = parseStep g e := by
  unfold parseStep
  have h0 := TrimSpace_length_le e
  cases hs : stripParens (TrimSpace e).length (TrimSpace e) with
  | none => rfl
  | some expr =>
    have h1 := stripParens_length_le _ _ _ hs
    simp only []
    split_ifs with hor hand hnot
    · rw [parseParts_congr f g _ (fun p hp => h p (by
        have := safeSplit_part_lt _ _ _ hor hp; omega))]
    · rw [parseParts_congr f g _ (fun p hp => h p (by
        have := safeSplit_part_lt _ _ _ hand hp; omega))]
    · cases hsl : slice expr 4 expr.length with
      | none => rfl
      | some rest =>
        have hl := slice_length _ _ _ _ hsl
        have hlen : 4 ≤ expr.length := by
          have := List.IsPrefix.length_le (List.isPrefixOf_iff_prefix.mp hnot)
          simpa [utf8, encodeRune] using this
        have := TrimSpace_length_le rest
        simp only []
        rw [h (TrimSpace rest) (by omega)]
    · rfl

theorem parseFuel_indep (n : Nat) :
    ∀ (m : Nat) (s : Str), s.length < n → s.length < m → parseFuel n s = parseFuel m s := by
  induction n with
  | zero => intro m s hn; omega
  | succ n ih =>
    intro m s hn hm
    cases m with
    | zero => omega
    | succ m =>
      simp only [parseFuel]
      exact parseStep_congr _ _ _ (fun t ht => ih m t (by omega) (by omega))

/-- The recursion of `parseExpression`, without the budget: the function is its own body
applied to itself. -/
theorem parseExpression_eq (e : Str) : parseExpression e = parseStep parseExpression e := by
  show parseStep (parseFuel e.length) e = parseStep parseExpression e
  apply parseStep_congr
  intro t ht
  exact parseFuel_indep _ _ _ ht (Nat.lt_succ_self _)

/-! ## Redundant parentheses -/

theorem utf8_lparen : utf8 "(" = [40] := rfl
theorem utf8_rparen : utf8 ")" = [41] := rfl
theorem utf8_quote : utf8 "\"" = [34] := rfl
theorem utf8_quote_space : utf8 "\" " = [34, 32] := rfl
theorem utf8_not : utf8 "not " = [110, 111, 116, 32] := rfl
theorem utf8_colon : utf8 ":" = [58] := rfl
theorem delimOr_eq : delimOr = [32, 111, 114, 32] := rfl
theorem delimAnd_eq : delimAnd = [32, 97, 110, 100, 32] := rfl

theorem isSuffixOf_singleton_append (c : Nat) (s : Str) :
    List.isSuffixOf [c] (s ++ [c]) = true := by
  rw [List.isSuffixOf_iff_suffix]
  exact List.suffix_append s [c]

theorem slice_wrapped (a b : Nat) (e : Str) :
    slice (a :: (e ++ [b])) 1 ((a :: (e ++ [b])).length - 1) = some e := by
  unfold slice
  have h : 1 ≤ (a :: (e ++ [b])).length - 1 ∧
      (a :: (e ++ [b])).length - 1 ≤ (a :: (e ++ [b])).length := by
    simp
  rw [if_pos h]
  simp

/-- One round of the stripping loop on a wrapped, balanced string. -/
theorem stripParens_wrapped (e : Str) (h : balancedParentheses e = true) (n : Nat) :
    stripParens (n + 1) (40 :: (e ++ [41])) = stripParens n (TrimSpace e) := by
  rw [stripParens]
  have hp : ((utf8 "(").isPrefixOf (40 :: (e ++ [41])) &&
      (utf8 ")").isSuffixOf (40 :: (e ++ [41]))) = true := by
    rw [utf8_lparen, utf8_rparen]
    have := isSuffixOf_singleton_append 41 (40 :: e)
    simp only [List.cons_append] at this
    simp [this]
  rw [if_pos hp, slice_wrapped]
  simp only [h, if_true]

theorem parseStep_wrapped (f : Str → Result) (e : Str) (h : balancedParentheses e = true) :
    parseStep f (40 :: (e ++ [41])) = parseStep f e := by
  have ht : TrimSpace (40 :: (e ++ [41])) = 40 :: (e ++ [41]) := by
    apply TrimSpace_eq_self
    · intro c hc; simp at hc; subst hc; decide
    · intro c hc
      have : (40 :: (e ++ [41])).getLast? = some 41 := by
        rw [← List.cons_append, List.getLast?_append]; simp
      rw [this] at hc; simp at hc; subst hc; decide
  have hs : stripParens (TrimSpace (40 :: (e ++ [41]))).length (TrimSpace (40 :: (e ++ [41])))
      = stripParens (TrimSpace e).length (TrimSpace e) := by
    rw [ht]
    have hl : (40 :: (e ++ [41])).length = (e.length + 1) + 1 := by simp
    rw [hl, stripParens_wrapped e h]
    have := TrimSpace_length_le e
    exact stripParens_fuel _ _ _ (by omega) (Nat.le_refl _)
  unfold parseStep
  rw [hs]

theorem parseExpression_wrapped (e : Str) (h : balancedParentheses e = true) :
    parseExpression (utf8 "(" ++ e ++ utf8 ")") = parseExpression e := by
  rw [parseExpression_eq, parseExpression_eq e]
  exact parseStep_wrapped _ e h

theorem balancedLoop_append (e : Str) :
    ∀ (r : Str) (d k : Int) (q : Bool), 0 ≤ k → balancedLoop e d q = true →
      balancedLoop (e ++ r) (d + k) q = balancedLoop r k (quoteState q e) := by
  induction e with
  | nil =>
    intro r d k q hk h
    simp only [balancedLoop, beq_iff_eq] at h
    subst h
    simp [quoteState]
  | cons c cs ih =>
    intro r d k q hk h
    simp only [List.cons_append, balancedLoop, quoteState] at h ⊢
    split_ifs at h ⊢ with h1 h2 h3 h4 h5 h6
    all_goals first
      | exact ih r _ k _ hk h
      | omega
      | (have e1 : d + k + 1 = (d + 1) + k := by ring
         rw [e1]; exact ih r _ k _ hk h)
      | (have e1 : d + k - 1 = (d - 1) + k := by ring
         rw [e1]; exact ih r _ k _ hk h)

theorem quoteState_append (e r : Str) : ∀ q, quoteState q (e ++ r) = quoteState (quoteState q e) r := by
  induction e with
  | nil => intro q; rfl
  | cons c cs ih => intro q; simp only [List.cons_append, quoteState]; exact ih _

/-- Wrapping keeps a string balanced when its quotes are closed. -/
theorem balanced_wrapped (e : Str) (h : balancedParentheses e = true)
    (hq : quoteState false e = false) :
    balancedParentheses (40 :: (e ++ [41])) = true ∧ quoteState false (40 :: (e ++ [41])) = false := by
  constructor
  · unfold balancedParentheses at h ⊢
    have := balancedLoop_append e [41] 0 1 false (by decide) h
    simp only [balancedLoop]
    simp only [zero_add] at this
    simp [this, hq, balancedLoop]
  · have := quoteState_append e [41] false
    simp only [quoteState] at this ⊢
    simp [this, hq, quoteState]

theorem wrap_balanced (e : Str) (h : balancedParentheses e = true)
    (hq : quoteState false e = false) (n : Nat) :
    balancedParentheses (wrap n e) = true ∧ quoteState false (wrap n e) = false := by
  induction n with
  | zero => exact ⟨h, hq⟩
  | succ n ih => exact balanced_wrapped _ ih.1 ih.2

theorem parseExpression_wrap (e : Str) (h : balancedParentheses e = true)
    (hq : quoteState false e = false) (n : Nat) :
    parseExpression (wrap n e) = parseExpression e := by
  induction n with
  | zero => rfl
  | succ n ih =>
    show parseExpression (utf8 "(" ++ wrap n e ++ utf8 ")") = _
    rw [parseExpression_wrapped _ (wrap_balanced e h hq n).1, ih]

/-! ## Scanning -/

theorem isInert_iff (c : Nat) : isInert c = true ↔
    c < 128 ∧ c ≠ 9 ∧ c ≠ 10 ∧ c ≠ 11 ∧ c ≠ 12 ∧ c ≠ 13 ∧ c ≠ 32 ∧ c ≠ 34 ∧ c ≠ 40 ∧ c ≠ 41 := by
  simp [isInert, isSolid, isAsciiSpace]
  tauto

theorem isFieldChar_iff (c : Nat) : isFieldChar c = true ↔
    (48 ≤ c ∧ c ≤ 57) ∨ (65 ≤ c ∧ c ≤ 90) ∨ (97 ≤ c ∧ c ≤ 122) ∨ c = 95 ∨ c = 46 ∨ c = 64
      ∨ c = 45 := by
  simp [isFieldChar, isWordChar, isDigit]
  tauto

theorem isInert_of_isFieldChar (c : Nat) (h : isFieldChar c = true) : isInert c = true := by
  rw [isFieldChar_iff] at h
  rw [isInert_iff]
  omega

theorem isSolid_of_isInert (c : Nat) (h : isInert c = true) : isSolid c = true := by
  simp only [isInert, Bool.and_eq_true] at h
  exact h.1.1.1

theorem depthAfter_inert (c : Nat) (q : Bool) (d : Int) (h : isInert c = true) :
    depthAfter c q d = d := by
  rw [isInert_iff] at h
  have h1 : (c == 40) = false := by simp; omega
  have h2 : (c == 41) = false := by simp; omega
  simp [depthAfter, h1, h2]

theorem quoteAfter_inert (c : Nat) (q : Bool) (h : isInert c = true) : quoteAfter c q = q := by
  rw [isInert_iff] at h
  have h1 : (c == 34) = false := by simp; omega
  simp [quoteAfter, h1]

theorem isPrefixOf_cons_ne (x c : Nat) (tl r : Str) (h : c ≠ x) :
    List.isPrefixOf (x :: tl) (c :: r) = false := by
  simp [List.isPrefixOf]
  intro hx; exact absurd hx.symm h

/-- The scan steps over an inert byte. -/
theorem safeSplitLoop_inert_cons (tl : Str) (c : Nat) (r cur : Str) (d : Int) (q : Bool)
    (h : isInert c = true) :
    safeSplitLoop (32 :: tl) (c :: r) 0 cur d q = safeSplitLoop (32 :: tl) r 0 (cur ++ [c]) d q := by
  have hc : c ≠ 32 := by rw [isInert_iff] at h; omega
  rw [safeSplitLoop, depthAfter_inert c q d h, quoteAfter_inert c q h,
    isPrefixOf_cons_ne 32 c tl r hc]
  simp

/-- The scan steps over a run of inert bytes. -/
theorem safeSplitLoop_inert (tl : Str) (w : Str) :
    ∀ (r cur : Str) (d : Int) (q : Bool), (∀ c ∈ w, isInert c = true) →
      safeSplitLoop (32 :: tl) (w ++ r) 0 cur d q = safeSplitLoop (32 :: tl) r 0 (cur ++ w) d q := by
  induction w with
  | nil => intro r cur d q _; simp
  | cons c w ih =>
    intro r cur d q h
    rw [List.cons_append, safeSplitLoop_inert_cons tl c _ cur d q (h c (by simp)),
      ih r _ d q (fun x hx => h x (by simp [hx]))]
    simp

/-- The scan steps over a space at which the delimiter does not start. -/
theorem safeSplitLoop_space (delim r cur : Str) (d : Int) (q : Bool)
    (h : delim.isPrefixOf (32 :: r) = false) :
    safeSplitLoop delim (32 :: r) 0 cur d q = safeSplitLoop delim r 0 (cur ++ [32]) d q := by
  rw [safeSplitLoop, h]
  simp [depthAfter, quoteAfter]

/-- The scan steps over the bytes of a matched delimiter. -/
theorem safeSplitLoop_skip (delim : Str) (t : Str) :
    ∀ (r cur : Str) (d : Int) (q : Bool),
      safeSplitLoop delim (t ++ r) t.length cur d q = safeSplitLoop delim r 0 cur d q := by
  induction t with
  | nil => intro r cur d q; simp
  | cons c t ih =>
    intro r cur d q
    simp only [List.cons_append, List.length_cons, safeSplitLoop]
    exact ih r cur d q

/-- The scan cuts at a delimiter met at depth 0 outside quotes. -/
theorem safeSplitLoop_delim (tl r cur : Str) :
    safeSplitLoop (32 :: tl) (32 :: (tl ++ r)) 0 cur 0 false =
      TrimSpace cur :: safeSplitLoop (32 :: tl) r 0 [] 0 false := by
  have hp : List.isPrefixOf (32 :: tl) (32 :: (tl ++ r)) = true := by
    rw [List.isPrefixOf_iff_prefix]
    exact List.prefix_append (32 :: tl) r
  rw [safeSplitLoop, hp]
  simp only [depthAfter, quoteAfter]
  simp only [List.length_cons, Nat.add_sub_cancel]
  rw [safeSplitLoop_skip]
  simp

theorem safeSplitLoop_nil (delim cur : Str) (d : Int) (q : Bool) (h : cur ≠ []) :
    safeSplitLoop delim [] 0 cur d q = [TrimSpace cur] := by
  rw [safeSplitLoop]
  simp [h]

/-- Inside a quoted run the scan steps over every byte but the quote. -/
theorem safeSplitLoop_quoted (delim : Str) (t : Str) :
    ∀ (r cur : Str) (d : Int), (∀ c ∈ t, c ≠ 34) →
      safeSplitLoop delim (t ++ r) 0 cur d true = safeSplitLoop delim r 0 (cur ++ t) d true := by
  induction t with
  | nil => intro r cur d _; simp
  | cons c t ih =>
    intro r cur d h
    have hc : (c == 34) = false := by simpa using h c (by simp)
    rw [List.cons_append, safeSplitLoop]
    simp only [depthAfter, quoteAfter, hc]
    simp only [Bool.not_true, Bool.and_false, Bool.false_and, Bool.false_eq_true, if_false]
    rw [ih r _ d (fun x hx => h x (by simp [hx]))]
    simp

/-- The scan steps over a quote, which toggles the quote state. -/
theorem safeSplitLoop_quote (tl r cur : Str) (d : Int) (q : Bool) :
    safeSplitLoop (32 :: tl) (34 :: r) 0 cur d q = safeSplitLoop (32 :: tl) r 0 (cur ++ [34]) d (!q) := by
  rw [safeSplitLoop, isPrefixOf_cons_ne 32 34 tl r (by decide)]
  simp [depthAfter, quoteAfter]

/-- A word without a space and with a colon does not start with `body` followed by a
space, when `body` has no colon. -/
theorem not_isPrefixOf_word (body a r : Str) (h32 : 32 ∉ a) (h58 : 58 ∈ a) (hb : 58 ∉ body) :
    List.isPrefixOf (body ++ [32]) (a ++ r) = false := by
  rw [Bool.eq_false_iff]
  intro hp
  rw [List.isPrefixOf_iff_prefix] at hp
  rcases List.prefix_or_prefix_of_prefix hp (List.prefix_append a r) with h | h
  · exact h32 (h.subset (by simp))
  · have := h.subset h58
    simp at this
    exact hb this

/-! ## Terminal clauses -/

theorem stripParens_of_not_wrapped (n : Nat) (e : Str) (h : (utf8 "(").isPrefixOf e = false) :
    stripParens n e = some e := by
  cases n with
  | zero => rfl
  | succ n => rw [stripParens, h]; simp

/-- On a string that is trimmed, not wrapped, not split by either delimiter, without the
`not ` prefix and not a terms shorthand, `parseExpression` hands over to `parseTerm`. -/
theorem parseStep_terminal (g : Str → Result) (e : Str) (ht : TrimSpace e = e)
    (hp : (utf8 "(").isPrefixOf e = false) (hor : (safeSplit e delimOr).length ≤ 1)
    (hand : (safeSplit e delimAnd).length ≤ 1) (hnot : (utf8 "not ").isPrefixOf e = false)
    (hterms : termsPattern e = none) : parseStep g e = parseTerm e := by
  unfold parseStep
  rw [ht, stripParens_of_not_wrapped _ _ hp]
  simp only []
  rw [if_neg (by omega), if_neg (by omega), hnot, hterms]
  simp

theorem isFieldName_iff (f : Str) :
    isFieldName f = true ↔ f ≠ [] ∧ ∀ c ∈ f, isFieldChar c = true := by
  simp [isFieldName]

theorem isAlnum_iff (c : Nat) : isAlnum c = true ↔
    (48 ≤ c ∧ c ≤ 57) ∨ (65 ≤ c ∧ c ≤ 90) ∨ (97 ≤ c ∧ c ≤ 122) := by
  simp [isAlnum, isDigit]
  tauto

theorem isAlnumWord_iff (v : Str) :
    isAlnumWord v = true ↔ v ≠ [] ∧ ∀ c ∈ v, isAlnum c = true := by
  simp [isAlnumWord]

theorem isDigits_iff (v : Str) :
    isDigits v = true ↔ v ≠ [] ∧ ∀ c ∈ v, isDigit c = true := by
  simp [isDigits]

theorem isFieldChar_of_isAlnum (c : Nat) (h : isAlnum c = true) : isFieldChar c = true := by
  rw [isAlnum_iff] at h
  rw [isFieldChar_iff]
  omega

theorem head_mem (s : Str) (c : Nat) (h : s.head? = some c) : c ∈ s := by
  cases s with
  | nil => simp at h
  | cons a s => simp at h; simp [h]

theorem getLast_mem (s : Str) (c : Nat) (h : s.getLast? = some c) : c ∈ s :=
  List.mem_of_getLast?_eq_some h

/-- Trimming leaves a string alone when its end bytes are inert. -/
theorem TrimSpace_of_ends (s : Str) (hh : ∀ c, s.head? = some c → isInert c = true)
    (hl : ∀ c, s.getLast? = some c → isInert c = true) : TrimSpace s = s :=
  TrimSpace_eq_self s (fun c hc => isSolid_of_isInert c (hh c hc))
    (fun c hc => isSolid_of_isInert c (hl c hc))

theorem TrimSpace_inert (s : Str) (h : ∀ c ∈ s, isInert c = true) : TrimSpace s = s :=
  TrimSpace_of_ends s (fun c hc => h c (head_mem s c hc)) (fun c hc => h c (getLast_mem s c hc))

/-- `strings.Trim` leaves a string alone when its end bytes are outside the cutset. -/
theorem Trim_eq_self (s cut : Str) (hh : ∀ c, s.head? = some c → cut.contains c = false)
    (hl : ∀ c, s.getLast? = some c → cut.contains c = false) : Trim s cut = s := by
  unfold Trim
  have h1 : s.reverse.dropWhile (fun c => cut.contains c) = s.reverse := by
    rcases hr : s.reverse with _ | ⟨l, m⟩
    · rfl
    · have : s.getLast? = some l := by
        rw [List.getLast?_eq_head?_reverse, hr]; simp
      rw [List.dropWhile_cons_of_neg]
      simp only [hl l this, Bool.false_eq_true, not_false_eq_true]
  rw [h1, List.reverse_reverse]
  cases s with
  | nil => rfl
  | cons a s =>
    rw [List.dropWhile_cons_of_neg]
    simp only [hh a (by simp), Bool.false_eq_true, not_false_eq_true]

/-- `strings.Trim` with the cutset of `parseTerm` removes the quotes around a string whose
own end bytes are neither quote nor space. -/
theorem Trim_quoted (t : Str) (hh : ∀ c, t.head? = some c → c ≠ 34 ∧ c ≠ 32)
    (hl : ∀ c, t.getLast? = some c → c ≠ 34 ∧ c ≠ 32) :
    Trim (34 :: (t ++ [34])) [34, 32] = t := by
  have hs : Trim t [34, 32] = t := by
    apply Trim_eq_self
    · intro c hc; have := hh c hc; simp; omega
    · intro c hc; have := hl c hc; simp; omega
  unfold Trim at hs ⊢
  have e1 : (34 :: (t ++ [34])).reverse = 34 :: (t.reverse ++ [34]) := by simp
  rw [e1, List.dropWhile_cons_of_pos (by simp)]
  have e2 : (t.reverse ++ [34]).dropWhile (fun c => [34, 32].contains c) =
      if t = [] then [] else t.reverse ++ [34] := by
    rcases hr : t.reverse with _ | ⟨l, m⟩
    · have : t = [] := by simpa using hr
      simp [this]
    · have hne : t ≠ [] := by intro h; simp [h] at hr
      have hlast : t.getLast? = some l := by
        rw [List.getLast?_eq_head?_reverse, hr]; simp
      have := hl l hlast
      rw [if_neg hne, List.cons_append, List.dropWhile_cons_of_neg]
      simp; omega
  rw [e2]
  by_cases ht : t = []
  · simp [ht]
  · rw [if_neg ht]
    simp only [List.reverse_append, List.reverse_reverse, List.reverse_cons, List.reverse_nil,
      List.nil_append, List.singleton_append]
    rw [List.dropWhile_cons_of_pos (by simp)]
    cases t with
    | nil => exact absurd rfl ht
    | cons a t =>
      have := hh a (by simp)
      rw [List.dropWhile_cons_of_neg]
      simp; omega

theorem takeWhile_stop (p : Nat → Bool) (w : Str) (c : Nat) (r : Str)
    (hw : ∀ x ∈ w, p x = true) (hc : p c = false) : (w ++ c :: r).takeWhile p = w := by
  rw [List.takeWhile_append_of_pos hw, List.takeWhile_cons_of_neg (by simp [hc])]
  simp

theorem dropWhile_stop (p : Nat → Bool) (w : Str) (c : Nat) (r : Str)
    (hw : ∀ x ∈ w, p x = true) (hc : p c = false) : (w ++ c :: r).dropWhile p = c :: r := by
  rw [List.dropWhile_append_of_pos hw, List.dropWhile_cons_of_neg (by simp [hc])]

theorem dropWhile_all (p : Nat → Bool) (w : Str) (hw : ∀ x ∈ w, p x = true) :
    w.dropWhile p = [] := by
  rw [List.dropWhile_eq_nil_iff]; exact hw

theorem takeWhile_all (p : Nat → Bool) (w : Str) (hw : ∀ x ∈ w, p x = true) :
    w.takeWhile p = w := by
  rw [List.takeWhile_eq_self_iff]; exact hw

theorem isFieldChar_ne (c x : Nat) (h : isFieldChar c = true)
    (hx : isFieldChar x = false) : c ≠ x := by
  intro e; subst e; rw [h] at hx; exact Bool.noConfusion hx

theorem rangeRegex_clause (f rest : Str) (hf : isFieldName f = true) :
    rangeRegex (f ++ 58 :: rest) = none := by
  rw [isFieldName_iff] at hf
  unfold rangeRegex
  rw [takeWhile_stop isFieldChar f 58 rest hf.2 (by decide),
    dropWhile_stop isFieldChar f 58 rest hf.2 (by decide)]
  have : f.isEmpty = false := by simpa using hf.1
  simp [this, isReSpace]

/-- What `parseTerm` does with `field:rest`. -/
theorem parseTerm_clause (f rest : Str) (hf : isFieldName f = true)
    (ht : TrimSpace (f ++ 58 :: rest) = f ++ 58 :: rest) :
    parseTerm (f ++ 58 :: rest) = classify f (Trim (TrimSpace rest) (utf8 "\" ")) := by
  have hf2 := (isFieldName_iff f).mp hf
  have hne : ∀ x ∈ f, (fun c => c != 58) x = true := by
    intro x hx
    have := isFieldChar_ne x 58 (hf2.2 x hx) (by decide)
    simpa using this
  have htf : TrimSpace f = f :=
    TrimSpace_inert f (fun c hc => isInert_of_isFieldChar c (hf2.2 c hc))
  unfold parseTerm
  simp only [ht, rangeRegex_clause f rest hf]
  rw [takeWhile_stop (fun c => c != 58) f 58 rest hne (by simp),
    dropWhile_stop (fun c => c != 58) f 58 rest hne (by simp), htf]
  have hc : (f ++ 58 :: rest).contains 58 = true := by simp
  rw [if_pos hc]
  rfl

theorem termsPattern_clause (f rest : Str) (hf : isFieldName f = true)
    (hr : rest.head? ≠ some 40) : termsPattern (f ++ 58 :: rest) = none := by
  rw [isFieldName_iff] at hf
  unfold termsPattern
  rw [dropWhile_stop isFieldChar f 58 rest hf.2 (by decide)]
  cases rest with
  | nil => rfl
  | cons c rest =>
    have : (c == 40) = false := by simpa using hr
    simp [this]

theorem not_prefix_clause (f rest : Str) (hf : isFieldName f = true) :
    (utf8 "not ").isPrefixOf (f ++ 58 :: rest) = false := by
  rw [isFieldName_iff] at hf
  have := not_isPrefixOf_word [110, 111, 116] (f ++ [58]) rest
    (by
      intro h
      rcases List.mem_append.mp h with h | h
      · exact isFieldChar_ne 32 32 (hf.2 32 h) (by decide) rfl
      · simp at h)
    (by simp) (by decide)
  simpa [utf8_not] using this

theorem lparen_prefix_clause (f rest : Str) (hf : isFieldName f = true) :
    (utf8 "(").isPrefixOf (f ++ rest) = false := by
  rw [isFieldName_iff] at hf
  cases f with
  | nil => exact absurd rfl hf.1
  | cons a f =>
    rw [utf8_lparen, List.cons_append]
    exact isPrefixOf_cons_ne 40 a [] _ (isFieldChar_ne a 40 (hf.2 a (by simp)) (by decide))

/-- A `field:rest` string that no delimiter splits is classified by `parseTerm`. -/
theorem parseStep_clause (g : Str → Result) (f rest : Str) (hf : isFieldName f = true)
    (ht : TrimSpace (f ++ 58 :: rest) = f ++ 58 :: rest) (hr : rest.head? ≠ some 40)
    (hor : (safeSplit (f ++ 58 :: rest) delimOr).length ≤ 1)
    (hand : (safeSplit (f ++ 58 :: rest) delimAnd).length ≤ 1) :
    parseStep g (f ++ 58 :: rest) = classify f (Trim (TrimSpace rest) (utf8 "\" ")) := by
  rw [parseStep_terminal g _ ht (lparen_prefix_clause f _ hf) hor hand
    (not_prefix_clause f rest hf) (termsPattern_clause f rest hf hr)]
  exact parseTerm_clause f rest hf ht

theorem safeSplit_inert (tl w : Str) (hne : w ≠ []) (h : ∀ c ∈ w, isInert c = true) :
    safeSplit w (32 :: tl) = [w] := by
  unfold safeSplit
  have := safeSplitLoop_inert tl w [] [] 0 false h
  rw [List.append_nil] at this
  rw [this, safeSplitLoop_nil _ _ _ _ (by simpa using hne)]
  simp [TrimSpace_inert w h]

theorem normalizeRuns_plain (w : Str) :
    ∀ (b : Bool) (r : Str), w ≠ [] → (∀ c ∈ w, isReSpace c = false) →
      normalizeRuns b (w ++ r) = w ++ normalizeRuns false r := by
  induction w with
  | nil => intro b r h; exact absurd rfl h
  | cons c w ih =>
    intro b r _ h
    rw [List.cons_append, normalizeRuns, h c (by simp)]
    cases w with
    | nil => simp
    | cons d w =>
      rw [ih false r (by simp) (fun x hx => h x (by simp [hx]))]
      simp

theorem normalizeWhitespace_plain (w : Str) (h : ∀ c ∈ w, isReSpace c = false) :
    normalizeWhitespace w = w := by
  cases w with
  | nil => rfl
  | cons c w =>
    have := normalizeRuns_plain (c :: w) false [] (by simp) h
    simpa [normalizeWhitespace, normalizeRuns] using this

theorem isReSpace_of_isInert (c : Nat) (h : isInert c = true) : isReSpace c = false := by
  rw [isInert_iff] at h
  simp [isReSpace]; omega

/-- On a normalized, trimmed, non-empty input `ConvertKQL2DSL` is `parseExpression`. -/
theorem ConvertKQL2DSL_eq (e : Str) (hn : normalizeWhitespace e = e) (ht : TrimSpace e = e)
    (hne : e ≠ []) : ConvertKQL2DSL e = parseExpression e := by
  unfold ConvertKQL2DSL
  simp only [hn, ht]
  rw [if_neg (by simpa using hne)]

theorem safeSplit_quoted (tl w t : Str) (hw : ∀ c ∈ w, isInert c = true)
    (ht : ∀ c ∈ t, c ≠ 34) :
    safeSplit (w ++ 34 :: (t ++ [34])) (32 :: tl) = [TrimSpace (w ++ 34 :: (t ++ [34]))] := by
  unfold safeSplit
  rw [safeSplitLoop_inert tl w _ _ _ _ hw, safeSplitLoop_quote, Bool.not_false,
    safeSplitLoop_quoted _ t _ _ _ ht, safeSplitLoop_quote, safeSplitLoop_nil _ _ _ _ (by simp)]
  simp

theorem not_prefix_of_not_mem (p w : Str) (c : Nat) (hc : c ∈ p) (hw : c ∉ w) :
    p.isPrefixOf w = false := by
  rw [Bool.eq_false_iff]
  intro h
  rw [List.isPrefixOf_iff_prefix] at h
  exact hw (h.subset hc)

theorem classify_plain (f v : Str) (hf : f ≠ utf8 "_exists_") (hq : v.head? ≠ some 34)
    (hs : v.contains 42 = false) : classify f v = .ok (.term f v) := by
  unfold classify
  have h1 : (f == utf8 "_exists_") = false := by simpa using hf
  have h2 : (utf8 "\"").isPrefixOf v = false := by
    rw [utf8_quote]
    cases v with
    | nil => rfl
    | cons a v =>
      apply isPrefixOf_cons_ne
      intro e; subst e; simp at hq
  simp at hs
  simp [h1, h2, hs]

theorem classify_glob (f v : Str) (hf : f ≠ utf8 "_exists_") (hq : v.head? ≠ some 34)
    (hs : v.contains 42 = true) : classify f v = .ok (.wildcard f v) := by
  unfold classify
  have h1 : (f == utf8 "_exists_") = false := by simpa using hf
  have h2 : (utf8 "\"").isPrefixOf v = false := by
    rw [utf8_quote]
    cases v with
    | nil => rfl
    | cons a v =>
      apply isPrefixOf_cons_ne
      intro e; subst e; simp at hq
  simp at hs
  simp [h1, h2, hs]

theorem isInert_of_isAlnum (c : Nat) (h : isAlnum c = true) : isInert c = true :=
  isInert_of_isFieldChar c (isFieldChar_of_isAlnum c h)

/-- A clause `field:value` whose value is made of inert bytes: what `ConvertKQL2DSL`
returns. -/
theorem ConvertKQL2DSL_clause (f v : Str) (hf : isFieldName f = true) (hne : v ≠ [])
    (hv : ∀ c ∈ v, isInert c = true) :
    ConvertKQL2DSL (f ++ 58 :: v) = classify f v ∧ parseExpression (f ++ 58 :: v) = classify f v := by
  have hf2 := (isFieldName_iff f).mp hf
  have hall : ∀ c ∈ f ++ 58 :: v, isInert c = true := by
    intro c hc
    rcases List.mem_append.mp hc with h | h
    · exact isInert_of_isFieldChar c (hf2.2 c h)
    · rcases List.mem_cons.mp h with h | h
      · subst h; decide
      · exact hv c h
  have ht : TrimSpace (f ++ 58 :: v) = f ++ 58 :: v := TrimSpace_inert _ hall
  have hp : parseExpression (f ++ 58 :: v) = classify f v := by
    rw [parseExpression_eq, parseStep_clause _ f v hf ht
      (by
        cases v with
        | nil => simp
        | cons a v =>
          intro e
          have := hv a (by simp)
          simp at e; subst e; exact absurd this (by decide))
      (by rw [delimOr_eq, safeSplit_inert _ _ (by simp) hall]; simp)
      (by rw [delimAnd_eq, safeSplit_inert _ _ (by simp) hall]; simp)]
    rw [TrimSpace_inert v hv, utf8_quote_space, Trim_eq_self]
    · intro c hc
      have := (isInert_iff c).mp (hv c (head_mem v c hc))
      simp; omega
    · intro c hc
      have := (isInert_iff c).mp (hv c (getLast_mem v c hc))
      simp; omega
  refine ⟨?_, hp⟩
  rw [ConvertKQL2DSL_eq _ (normalizeWhitespace_plain _
    (fun c hc => isReSpace_of_isInert c (hall c hc))) ht (by simp), hp]

/-! ## Claims on single clauses -/

theorem isGlob_iff (t : Str) : isGlob t = true ↔
    (∀ c ∈ t, isAlnum c = true ∨ c = 45 ∨ c = 46 ∨ c = 42) ∧ 42 ∈ t := by
  simp [isGlob, or_assoc]

theorem quoteState_count (e : Str) :
    ∀ q, quoteState q e = (if e.count 34 % 2 = 0 then q else !q) := by
  induction e with
  | nil => intro q; simp [quoteState]
  | cons c e ih =>
    intro q
    rw [quoteState, ih]
    by_cases hc : c = 34
    · subst hc
      simp only [beq_self_eq_true, if_true, List.count_cons_self]
      by_cases h : e.count 34 % 2 = 0
      · have : (e.count 34 + 1) % 2 ≠ 0 := by omega
        simp [h, this]
      · have : (e.count 34 + 1) % 2 = 0 := by omega
        simp [h, this]
    · have h1 : (c == 34) = false := by simpa using hc
      have h2 : (c :: e).count 34 = e.count 34 := by
        rw [List.count_cons]; simp [hc]
      simp [h1, h2]

/-- C1: for the quoted value of `message:"exact phrase"` the code returns a Term node, not
the MatchPhrase node: the quotes are trimmed off before the test for a quoted value. -/
theorem C1_quoted_value_yields_term :
    ConvertKQL2DSL (utf8 "message:\"exact phrase\"") =
      .ok (.term (utf8 "message") (utf8 "exact phrase")) ∧
    ConvertKQL2DSL (utf8 "message:\"exact phrase\"") ≠
      .ok (.matchPhrase (utf8 "message") (utf8 "exact phrase")) := by
  have h : ConvertKQL2DSL (utf8 "message:\"exact phrase\"") =
      .ok (.term (utf8 "message") (utf8 "exact phrase")) := by rfl
  refine ⟨h, ?_⟩
  rw [h]
  intro e
  injection e with e
  exact Query.noConfusion e

/-- C4, as amended: wrapping a balanced string in one pair of parentheses does not change
what `parseExpression` returns, and neither does wrapping it in any number of pairs when
the string has an even number of double quotes. -/
theorem C4_redundant_parentheses (e : Str) (h : balancedParentheses e = true) :
    parseExpression (utf8 "(" ++ e ++ utf8 ")") = parseExpression e ∧
    (e.count 34 % 2 = 0 → ∀ n : Nat, parseExpression (wrap n e) = parseExpression e) := by
  refine ⟨parseExpression_wrapped e h, fun hq n => parseExpression_wrap e h ?_ n⟩
  rw [quoteState_count, if_pos hq]

/-- C4, witness: `a:1` wrapped three times. -/
theorem C4_redundant_parentheses_witness :
    balancedParentheses (utf8 "a:1") = true ∧
    parseExpression (utf8 "(a:1)") = parseExpression (utf8 "a:1") ∧
    parseExpression (utf8 "(((a:1)))") = parseExpression (utf8 "a:1") :=
  ⟨by decide, (C4_redundant_parentheses (utf8 "a:1") (by decide)).1,
    (C4_redundant_parentheses (utf8 "a:1") (by decide)).2 (by decide) 3⟩

/-- C4, counterexample: the balanced string made of one double quote, wrapped twice, is not
parsed like the string itself. -/
theorem C4_double_wrap_counterexample :
    balancedParentheses (utf8 "\"") = true ∧
    parseExpression (utf8 "((\"))") ≠ parseExpression (utf8 "\"") := by
  refine ⟨by decide, ?_⟩
  rw [show parseExpression (utf8 "((\"))") =
      .error (.message (utf8 "unrecognized expression: ((\"))")) from rfl,
    show parseExpression (utf8 "\"") =
      .error (.message (utf8 "unrecognized expression: \"")) from rfl]
  intro h
  injection h with h
  injection h with h
  exact absurd h (by decide)

/-- C7: a Term node `field:value` and an Exists node `_exists_:field` are parsed back from
their textual form. -/
theorem C7_round_trip (f v : Str) (hf : isFieldName f = true) (hv : isAlnumWord v = true) :
    (f ≠ utf8 "_exists_" → ConvertKQL2DSL (render (.term f v)) = .ok (.term f v)) ∧
    ConvertKQL2DSL (render (.existsField f)) = .ok (.existsField f) := by
  have hf2 := (isFieldName_iff f).mp hf
  have hv2 := (isAlnumWord_iff v).mp hv
  constructor
  · intro hne
    have hvi : ∀ c ∈ v, isInert c = true := fun c hc => isInert_of_isAlnum c (hv2.2 c hc)
    show ConvertKQL2DSL (f ++ utf8 ":" ++ v) = _
    rw [utf8_colon, List.append_assoc, List.singleton_append,
      (ConvertKQL2DSL_clause f v hf hv2.1 hvi).1]
    apply classify_plain f v hne
    · cases v with
      | nil => simp
      | cons a v =>
        have := hvi a (by simp)
        intro e; simp at e; subst e; exact absurd this (by decide)
    · have : 42 ∉ v := fun h => absurd (hv2.2 42 h) (by decide)
      simpa using this
  · have hfi : ∀ c ∈ f, isInert c = true := fun c hc => isInert_of_isFieldChar c (hf2.2 c hc)
    show ConvertKQL2DSL (utf8 "_exists_:" ++ f) = _
    have e1 : utf8 "_exists_:" ++ f = utf8 "_exists_" ++ 58 :: f := by
      rw [show utf8 "_exists_:" = utf8 "_exists_" ++ [58] from rfl]; simp
    rw [e1, (ConvertKQL2DSL_clause (utf8 "_exists_") f (by decide) hf2.1 hfi).1]
    simp [classify]

/-- C7, witness: `status:500` and `_exists_:error.message`. -/
theorem C7_round_trip_witness :
    ConvertKQL2DSL (utf8 "status:500") = .ok (.term (utf8 "status") (utf8 "500")) ∧
    ConvertKQL2DSL (utf8 "_exists_:error.message") = .ok (.existsField (utf8 "error.message")) :=
  ⟨(C7_round_trip (utf8 "status") (utf8 "500") (by decide) (by decide)).1 (by decide),
    (C7_round_trip (utf8 "error.message") (utf8 "0") (by decide) (by decide)).2⟩

theorem getLast?_append_singleton (s : Str) (c : Nat) : (s ++ [c]).getLast? = some c := by
  simp

/-- A clause `field:"text"` whose text is made of inert bytes: what `ConvertKQL2DSL`
returns. -/
theorem ConvertKQL2DSL_quoted (f t : Str) (hf : isFieldName f = true)
    (ht : ∀ c ∈ t, isInert c = true) :
    ConvertKQL2DSL (f ++ 58 :: 34 :: (t ++ [34])) = classify f t := by
  have hf2 := (isFieldName_iff f).mp hf
  have hfi : ∀ c ∈ f, isInert c = true := fun c hc => isInert_of_isFieldChar c (hf2.2 c hc)
  have hlast : (f ++ 58 :: 34 :: (t ++ [34])).getLast? = some 34 := by
    have : f ++ 58 :: 34 :: (t ++ [34]) = (f ++ 58 :: 34 :: t) ++ [34] := by simp
    rw [this]; exact getLast?_append_singleton _ _
  have hts : TrimSpace (f ++ 58 :: 34 :: (t ++ [34])) = f ++ 58 :: 34 :: (t ++ [34]) := by
    apply TrimSpace_eq_self
    · intro c hc
      cases f with
      | nil => exact absurd rfl hf2.1
      | cons a f =>
        simp at hc; subst hc
        exact isSolid_of_isInert _ (hfi _ (by simp))
    · intro c hc
      rw [hlast] at hc; simp at hc; subst hc; decide
  have hsp : ∀ c ∈ f ++ 58 :: 34 :: (t ++ [34]), isReSpace c = false := by
    intro c hc
    simp only [List.mem_append, List.mem_cons, List.mem_singleton, List.not_mem_nil,
      or_false] at hc
    rcases hc with h | h | h | h | h
    · exact isReSpace_of_isInert c (hfi c h)
    · subst h; decide
    · subst h; decide
    · exact isReSpace_of_isInert c (ht c h)
    · subst h; decide
  have hw : ∀ c ∈ f ++ [58], isInert c = true := by
    intro c hc
    rcases List.mem_append.mp hc with h | h
    · exact hfi c h
    · simp at h; subst h; decide
  have hq : ∀ c ∈ t, c ≠ 34 := by
    intro c hc e; subst e; exact absurd (ht 34 hc) (by decide)
  have hsplit : ∀ tl : Str,
      (safeSplit (f ++ 58 :: 34 :: (t ++ [34])) (32 :: tl)).length ≤ 1 := by
    intro tl
    have : f ++ 58 :: 34 :: (t ++ [34]) = (f ++ [58]) ++ 34 :: (t ++ [34]) := by simp
    rw [this, safeSplit_quoted tl _ t hw hq]
    simp
  have htr : TrimSpace (34 :: (t ++ [34])) = 34 :: (t ++ [34]) := by
    apply TrimSpace_eq_self
    · intro c hc; simp at hc; subst hc; decide
    · intro c hc
      have : (34 :: (t ++ [34])).getLast? = some 34 := by
        rw [← List.cons_append]; exact getLast?_append_singleton _ _
      rw [this] at hc; simp at hc; subst hc; decide
  rw [ConvertKQL2DSL_eq _ (normalizeWhitespace_plain _ hsp) hts (by simp), parseExpression_eq,
    parseStep_clause _ f _ hf hts (by simp) (by rw [delimOr_eq]; exact hsplit _)
      (by rw [delimAnd_eq]; exact hsplit _),
    htr, utf8_quote_space, Trim_quoted]
  · intro c hc
    have := (isInert_iff c).mp (ht c (head_mem t c hc))
    omega
  · intro c hc
    have := (isInert_iff c).mp (ht c (getLast_mem t c hc))
    omega

/-- C8: a quoted value with a `*` is classified as a wildcard, its quotes removed. -/
theorem C8_quoted_wildcard (f t : Str) (hf : isFieldName f = true) (hne : f ≠ utf8 "_exists_")
    (ht : isGlob t = true) :
    ConvertKQL2DSL (f ++ utf8 ":\"" ++ t ++ utf8 "\"") = .ok (.wildcard f t) := by
  have ht2 := (isGlob_iff t).mp ht
  have hti : ∀ c ∈ t, isInert c = true := by
    intro c hc
    rcases ht2.1 c hc with h | h | h | h
    · exact isInert_of_isAlnum c h
    · subst h; decide
    · subst h; decide
    · subst h; decide
  have e1 : f ++ utf8 ":\"" ++ t ++ utf8 "\"" = f ++ 58 :: 34 :: (t ++ [34]) := by
    rw [show utf8 ":\"" = [58, 34] from rfl, utf8_quote]; simp
  rw [e1, ConvertKQL2DSL_quoted f t hf hti]
  apply classify_glob f t hne
  · cases t with
    | nil => simp
    | cons a t =>
      have := hti a (by simp)
      intro e; simp at e; subst e; exact absurd this (by decide)
  · simpa using ht2.2

/-- C8, witness: `host.name:"web-*"`. -/
theorem C8_quoted_wildcard_witness :
    isFieldName (utf8 "host.name") = true ∧ utf8 "host.name" ≠ utf8 "_exists_" ∧
    isGlob (utf8 "web-*") = true ∧
    ConvertKQL2DSL (utf8 "host.name:\"web-*\"") =
      .ok (.wildcard (utf8 "host.name") (utf8 "web-*")) :=
  ⟨by decide, by decide, by decide,
    C8_quoted_wildcard (utf8 "host.name") (utf8 "web-*") (by decide) (by decide) (by decide)⟩

/-- C10: a bare word, with no colon and no comparator, is rejected with the
unrecognized-expression error that carries the word. -/
theorem C10_bare_word_rejected (w : Str) (hw : isFieldName w = true) :
    ConvertKQL2DSL w = .error (.message (utf8 "unrecognized expression: " ++ w)) := by
  have hw2 := (isFieldName_iff w).mp hw
  have hwi : ∀ c ∈ w, isInert c = true := fun c hc => isInert_of_isFieldChar c (hw2.2 c hc)
  have hts : TrimSpace w = w := TrimSpace_inert w hwi
  have h32 : 32 ∉ w := fun h => absurd (hwi 32 h) (by decide)
  have h58 : 58 ∉ w := fun h => absurd (hw2.2 58 h) (by decide)
  have hterms : termsPattern w = none := by
    unfold termsPattern
    rw [dropWhile_all isFieldChar w hw2.2]
  have hrange : rangeRegex w = none := by
    unfold rangeRegex
    rw [dropWhile_all isFieldChar w hw2.2, takeWhile_all isFieldChar w hw2.2]
    simp
  rw [ConvertKQL2DSL_eq _ (normalizeWhitespace_plain _
    (fun c hc => isReSpace_of_isInert c (hwi c hc))) hts hw2.1, parseExpression_eq,
    parseStep_terminal _ w hts
      (by have := lparen_prefix_clause w [] hw; simpa using this)
      (by rw [delimOr_eq, safeSplit_inert _ _ hw2.1 hwi]; simp)
      (by rw [delimAnd_eq, safeSplit_inert _ _ hw2.1 hwi]; simp)
      (by rw [utf8_not]; exact not_prefix_of_not_mem _ w 32 (by simp) h32) hterms]
  unfold parseTerm
  simp only [hts, hrange]
  have hc : w.contains 58 = false := by simpa using h58
  rw [hc]
  simp

/-- C10, witness: `field`. -/
theorem C10_bare_word_rejected_witness :
    isFieldName (utf8 "field") = true ∧
    ConvertKQL2DSL (utf8 "field") = .error (.message (utf8 "unrecognized expression: field")) :=
  ⟨by decide, C10_bare_word_rejected (utf8 "field") (by decide)⟩

/-! ## Space-separated words -/

/-- The scan steps over space-separated inert words at none of which the delimiter
starts. -/
theorem safeSplitLoop_spaced (tl : Str) (ws : List Str) :
    ∀ (r cur : Str) (d : Int) (q : Bool),
      (∀ w ∈ ws, (∀ c ∈ w, isInert c = true) ∧
        ∀ r2 : Str, List.isPrefixOf (32 :: tl) (32 :: (w ++ r2)) = false) →
      safeSplitLoop (32 :: tl) (spaced ws ++ r) 0 cur d q =
        safeSplitLoop (32 :: tl) r 0 (cur ++ spaced ws) d q := by
  induction ws with
  | nil => intro r cur d q _; simp [spaced]
  | cons w ws ih =>
    intro r cur d q h
    have hw := h w (by simp)
    simp only [spaced, List.cons_append, List.append_assoc]
    rw [safeSplitLoop_space _ _ _ _ _ (hw.2 _), safeSplitLoop_inert tl w _ _ _ _ hw.1,
      ih r _ d q (fun x hx => h x (by simp [hx]))]
    simp

theorem normalizeRuns_spaced (ws : List Str) :
    ∀ r : Str, (∀ w ∈ ws, w ≠ [] ∧ ∀ c ∈ w, isReSpace c = false) →
      normalizeRuns false (spaced ws ++ r) = spaced ws ++ normalizeRuns false r := by
  induction ws with
  | nil => intro r _; simp [spaced]
  | cons w ws ih =>
    intro r h
    have hw := h w (by simp)
    simp only [spaced, List.cons_append, List.append_assoc]
    rw [normalizeRuns]
    simp only [show isReSpace 32 = true from rfl, if_true, Bool.false_eq_true, if_false]
    rw [normalizeRuns_plain w true _ hw.1 hw.2, ih r (fun x hx => h x (by simp [hx]))]

/-- A first word followed by space-separated words is left alone by
`normalizeWhitespace`. -/
theorem normalizeWhitespace_words (w : Str) (ws : List Str) (hw : w ≠ [])
    (hw2 : ∀ c ∈ w, isReSpace c = false)
    (h : ∀ x ∈ ws, x ≠ [] ∧ ∀ c ∈ x, isReSpace c = false) :
    normalizeWhitespace (w ++ spaced ws) = w ++ spaced ws := by
  unfold normalizeWhitespace
  rw [normalizeRuns_plain w false _ hw hw2]
  have := normalizeRuns_spaced ws [] h
  simp only [List.append_nil] at this
  rw [this]
  simp [normalizeRuns]

/-- A delimiter does not start at a space followed by a word with another first byte. -/
theorem not_start_of_head (x : Nat) (tl w : Str) (hw : w ≠ []) (h : w.head? ≠ some x) :
    ∀ r2 : Str, List.isPrefixOf (32 :: x :: tl) (32 :: (w ++ r2)) = false := by
  intro r2
  cases w with
  | nil => exact absurd rfl hw
  | cons a w =>
    have : a ≠ x := by intro e; subst e; simp at h
    simp only [List.cons_append, List.isPrefixOf, beq_self_eq_true, Bool.true_and]
    rw [show (x == a) = false from by simpa using fun e : x = a => this e.symm]
    rfl

/-- A delimiter `body` between spaces does not start at a space followed by a word with a
colon and no space. -/
theorem not_start_of_colon (body w : Str) (hb : 58 ∉ body) (h32 : 32 ∉ w) (h58 : 58 ∈ w) :
    ∀ r2 : Str, List.isPrefixOf (32 :: (body ++ [32])) (32 :: (w ++ r2)) = false := by
  intro r2
  have := not_isPrefixOf_word body w r2 h32 h58 hb
  simpa [List.isPrefixOf] using this

/-- A prefix `body` followed by a space, of a word without space followed by a space, is
the word. -/
theorem eq_of_isPrefixOf_space (body : Str) :
    ∀ (f r : Str), 32 ∉ body → 32 ∉ f →
      List.isPrefixOf (body ++ [32]) (f ++ 32 :: r) = true → f = body := by
  induction body with
  | nil =>
    intro f r _ hf h
    cases f with
    | nil => rfl
    | cons a f =>
      simp [List.isPrefixOf] at h
      subst h
      simp at hf
  | cons b body ih =>
    intro f r hb hf h
    cases f with
    | nil =>
      simp [List.isPrefixOf] at h
      exact absurd h.1.symm (by intro e; subst e; simp at hb)
    | cons a f =>
      simp only [List.cons_append, List.isPrefixOf, Bool.and_eq_true, beq_iff_eq] at h
      have := ih f r (fun hm => hb (by simp [hm])) (fun hm => hf (by simp [hm])) h.2
      rw [h.1, this]

/-! ## Range clauses -/

theorem isDigit_iff (c : Nat) : isDigit c = true ↔ 48 ≤ c ∧ c ≤ 57 := by
  simp [isDigit]

theorem isInert_of_isDigit (c : Nat) (h : isDigit c = true) : isInert c = true := by
  rw [isDigit_iff] at h
  rw [isInert_iff]
  omega

theorem matchValue_digits (v : Str) (hv : isDigits v = true) : matchValue v = true := by
  rw [isDigits_iff] at hv
  unfold matchValue
  have h1 : v.isEmpty = false := by simpa using hv.1
  have h2 : v.all isDigit = true := by simpa using hv.2
  simp only [h1, h2]
  simp

theorem getLast?_append_ne (s v : Str) (hv : v ≠ []) : (s ++ v).getLast? = v.getLast? := by
  rw [List.getLast?_append]
  cases h : v.getLast? with
  | none => simp at h; exact absurd h hv
  | some c => simp

/-- What `rangeRegex` finds in `field op value` for a value of digits. -/
theorem rangeRegex_range (f v eq : Str) (o : Nat) (hf : isFieldName f = true)
    (hv : isDigits v = true) (ho : o = 62 ∨ o = 60) (heq : eq = [] ∨ eq = [61]) :
    rangeRegex (f ++ 32 :: o :: (eq ++ 32 :: v)) = some (f, o :: eq, v) := by
  have hf2 := (isFieldName_iff f).mp hf
  have hv2 := (isDigits_iff v).mp hv
  have hm := matchValue_digits v hv
  have hfe : f.isEmpty = false := by simpa using hf2.1
  have htw : (32 :: v).takeWhile isReSpace = [32] := by
    cases v with
    | nil => exact absurd rfl hv2.1
    | cons a v =>
      have := isReSpace_of_isInert a (isInert_of_isDigit a (hv2.2 a (by simp)))
      rw [List.takeWhile_cons_of_pos (by decide), List.takeWhile_cons_of_neg (by simp [this])]
  unfold rangeRegex
  rw [takeWhile_stop isFieldChar f 32 _ hf2.2 (by decide),
    dropWhile_stop isFieldChar f 32 _ hf2.2 (by decide)]
  simp only [hfe, Bool.false_eq_true, if_false]
  have hos : isReSpace o = false := by rcases ho with h | h <;> subst h <;> decide
  rw [List.dropWhile_cons_of_pos (by decide), List.dropWhile_cons_of_neg (by simp [hos])]
  have ho2 : (o == 62 || o == 60) = true := by rcases ho with h | h <;> subst h <;> decide
  simp only [ho2, if_true]
  rcases heq with h | h
  · subst h
    simp only [List.nil_append]
    simp only [show ((32 : Nat) == 61) = false from rfl, Bool.false_eq_true, if_false, htw]
    simp [rangeValue, hm]
  · subst h
    simp only [List.singleton_append, beq_self_eq_true, if_true, htw]
    simp [rangeValue, hm]

/-- What `ConvertKQL2DSL` returns for `field op value`, the field not being `not`. -/
theorem ConvertKQL2DSL_range (f v eq : Str) (o : Nat) (hf : isFieldName f = true)
    (hnot : f ≠ utf8 "not") (hv : isDigits v = true) (ho : o = 62 ∨ o = 60)
    (heq : eq = [] ∨ eq = [61]) :
    ConvertKQL2DSL (f ++ 32 :: o :: (eq ++ 32 :: v)) = .ok (.range f (opMap (o :: eq)) v) := by
  have hf2 := (isFieldName_iff f).mp hf
  have hv2 := (isDigits_iff v).mp hv
  have hfi : ∀ c ∈ f, isInert c = true := fun c hc => isInert_of_isFieldChar c (hf2.2 c hc)
  have hvi : ∀ c ∈ v, isInert c = true := fun c hc => isInert_of_isDigit c (hv2.2 c hc)
  have hwi : ∀ c ∈ o :: eq, isInert c = true := by
    intro c hc
    have : c = 62 ∨ c = 60 ∨ c = 61 := by
      rcases ho with h | h <;> rcases heq with h2 | h2 <;> subst h <;> subst h2 <;>
        simp at hc <;> omega
    rcases this with h | h | h <;> subst h <;> decide
  have hE : f ++ spaced [o :: eq, v] = f ++ 32 :: o :: (eq ++ 32 :: v) := by
    simp [spaced]
  have hvh : v.head? ≠ some 111 ∧ v.head? ≠ some 97 := by
    cases v with
    | nil => exact absurd rfl hv2.1
    | cons a v =>
      have := (isDigit_iff a).mp (hv2.2 a (by simp))
      constructor <;> (intro e; simp at e; omega)
  have hoh : (o :: eq).head? ≠ some 111 ∧ (o :: eq).head? ≠ some 97 := by
    rcases ho with h | h <;> subst h <;> simp
  have hts : TrimSpace (f ++ 32 :: o :: (eq ++ 32 :: v)) = f ++ 32 :: o :: (eq ++ 32 :: v) := by
    apply TrimSpace_of_ends
    · intro c hc
      cases f with
      | nil => exact absurd rfl hf2.1
      | cons a f => simp at hc; subst hc; exact hfi _ (by simp)
    · intro c hc
      have e1 : f ++ 32 :: o :: (eq ++ 32 :: v) = (f ++ 32 :: o :: (eq ++ [32])) ++ v := by simp
      rw [e1, getLast?_append_ne _ v hv2.1] at hc
      exact hvi c (getLast_mem v c hc)
  have hsplit : ∀ (x : Nat) (tl : Str), (o :: eq).head? ≠ some x → v.head? ≠ some x →
      (safeSplit (f ++ 32 :: o :: (eq ++ 32 :: v)) (32 :: x :: tl)).length ≤ 1 := by
    intro x tl h1 h2
    unfold safeSplit
    rw [← hE, safeSplitLoop_inert _ f _ _ _ _ hfi]
    have := safeSplitLoop_spaced (x :: tl) [o :: eq, v] [] ([] ++ f) 0 false (by
      intro w hw
      simp only [List.mem_cons, List.mem_singleton, List.not_mem_nil, or_false] at hw
      rcases hw with hw | hw
      · subst hw; exact ⟨hwi, not_start_of_head x tl _ (by simp) h1⟩
      · subst hw; exact ⟨hvi, not_start_of_head x tl _ hv2.1 h2⟩)
    rw [List.append_nil] at this
    rw [this, safeSplitLoop_nil _ _ _ _ (by simp [spaced])]
    simp
  have hnp : (utf8 "not ").isPrefixOf (f ++ 32 :: o :: (eq ++ 32 :: v)) = false := by
    rw [Bool.eq_false_iff]
    intro h
    have := eq_of_isPrefixOf_space [110, 111, 116] f _ (by decide)
      (fun hm => absurd (hfi 32 hm) (by decide)) (by rw [utf8_not] at h; exact h)
    exact hnot this
  have hterms : termsPattern (f ++ 32 :: o :: (eq ++ 32 :: v)) = none := by
    unfold termsPattern
    rw [dropWhile_stop isFieldChar f 32 _ hf2.2 (by decide)]
    simp
  have hnorm : normalizeWhitespace (f ++ 32 :: o :: (eq ++ 32 :: v)) =
      f ++ 32 :: o :: (eq ++ 32 :: v) := by
    rw [← hE]
    apply normalizeWhitespace_words f _ hf2.1 (fun c hc => isReSpace_of_isInert c (hfi c hc))
    intro w hw
    simp only [List.mem_cons, List.mem_singleton, List.not_mem_nil, or_false] at hw
    rcases hw with hw | hw
    · subst hw; exact ⟨by simp, fun c hc => isReSpace_of_isInert c (hwi c hc)⟩
    · subst hw; exact ⟨hv2.1, fun c hc => isReSpace_of_isInert c (hvi c hc)⟩
  rw [ConvertKQL2DSL_eq _ hnorm hts (by simp), parseExpression_eq,
    parseStep_terminal _ _ hts (lparen_prefix_clause f _ hf)
      (by rw [delimOr_eq]; exact hsplit 111 _ hoh.1 hvh.1)
      (by rw [delimAnd_eq]; exact hsplit 97 _ hoh.2 hvh.2) hnp hterms]
  unfold parseTerm
  simp only [hts, rangeRegex_range f v eq o hf hv ho heq]
  rw [utf8_quote, Trim_eq_self]
  · intro c hc
    have := (isInert_iff c).mp (hvi c (head_mem v c hc))
    simp; omega
  · intro c hc
    have := (isInert_iff c).mp (hvi c (getLast_mem v c hc))
    simp; omega

/-- C5, as amended: for a field name other than `not`, a comparison with a value of digits
yields the Range node with the key of the operator and the value kept as a string. -/
theorem C5_range (f v : Str) (hf : isFieldName f = true) (hnot : f ≠ utf8 "not")
    (hv : isDigits v = true) :
    ConvertKQL2DSL (f ++ utf8 " " ++ utf8 ">" ++ utf8 " " ++ v) = .ok (.range f (utf8 "gt") v) ∧
    ConvertKQL2DSL (f ++ utf8 " " ++ utf8 ">=" ++ utf8 " " ++ v) = .ok (.range f (utf8 "gte") v) ∧
    ConvertKQL2DSL (f ++ utf8 " " ++ utf8 "<" ++ utf8 " " ++ v) = .ok (.range f (utf8 "lt") v) ∧
    ConvertKQL2DSL (f ++ utf8 " " ++ utf8 "<=" ++ utf8 " " ++ v) = .ok (.range f (utf8 "lte") v) := by
  have hsp : utf8 " " = [32] := rfl
  refine ⟨?_, ?_, ?_, ?_⟩
  · have := ConvertKQL2DSL_range f v [] 62 hf hnot hv (Or.inl rfl) (Or.inl rfl)
    rw [show utf8 ">" = [62] from rfl, hsp]
    simpa using this
  · have := ConvertKQL2DSL_range f v [61] 62 hf hnot hv (Or.inl rfl) (Or.inr rfl)
    rw [show utf8 ">=" = [62, 61] from rfl, hsp]
    simpa using this
  · have := ConvertKQL2DSL_range f v [] 60 hf hnot hv (Or.inr rfl) (Or.inl rfl)
    rw [show utf8 "<" = [60] from rfl, hsp]
    simpa using this
  · have := ConvertKQL2DSL_range f v [61] 60 hf hnot hv (Or.inr rfl) (Or.inr rfl)
    rw [show utf8 "<=" = [60, 61] from rfl, hsp]
    simpa using this

/-- C5, witness: `count > 10`. -/
theorem C5_range_witness :
    isFieldName (utf8 "count") = true ∧ utf8 "count" ≠ utf8 "not" ∧ isDigits (utf8 "10") = true ∧
    ConvertKQL2DSL (utf8 "count > 10") = .ok (.range (utf8 "count") (utf8 "gt") (utf8 "10")) :=
  ⟨by decide, by decide, by decide,
    (C5_range (utf8 "count") (utf8 "10") (by decide) (by decide) (by decide)).1⟩

/-- C5, counterexample: the field name `not` is read as the negation, and `not > 10`
fails instead of yielding a Range node. -/
theorem C5_field_not_counterexample :
    isFieldName (utf8 "not") = true ∧ isDigits (utf8 "10") = true ∧
    ConvertKQL2DSL (utf8 "not" ++ utf8 " " ++ utf8 ">" ++ utf8 " " ++ utf8 "10") =
      .error (.message (utf8 "unrecognized expression: > 10")) ∧
    ConvertKQL2DSL (utf8 "not" ++ utf8 " " ++ utf8 ">" ++ utf8 " " ++ utf8 "10") ≠
      .ok (.range (utf8 "not") (utf8 "gt") (utf8 "10")) := by
  have h : ConvertKQL2DSL (utf8 "not" ++ utf8 " " ++ utf8 ">" ++ utf8 " " ++ utf8 "10") =
      .error (.message (utf8 "unrecognized expression: > 10")) := by rfl
  refine ⟨by decide, by decide, h, ?_⟩
  rw [h]
  exact fun e => Except.noConfusion e

/-! ## Connectives -/

theorem lparen_prefix_inert (a r : Str) (hne : a ≠ []) (ha : ∀ c ∈ a, isInert c = true) :
    (utf8 "(").isPrefixOf (a ++ r) = false := by
  cases a with
  | nil => exact absurd rfl hne
  | cons x a =>
    rw [utf8_lparen, List.cons_append]
    apply isPrefixOf_cons_ne
    intro e; subst e; exact absurd (ha 40 (by simp)) (by decide)

/-- The disjunction branch of `parseExpression`. -/
theorem parseStep_or (g : Str → Result) (e : Str) (parts : List Str) (ht : TrimSpace e = e)
    (hp : (utf8 "(").isPrefixOf e = false) (hs : safeSplit e delimOr = parts)
    (hl : 1 < parts.length) (qs : List Query) (hq : parseParts g parts = .ok qs) :
    parseStep g e = .ok (.bool none (some qs) (some 1) none) := by
  unfold parseStep
  rw [ht, stripParens_of_not_wrapped _ _ hp]
  simp only [hs]
  rw [if_pos hl, hq]

/-- The conjunction branch of `parseExpression`. -/
theorem parseStep_and (g : Str → Result) (e : Str) (parts : List Str) (ht : TrimSpace e = e)
    (hp : (utf8 "(").isPrefixOf e = false) (hor : (safeSplit e delimOr).length ≤ 1)
    (hs : safeSplit e delimAnd = parts) (hl : 1 < parts.length) (qs : List Query)
    (hq : parseParts g parts = .ok qs) :
    parseStep g e = .ok (.bool (some qs) none none none) := by
  unfold parseStep
  rw [ht, stripParens_of_not_wrapped _ _ hp]
  simp only [hs]
  rw [if_neg (by omega), if_pos hl, hq]

/-- The negation branch of `parseExpression`. -/
theorem parseStep_not (g : Str → Result) (e rest : Str) (ht : TrimSpace e = e)
    (hp : (utf8 "(").isPrefixOf e = false) (hor : (safeSplit e delimOr).length ≤ 1)
    (hand : (safeSplit e delimAnd).length ≤ 1) (he : e = utf8 "not " ++ rest) (sub : Query)
    (hg : g (TrimSpace rest) = .ok sub) :
    parseStep g e = .ok (.bool none none none (some [sub])) := by
  unfold parseStep
  rw [ht, stripParens_of_not_wrapped _ _ hp]
  simp only []
  have hpre : (utf8 "not ").isPrefixOf e = true := by
    rw [he, List.isPrefixOf_iff_prefix]; exact List.prefix_append _ _
  have hsl : slice e 4 e.length = some rest := by
    subst he
    unfold slice
    rw [if_pos (by simp [utf8_not])]
    simp [utf8_not]
  rw [if_neg (by omega), if_neg (by omega), if_pos hpre, hsl]
  simp only [hg]

theorem isClauseWord.word_ne_nil {a : Str} (h : isClauseWord a) : a ≠ [] := by
  intro e; subst e; simp [isClauseWord] at h

theorem isClauseWord.not_space {a : Str} (h : isClauseWord a) : 32 ∉ a :=
  fun hm => absurd (h.1 32 hm) (by decide)

theorem isClauseWord.notStartOr {a : Str} (h : isClauseWord a) :
    ∀ r2 : Str, List.isPrefixOf (32 :: [111, 114, 32]) (32 :: (a ++ r2)) = false :=
  not_start_of_colon [111, 114] a (by decide) h.not_space h.2

theorem isClauseWord.notStartAnd {a : Str} (h : isClauseWord a) :
    ∀ r2 : Str, List.isPrefixOf (32 :: [97, 110, 100, 32]) (32 :: (a ++ r2)) = false :=
  not_start_of_colon [97, 110, 100] a (by decide) h.not_space h.2

theorem isClauseWord.plain {a : Str} (h : isClauseWord a) :
    a ≠ [] ∧ ∀ c ∈ a, isReSpace c = false :=
  ⟨h.word_ne_nil, fun c hc => isReSpace_of_isInert c (h.1 c hc)⟩

theorem clause_isClauseWord (f v : Str) (hf : isFieldName f = true)
    (hv : isAlnumWord v = true) : isClauseWord (clause f v) := by
  have hf2 := (isFieldName_iff f).mp hf
  have hv2 := (isAlnumWord_iff v).mp hv
  constructor
  · intro c hc
    simp only [clause, utf8_colon, List.mem_append, List.mem_singleton] at hc
    rcases hc with (h | h) | h
    · exact isInert_of_isFieldChar c (hf2.2 c h)
    · subst h; decide
    · exact isInert_of_isAlnum c (hv2.2 c h)
  · simp [clause, utf8_colon]

/-- A terminal clause is parsed, alone, to a node, by `ConvertKQL2DSL` and by
`parseExpression` alike. -/
theorem clause_parsed (f v : Str) (hf : isFieldName f = true) (hv : isAlnumWord v = true) :
    ∃ p : Query, ConvertKQL2DSL (clause f v) = .ok p ∧ parseExpression (clause f v) = .ok p := by
  have hv2 := (isAlnumWord_iff v).mp hv
  have hvi : ∀ c ∈ v, isInert c = true := fun c hc => isInert_of_isAlnum c (hv2.2 c hc)
  have e1 : clause f v = f ++ 58 :: v := by simp [clause, utf8_colon]
  have h := ConvertKQL2DSL_clause f v hf hv2.1 hvi
  rw [e1, h.1, h.2]
  have h42 : v.contains 42 = false := by
    have : 42 ∉ v := fun hm => absurd (hv2.2 42 hm) (by decide)
    simpa using this
  have hq : (utf8 "\"").isPrefixOf v = false := by
    rw [utf8_quote]
    exact not_prefix_of_not_mem _ v 34 (by simp) (fun hm => absurd (hvi 34 hm) (by decide))
  unfold classify
  by_cases hx : f = utf8 "_exists_"
  · exact ⟨.existsField v, by simp [hx], by simp [hx]⟩
  · have h1 : (f == utf8 "_exists_") = false := by simpa using hx
    refine ⟨.term f v, ?_, ?_⟩ <;> simp [h1, hq, h42] <;> simpa using h42

theorem getLast_words (ws : List Str) :
    ∀ (w : Str) (c : Nat), w ≠ [] → (∀ x ∈ w, isInert x = true) →
      (∀ x ∈ ws, x ≠ [] ∧ ∀ y ∈ x, isInert y = true) →
      (w ++ spaced ws).getLast? = some c → isInert c = true := by
  induction ws with
  | nil =>
    intro w c _ hw _ hc
    simp only [spaced, List.append_nil] at hc
    exact hw c (getLast_mem w c hc)
  | cons x ws ih =>
    intro w c _ _ h hc
    have hx := h x (by simp)
    have e1 : w ++ spaced (x :: ws) = (w ++ [32]) ++ (x ++ spaced ws) := by simp [spaced]
    rw [e1, getLast?_append_ne _ _ (by simp [hx.1])] at hc
    exact ih x c hx.1 hx.2 (fun y hy => h y (by simp [hy])) hc

theorem TrimSpace_words (w : Str) (ws : List Str) (hne : w ≠ [])
    (hw : ∀ x ∈ w, isInert x = true) (h : ∀ x ∈ ws, x ≠ [] ∧ ∀ y ∈ x, isInert y = true) :
    TrimSpace (w ++ spaced ws) = w ++ spaced ws := by
  apply TrimSpace_of_ends
  · intro c hc
    cases w with
    | nil => exact absurd rfl hne
    | cons a w => simp at hc; subst hc; exact hw _ (by simp)
  · intro c hc
    exact getLast_words ws w c hne hw h hc

/-- Space-separated words at none of which the delimiter starts are not split. -/
theorem safeSplit_words (tl w : Str) (ws : List Str) (hne : w ≠ [])
    (hw : ∀ x ∈ w, isInert x = true) (h : ∀ x ∈ ws, isPlainWord tl x) :
    safeSplit (w ++ spaced ws) (32 :: tl) = [w ++ spaced ws] := by
  unfold safeSplit
  rw [safeSplitLoop_inert tl w _ _ _ _ hw]
  have := safeSplitLoop_spaced tl ws [] ([] ++ w) 0 false (fun x hx => (h x hx).2)
  rw [List.append_nil] at this
  rw [this, safeSplitLoop_nil _ _ _ _ (by simp [hne])]
  rw [List.nil_append, TrimSpace_words w ws hne hw (fun x hx => ⟨(h x hx).1, (h x hx).2.1⟩)]

/-- Two runs of space-separated words with the delimiter between them are split in
two. -/
theorem safeSplit_words_delim (tl w : Str) (ws : List Str) (w2 : Str) (ws2 : List Str)
    (hne : w ≠ []) (hw : ∀ x ∈ w, isInert x = true) (h : ∀ x ∈ ws, isPlainWord tl x)
    (hne2 : w2 ≠ []) (hw2 : ∀ x ∈ w2, isInert x = true) (h2 : ∀ x ∈ ws2, isPlainWord tl x) :
    safeSplit (w ++ spaced ws ++ (32 :: tl) ++ (w2 ++ spaced ws2)) (32 :: tl) =
      [w ++ spaced ws, w2 ++ spaced ws2] := by
  unfold safeSplit
  have e1 : w ++ spaced ws ++ (32 :: tl) ++ (w2 ++ spaced ws2) =
      w ++ (spaced ws ++ (32 :: (tl ++ (w2 ++ spaced ws2)))) := by simp
  rw [e1, safeSplitLoop_inert tl w _ _ _ _ hw,
    safeSplitLoop_spaced tl ws _ _ 0 false (fun x hx => (h x hx).2), safeSplitLoop_delim,
    safeSplitLoop_inert tl w2 _ _ _ _ hw2]
  have := safeSplitLoop_spaced tl ws2 [] ([] ++ w2) 0 false (fun x hx => (h2 x hx).2)
  rw [List.append_nil] at this
  rw [this, safeSplitLoop_nil _ _ _ _ (by simp [hne2])]
  rw [List.nil_append, List.nil_append,
    TrimSpace_words w ws hne hw (fun x hx => ⟨(h x hx).1, (h x hx).2.1⟩),
    TrimSpace_words w2 ws2 hne2 hw2 (fun x hx => ⟨(h2 x hx).1, (h2 x hx).2.1⟩)]

theorem isClauseWord.plainOr {a : Str} (h : isClauseWord a) : isPlainWord [111, 114, 32] a :=
  ⟨h.word_ne_nil, h.1, h.notStartOr⟩

theorem isClauseWord.plainAnd {a : Str} (h : isClauseWord a) :
    isPlainWord [97, 110, 100, 32] a :=
  ⟨h.word_ne_nil, h.1, h.notStartAnd⟩

theorem and_plainOr : isPlainWord [111, 114, 32] [97, 110, 100] :=
  ⟨by simp, by decide, not_start_of_head 111 _ _ (by simp) (by simp)⟩

/-- The tree of `a and b`. -/
theorem parseExpression_and (a b : Str) (pa pb : Query) (ha : isClauseWord a)
    (hb : isClauseWord b) (hpa : parseExpression a = .ok pa) (hpb : parseExpression b = .ok pb) :
    parseExpression (a ++ spaced [[97, 110, 100], b]) =
      .ok (.bool (some [pa, pb]) none none none) := by
  have hall : ∀ x ∈ [[97, 110, 100], b], isPlainWord [111, 114, 32] x := by
    intro x hx
    simp only [List.mem_cons, List.mem_singleton, List.not_mem_nil, or_false] at hx
    rcases hx with hx | hx
    · subst hx; exact and_plainOr
    · subst hx; exact hb.plainOr
  have hsplit : safeSplit (a ++ spaced [[97, 110, 100], b]) delimAnd = [a, b] := by
    have := safeSplit_words_delim [97, 110, 100, 32] a [] b [] ha.word_ne_nil ha.1 (by simp)
      hb.word_ne_nil hb.1 (by simp)
    simp only [spaced, List.append_nil] at this
    rw [delimAnd_eq, ← this]
    simp [spaced]
  rw [parseExpression_eq, parseStep_and _ _ [a, b]
    (TrimSpace_words a _ ha.word_ne_nil ha.1 (fun x hx => ⟨(hall x hx).1, (hall x hx).2.1⟩))
    (lparen_prefix_inert a _ ha.word_ne_nil ha.1)
    (by rw [delimOr_eq, safeSplit_words _ a _ ha.word_ne_nil ha.1 hall]; simp)
    hsplit (by simp) [pa, pb] (by simp [parseParts, hpa, hpb])]

/-- The tree of `not a`. -/
theorem parseExpression_not (a : Str) (pa : Query) (ha : isClauseWord a)
    (hpa : parseExpression a = .ok pa) :
    parseExpression ([110, 111, 116] ++ spaced [a]) = .ok (.bool none none none (some [pa])) := by
  have hn : ∀ x ∈ [110, 111, 116], isInert x = true := by decide
  rw [parseExpression_eq, parseStep_not _ _ a
    (TrimSpace_words _ _ (by simp) hn (by simpa using ⟨ha.word_ne_nil, ha.1⟩))
    (lparen_prefix_inert _ _ (by simp) hn)
    (by rw [delimOr_eq, safeSplit_words _ _ _ (by simp) hn (by simpa using ha.plainOr)]; simp)
    (by rw [delimAnd_eq, safeSplit_words _ _ _ (by simp) hn (by simpa using ha.plainAnd)]; simp)
    (by simp [spaced, utf8_not]) pa (by rw [TrimSpace_inert a ha.1, hpa])]

theorem or_plainAnd : isPlainWord [97, 110, 100, 32] [111, 114] :=
  ⟨by simp, by decide, not_start_of_head 97 _ _ (by simp) (by simp)⟩

/-- The tree of `a and b or c` on clause words. -/
theorem ConvertKQL2DSL_and_or (a b c : Str) (pa pb pc : Query) (ha : isClauseWord a)
    (hb : isClauseWord b) (hc : isClauseWord c) (hpa : parseExpression a = .ok pa)
    (hpb : parseExpression b = .ok pb) (hpc : parseExpression c = .ok pc) :
    ConvertKQL2DSL (a ++ utf8 " and " ++ b ++ utf8 " or " ++ c) =
      .ok (.bool none (some [.bool (some [pa, pb]) none none none, pc]) (some 1) none) := by
  have e1 : a ++ utf8 " and " ++ b ++ utf8 " or " ++ c =
      a ++ spaced [[97, 110, 100], b, [111, 114], c] := by
    rw [show utf8 " and " = [32, 97, 110, 100, 32] from rfl,
      show utf8 " or " = [32, 111, 114, 32] from rfl]
    simp [spaced]
  have e2 : a ++ spaced [[97, 110, 100], b, [111, 114], c] =
      a ++ spaced [[97, 110, 100], b] ++ (32 :: [111, 114, 32]) ++ (c ++ spaced []) := by
    simp [spaced]
  have hws : ∀ x ∈ [[97, 110, 100], b, [111, 114], c], x ≠ [] ∧ ∀ y ∈ x, isInert y = true := by
    intro x hx
    simp only [List.mem_cons, List.mem_singleton, List.not_mem_nil, or_false] at hx
    rcases hx with hx | hx | hx | hx <;> subst hx
    · exact ⟨by simp, by decide⟩
    · exact ⟨hb.word_ne_nil, hb.1⟩
    · exact ⟨by simp, by decide⟩
    · exact ⟨hc.word_ne_nil, hc.1⟩
  have hts := TrimSpace_words a _ ha.word_ne_nil ha.1 hws
  have hnorm := normalizeWhitespace_words a [[97, 110, 100], b, [111, 114], c] ha.word_ne_nil
    ha.plain.2 (fun x hx => ⟨(hws x hx).1,
      fun y hy => isReSpace_of_isInert y ((hws x hx).2 y hy)⟩)
  have hsplit : safeSplit (a ++ spaced [[97, 110, 100], b, [111, 114], c]) delimOr =
      [a ++ spaced [[97, 110, 100], b], c ++ spaced []] := by
    rw [e2, delimOr_eq]
    apply safeSplit_words_delim _ a _ c [] ha.word_ne_nil ha.1 _ hc.word_ne_nil hc.1 (by simp)
    intro x hx
    simp only [List.mem_cons, List.mem_singleton, List.not_mem_nil, or_false] at hx
    rcases hx with hx | hx <;> subst hx
    · exact and_plainOr
    · exact hb.plainOr
  rw [e1, ConvertKQL2DSL_eq _ hnorm hts (by simp [ha.word_ne_nil]), parseExpression_eq,
    parseStep_or _ _ _ hts (lparen_prefix_inert a _ ha.word_ne_nil ha.1) hsplit (by simp)
      [.bool (some [pa, pb]) none none none, pc]
      (by
        simp only [parseParts, parseExpression_and a b pa pb ha hb hpa hpb]
        simp only [spaced, List.append_nil, hpc])]

/-- The tree of `not a and b` on clause words. -/
theorem ConvertKQL2DSL_not_and (a b : Str) (pa pb : Query) (ha : isClauseWord a)
    (hb : isClauseWord b) (hpa : parseExpression a = .ok pa) (hpb : parseExpression b = .ok pb) :
    ConvertKQL2DSL (utf8 "not " ++ a ++ utf8 " and " ++ b) =
      .ok (.bool (some [.bool none none none (some [pa]), pb]) none none none) := by
  have hn : ∀ x ∈ [110, 111, 116], isInert x = true := by decide
  have e1 : utf8 "not " ++ a ++ utf8 " and " ++ b =
      [110, 111, 116] ++ spaced [a, [97, 110, 100], b] := by
    rw [show utf8 " and " = [32, 97, 110, 100, 32] from rfl, utf8_not]
    simp [spaced]
  have e2 : [110, 111, 116] ++ spaced [a, [97, 110, 100], b] =
      [110, 111, 116] ++ spaced [a] ++ (32 :: [97, 110, 100, 32]) ++ (b ++ spaced []) := by
    simp [spaced]
  have hws : ∀ x ∈ [a, [97, 110, 100], b], isPlainWord [111, 114, 32] x := by
    intro x hx
    simp only [List.mem_cons, List.mem_singleton, List.not_mem_nil, or_false] at hx
    rcases hx with hx | hx | hx <;> subst hx
    · exact ha.plainOr
    · exact and_plainOr
    · exact hb.plainOr
  have hws2 : ∀ x ∈ [a, [97, 110, 100], b], x ≠ [] ∧ ∀ y ∈ x, isInert y = true :=
    fun x hx => ⟨(hws x hx).1, (hws x hx).2.1⟩
  have hts := TrimSpace_words [110, 111, 116] _ (by simp) hn hws2
  have hnorm := normalizeWhitespace_words [110, 111, 116] [a, [97, 110, 100], b] (by simp)
    (by decide) (fun x hx => ⟨(hws2 x hx).1,
      fun y hy => isReSpace_of_isInert y ((hws2 x hx).2 y hy)⟩)
  have hsplit : safeSplit ([110, 111, 116] ++ spaced [a, [97, 110, 100], b]) delimAnd =
      [[110, 111, 116] ++ spaced [a], b ++ spaced []] := by
    rw [e2, delimAnd_eq]
    apply safeSplit_words_delim _ _ _ b [] (by simp) hn _ hb.word_ne_nil hb.1 (by simp)
    intro x hx
    simp only [List.mem_singleton] at hx
    subst hx
    exact ha.plainAnd
  rw [e1, ConvertKQL2DSL_eq _ hnorm hts (by simp), parseExpression_eq,
    parseStep_and _ _ _ hts (lparen_prefix_inert _ _ (by simp) hn)
      (by rw [delimOr_eq, safeSplit_words _ _ _ (by simp) hn hws]; simp) hsplit (by simp)
      [.bool none none none (some [pa]), pb]
      (by
        simp only [parseParts, parseExpression_not a pa ha hpa]
        simp only [spaced, List.append_nil, hpb])]

/-- C2: `a and b or c` is the disjunction of the conjunction of `a` and `b` with `c`, not
the conjunction of `a` with a disjunction. -/
theorem C2_or_binds_weaker_than_and (fa va fb vb fc vc : Str) (hfa : isFieldName fa = true)
    (hva : isAlnumWord va = true) (hfb : isFieldName fb = true) (hvb : isAlnumWord vb = true)
    (hfc : isFieldName fc = true) (hvc : isAlnumWord vc = true) :
    ∃ pa pb pc : Query,
      ConvertKQL2DSL (clause fa va) = .ok pa ∧ ConvertKQL2DSL (clause fb vb) = .ok pb ∧
      ConvertKQL2DSL (clause fc vc) = .ok pc ∧
      ConvertKQL2DSL (clause fa va ++ utf8 " and " ++ clause fb vb ++ utf8 " or " ++ clause fc vc)
        = .ok (.bool none (some [.bool (some [pa, pb]) none none none, pc]) (some 1) none) ∧
      ConvertKQL2DSL (clause fa va ++ utf8 " and " ++ clause fb vb ++ utf8 " or " ++ clause fc vc)
        ≠ .ok (.bool (some [pa, .bool none (some [pb, pc]) (some 1) none]) none none none) := by
  obtain ⟨pa, hca, hpa⟩ := clause_parsed fa va hfa hva
  obtain ⟨pb, hcb, hpb⟩ := clause_parsed fb vb hfb hvb
  obtain ⟨pc, hcc, hpc⟩ := clause_parsed fc vc hfc hvc
  have h := ConvertKQL2DSL_and_or _ _ _ pa pb pc (clause_isClauseWord fa va hfa hva)
    (clause_isClauseWord fb vb hfb hvb) (clause_isClauseWord fc vc hfc hvc) hpa hpb hpc
  refine ⟨pa, pb, pc, hca, hcb, hcc, h, ?_⟩
  rw [h]
  intro e
  injection e with e
  injection e with e1 e2
  exact Option.noConfusion e1

/-- C2, witness: `a:1 and b:2 or c:3`. -/
theorem C2_or_binds_weaker_than_and_witness :
    isFieldName (utf8 "a") = true ∧ isAlnumWord (utf8 "1") = true ∧
    isFieldName (utf8 "b") = true ∧ isAlnumWord (utf8 "2") = true ∧
    isFieldName (utf8 "c") = true ∧ isAlnumWord (utf8 "3") = true ∧
    ∃ pa pb pc : Query,
      ConvertKQL2DSL (clause (utf8 "a") (utf8 "1")) = .ok pa ∧
      ConvertKQL2DSL (clause (utf8 "b") (utf8 "2")) = .ok pb ∧
      ConvertKQL2DSL (clause (utf8 "c") (utf8 "3")) = .ok pc ∧
      ConvertKQL2DSL (clause (utf8 "a") (utf8 "1") ++ utf8 " and " ++ clause (utf8 "b") (utf8 "2")
          ++ utf8 " or " ++ clause (utf8 "c") (utf8 "3"))
        = .ok (.bool none (some [.bool (some [pa, pb]) none none none, pc]) (some 1) none) ∧
      ConvertKQL2DSL (clause (utf8 "a") (utf8 "1") ++ utf8 " and " ++ clause (utf8 "b") (utf8 "2")
          ++ utf8 " or " ++ clause (utf8 "c") (utf8 "3"))
        ≠ .ok (.bool (some [pa, .bool none (some [pb, pc]) (some 1) none]) none none none) :=
  ⟨by decide, by decide, by decide, by decide, by decide, by decide,
    C2_or_binds_weaker_than_and (utf8 "a") (utf8 "1") (utf8 "b") (utf8 "2") (utf8 "c") (utf8 "3")
      (by decide) (by decide) (by decide) (by decide) (by decide) (by decide)⟩

/-- C3: `not a and b` is the conjunction of the negation of `a` with `b`. -/
theorem C3_not_applies_to_next_clause (fa va fb vb : Str) (hfa : isFieldName fa = true)
    (hva : isAlnumWord va = true) (hfb : isFieldName fb = true) (hvb : isAlnumWord vb = true) :
    ∃ pa pb : Query,
      ConvertKQL2DSL (clause fa va) = .ok pa ∧ ConvertKQL2DSL (clause fb vb) = .ok pb ∧
      ConvertKQL2DSL (utf8 "not " ++ clause fa va ++ utf8 " and " ++ clause fb vb)
        = .ok (.bool (some [.bool none none none (some [pa]), pb]) none none none) := by
  obtain ⟨pa, hca, hpa⟩ := clause_parsed fa va hfa hva
  obtain ⟨pb, hcb, hpb⟩ := clause_parsed fb vb hfb hvb
  exact ⟨pa, pb, hca, hcb, ConvertKQL2DSL_not_and _ _ pa pb (clause_isClauseWord fa va hfa hva)
    (clause_isClauseWord fb vb hfb hvb) hpa hpb⟩

/-- C3, witness: `not a:1 and b:2`. -/
theorem C3_not_applies_to_next_clause_witness :
    isFieldName (utf8 "a") = true ∧ isAlnumWord (utf8 "1") = true ∧
    isFieldName (utf8 "b") = true ∧ isAlnumWord (utf8 "2") = true ∧
    ∃ pa pb : Query,
      ConvertKQL2DSL (clause (utf8 "a") (utf8 "1")) = .ok pa ∧
      ConvertKQL2DSL (clause (utf8 "b") (utf8 "2")) = .ok pb ∧
      ConvertKQL2DSL (utf8 "not " ++ clause (utf8 "a") (utf8 "1") ++ utf8 " and "
          ++ clause (utf8 "b") (utf8 "2"))
        = .ok (.bool (some [.bool none none none (some [pa]), pb]) none none none) :=
  ⟨by decide, by decide, by decide, by decide,
    C3_not_applies_to_next_clause (utf8 "a") (utf8 "1") (utf8 "b") (utf8 "2")
      (by decide) (by decide) (by decide) (by decide)⟩

/-! ## Blank input -/

/-- The shapes of the encoding of a white-space code point. -/
theorem encodeRune_space (r : Nat) (h : isSpaceRune r = true) :
    (∃ c, isAsciiSpace c = true ∧ encodeRune r = [c]) ∨
    (∃ a b, isSpace2 a b = true ∧ 128 ≤ a ∧ 128 ≤ b ∧ encodeRune r = [a, b]) ∨
    (∃ a b c, isSpace3 a b c = true ∧ 128 ≤ a ∧ 128 ≤ b ∧ 128 ≤ c ∧
      encodeRune r = [a, b, c]) := by
  simp only [isSpaceRune, spaceRunes, List.contains_eq_any_beq, List.any_cons, List.any_nil,
    Bool.or_false, Bool.or_eq_true, beq_iff_eq] at h
  rcases h with h | h | h | h | h | h | h | h | h | h | h | h | h | h | h | h | h | h | h | h |
    h | h | h | h | h
  all_goals subst h
  all_goals first
    | exact Or.inl ⟨_, by decide, rfl⟩
    | exact Or.inr (Or.inl ⟨_, _, by decide, by decide, by decide, rfl⟩)
    | exact Or.inr (Or.inr ⟨_, _, _, by decide, by decide, by decide, by decide, rfl⟩)

theorem Blank.nil : Blank [] := fun _ => rfl

theorem Blank.append {p q : Str} (hp : Blank p) (hq : Blank q) : Blank (p ++ q) := by
  intro t
  rw [List.append_assoc, hp, hq]

theorem Blank.ascii (c : Nat) (h : isAsciiSpace c = true) : Blank [c] := by
  intro t
  simp only [List.singleton_append, trimLeftSpace]
  rcases t with _ | ⟨b, _ | ⟨d, t⟩⟩ <;> simp [dropSpaceRunes, h]

theorem not_ascii_of_ge (a : Nat) (h : 128 ≤ a) : isAsciiSpace a = false := by
  simp [isAsciiSpace]; omega

theorem not_reSpace_of_ge (a : Nat) (h : 128 ≤ a) : isReSpace a = false := by
  simp [isReSpace]; omega

theorem Blank.two (a b : Nat) (h : isSpace2 a b = true) (ha : 128 ≤ a) : Blank [a, b] := by
  intro t
  simp only [List.cons_append, List.nil_append, trimLeftSpace]
  cases t <;> simp [dropSpaceRunes, not_ascii_of_ge a ha, h]

theorem Blank.three (a b c : Nat) (h : isSpace3 a b c = true) (ha : 128 ≤ a) :
    Blank [a, b, c] := by
  intro t
  have h2 : isSpace2 a b = false := by
    simp only [isSpace3, Bool.or_eq_true, Bool.and_eq_true, beq_iff_eq] at h
    have : a ≠ 0xC2 := by
      rcases h with ((h | h) | h) | h <;> omega
    simp [isSpace2, this]
  simp only [List.cons_append, List.nil_append, trimLeftSpace]
  simp [dropSpaceRunes, not_ascii_of_ge a ha, h, h2]

/-- Collapsing the white-space runs of a string of white space leaves white space. -/
theorem normalizeRuns_blank (rs : List Nat) :
    ∀ b : Bool, (∀ r ∈ rs, isSpaceRune r = true) →
      Blank (normalizeRuns b (rs.flatMap encodeRune)) := by
  induction rs with
  | nil => intro b _; simpa [normalizeRuns] using Blank.nil
  | cons r rs ih =>
    intro b h
    have ih2 := fun b2 => ih b2 (fun x hx => h x (by simp [hx]))
    rw [List.flatMap_cons]
    rcases encodeRune_space r (h r (by simp)) with ⟨c, hc, he⟩ | ⟨a, b2, h2, ha, hb, he⟩ |
      ⟨a, b2, c, h3, ha, hb, hc, he⟩
    · rw [he, List.singleton_append, normalizeRuns]
      by_cases hr : isReSpace c = true
      · rw [if_pos hr]
        cases b with
        | true => simpa using ih2 true
        | false =>
          simp only [Bool.false_eq_true, if_false]
          exact Blank.append (Blank.ascii 32 (by decide)) (ih2 true)
      · rw [if_neg hr]
        exact Blank.append (Blank.ascii c hc) (ih2 false)
    · rw [he]
      simp only [List.cons_append, List.nil_append, normalizeRuns, not_reSpace_of_ge a ha,
        not_reSpace_of_ge b2 hb, Bool.false_eq_true, if_false]
      exact Blank.append (Blank.two a b2 h2 ha) (ih2 false)
    · rw [he]
      simp only [List.cons_append, List.nil_append, normalizeRuns, not_reSpace_of_ge a ha,
        not_reSpace_of_ge b2 hb, not_reSpace_of_ge c hc, Bool.false_eq_true, if_false]
      exact Blank.append (Blank.three a b2 c h3 ha) (ih2 false)

theorem TrimSpace_blank (s : Str) (h : Blank s) : TrimSpace s = [] := by
  have := h []
  rw [List.append_nil] at this
  unfold TrimSpace
  rw [this]
  rfl

/-- C9: an input made of white space only, the empty input included, yields the MatchAll
node. -/
theorem C9_blank_input_match_all (rs : List Nat) (h : ∀ r ∈ rs, isSpaceRune r = true) :
    ConvertKQL2DSL (rs.flatMap encodeRune) = .ok .matchAll := by
  unfold ConvertKQL2DSL
  simp only [normalizeWhitespace, TrimSpace_blank _ (normalizeRuns_blank rs false h)]
  rfl

/-- C9, witness: a space, a line feed, a tab and a no-break space. -/
theorem C9_blank_input_match_all_witness :
    (∀ r ∈ [32, 10, 9, 0xA0], isSpaceRune r = true) ∧
    ConvertKQL2DSL ([32, 10, 9, 0xA0].flatMap encodeRune) = .ok .matchAll :=
  ⟨by decide, C9_blank_input_match_all [32, 10, 9, 0xA0] (by decide)⟩

/-! ## Terms shorthand -/

/-- Below the top level the scan steps over every byte but the parentheses. -/
theorem safeSplitLoop_deep (delim : Str) (t : Str) :
    ∀ (r cur : Str) (d : Int) (q : Bool), d ≠ 0 → (∀ c ∈ t, c ≠ 40 ∧ c ≠ 41) →
      safeSplitLoop delim (t ++ r) 0 cur d q =
        safeSplitLoop delim r 0 (cur ++ t) d (quoteState q t) := by
  induction t with
  | nil => intro r cur d q _ _; simp [quoteState]
  | cons c t ih =>
    intro r cur d q hd h
    have hc := h c (by simp)
    have h40 : (c == 40) = false := by simpa using hc.1
    have h41 : (c == 41) = false := by simpa using hc.2
    have hda : depthAfter c q d = d := by simp [depthAfter, h40, h41]
    have hd0 : (d == 0) = false := by simpa using hd
    rw [List.cons_append, safeSplitLoop, hda, hd0]
    simp only [Bool.false_and, Bool.false_eq_true, if_false]
    rw [ih r _ d _ hd (fun x hx => h x (by simp [hx]))]
    simp [quoteState, quoteAfter]

theorem safeSplitLoop_open (tl r cur : Str) :
    safeSplitLoop (32 :: tl) (40 :: r) 0 cur 0 false =
      safeSplitLoop (32 :: tl) r 0 (cur ++ [40]) 1 false := by
  rw [safeSplitLoop, isPrefixOf_cons_ne 32 40 tl _ (by decide)]
  simp [depthAfter, quoteAfter]

theorem safeSplitLoop_close (tl r cur : Str) :
    safeSplitLoop (32 :: tl) (41 :: r) 0 cur 1 false =
      safeSplitLoop (32 :: tl) r 0 (cur ++ [41]) 0 false := by
  rw [safeSplitLoop, isPrefixOf_cons_ne 32 41 tl _ (by decide)]
  simp [depthAfter, quoteAfter]

/-- A string wrapped in parentheses after an inert word is not split, when it has no
parenthesis of its own and its quotes are closed. -/
theorem safeSplit_group (tl w inner : Str) (hw : ∀ c ∈ w, isInert c = true)
    (hi : ∀ c ∈ inner, c ≠ 40 ∧ c ≠ 41) (hq : quoteState false inner = false) :
    safeSplit (w ++ 40 :: (inner ++ [41])) (32 :: tl) =
      [TrimSpace (w ++ 40 :: (inner ++ [41]))] := by
  unfold safeSplit
  rw [safeSplitLoop_inert tl w _ _ _ _ hw, safeSplitLoop_open,
    safeSplitLoop_deep _ inner _ _ 1 false (by decide) hi, hq, safeSplitLoop_close,
    safeSplitLoop_nil _ _ _ _ (by simp)]
  simp

/-- The terms-shorthand branch of `parseExpression`. -/
theorem parseStep_terms (g : Str → Result) (e field inner : Str) (ht : TrimSpace e = e)
    (hp : (utf8 "(").isPrefixOf e = false) (hor : (safeSplit e delimOr).length ≤ 1)
    (hand : (safeSplit e delimAnd).length ≤ 1) (hnot : (utf8 "not ").isPrefixOf e = false)
    (hterms : termsPattern e = some (field, inner)) :
    parseStep g e =
      .ok (.terms field ((safeSplit inner delimOr).map (fun v => Trim v (utf8 "\" ")))) := by
  unfold parseStep
  rw [ht, stripParens_of_not_wrapped _ _ hp]
  simp only []
  rw [if_neg (by omega), if_neg (by omega), hnot, hterms]
  simp

theorem renderValue_isValueWord (v : Bool × Str) (h : isAlnumWord v.2 = true) :
    isValueWord (renderValue v) := by
  refine ⟨v.2, h, ?_⟩
  unfold renderValue
  cases v.1
  · left; simp
  · right; simp [utf8_quote]

theorem isValueWord.mem {x : Str} (h : isValueWord x) :
    ∀ c ∈ x, isAlnum c = true ∨ c = 34 := by
  obtain ⟨w, hw, hx | hx⟩ := h
  · subst hx; intro c hc; exact Or.inl (((isAlnumWord_iff _).mp hw).2 c hc)
  · subst hx
    intro c hc
    simp only [List.mem_cons, List.mem_append, List.mem_singleton, List.not_mem_nil,
      or_false] at hc
    rcases hc with hc | hc | hc
    · exact Or.inr hc
    · exact Or.inl (((isAlnumWord_iff w).mp hw).2 c hc)
    · exact Or.inr hc

theorem isValueWord.value_ne_nil {x : Str} (h : isValueWord x) : x ≠ [] := by
  obtain ⟨w, hw, hx | hx⟩ := h
  · subst hx; exact ((isAlnumWord_iff _).mp hw).1
  · subst hx; simp

theorem isValueWord.solid {x : Str} (h : isValueWord x) : ∀ c ∈ x, isSolid c = true := by
  intro c hc
  rcases h.mem c hc with h1 | h1
  · exact isSolid_of_isInert c (isInert_of_isAlnum c h1)
  · subst h1; decide

theorem isValueWord.trimSpace {x : Str} (h : isValueWord x) : TrimSpace x = x :=
  TrimSpace_eq_self x (fun c hc => h.solid c (head_mem x c hc))
    (fun c hc => h.solid c (getLast_mem x c hc))

theorem isValueWord.no_paren {x : Str} (h : isValueWord x) :
    ∀ c ∈ x, c ≠ 40 ∧ c ≠ 41 ∧ isReSpace c = false := by
  intro c hc
  rcases h.mem c hc with h1 | h1
  · have := (isInert_iff c).mp (isInert_of_isAlnum c h1)
    exact ⟨by omega, by omega, isReSpace_of_isInert c (isInert_of_isAlnum c h1)⟩
  · subst h1; decide

theorem quoteState_inert (w : Str) (hw : ∀ c ∈ w, isInert c = true) :
    ∀ q, quoteState q w = q := by
  induction w with
  | nil => intro q; rfl
  | cons c w ih =>
    intro q
    have := (isInert_iff c).mp (hw c (by simp))
    have h34 : (c == 34) = false := by simp; omega
    rw [quoteState, h34]
    exact ih (fun x hx => hw x (by simp [hx])) q

theorem isValueWord.quotes_closed {x : Str} (h : isValueWord x) : ∀ q, quoteState q x = q := by
  obtain ⟨w, hw, hx | hx⟩ := h
  · subst hx
    exact quoteState_inert _ (fun c hc => isInert_of_isAlnum c (((isAlnumWord_iff _).mp hw).2 c hc))
  · subst hx
    intro q
    have hwi := quoteState_inert w
      (fun c hc => isInert_of_isAlnum c (((isAlnumWord_iff w).mp hw).2 c hc))
    simp [quoteState, quoteState_append, hwi]

/-- The scan steps over a value at the top level. -/
theorem isValueWord.scan {x : Str} (h : isValueWord x) (tl r cur : Str) :
    safeSplitLoop (32 :: tl) (x ++ r) 0 cur 0 false =
      safeSplitLoop (32 :: tl) r 0 (cur ++ x) 0 false := by
  obtain ⟨w, hw, hx | hx⟩ := h
  · subst hx
    exact safeSplitLoop_inert tl _ r cur 0 false
      (fun c hc => isInert_of_isAlnum c (((isAlnumWord_iff _).mp hw).2 c hc))
  · subst hx
    have hq : ∀ c ∈ w, c ≠ 34 := by
      intro c hc e
      subst e
      exact absurd (((isAlnumWord_iff w).mp hw).2 34 hc) (by decide)
    rw [List.cons_append, List.append_assoc, safeSplitLoop_quote, Bool.not_false,
      safeSplitLoop_quoted _ w _ _ _ hq, List.singleton_append, safeSplitLoop_quote]
    simp

theorem isValueWord.trim {v : Bool × Str} (h : isAlnumWord v.2 = true) :
    Trim (renderValue v) [34, 32] = v.2 := by
  have hw := (isAlnumWord_iff v.2).mp h
  have hends : ∀ c ∈ v.2, c ≠ 34 ∧ c ≠ 32 := by
    intro c hc
    have := (isInert_iff c).mp (isInert_of_isAlnum c (hw.2 c hc))
    omega
  unfold renderValue
  cases v.1
  · simp only [Bool.false_eq_true, if_false]
    apply Trim_eq_self
    · intro c hc; have := hends c (head_mem _ c hc); simp; omega
    · intro c hc; have := hends c (getLast_mem _ c hc); simp; omega
  · simp only [if_true, utf8_quote, List.singleton_append, List.append_assoc]
    exact Trim_quoted v.2 (fun c hc => hends c (head_mem _ c hc))
      (fun c hc => hends c (getLast_mem _ c hc))

theorem joinOr_cons_cons (x y : Str) (ys : List Str) :
    joinOr (x :: y :: ys) = x ++ 32 :: 111 :: 114 :: 32 :: joinOr (y :: ys) := by
  rw [joinOr, show utf8 " or " = [32, 111, 114, 32] from rfl]
  simp

/-- Splitting the joined values gives the values back. -/
theorem safeSplit_joinOr (xs : List Str) :
    ∀ x : Str, (∀ y ∈ x :: xs, isValueWord y) → safeSplit (joinOr (x :: xs)) delimOr = x :: xs := by
  induction xs with
  | nil =>
    intro x h
    have hx := h x (by simp)
    unfold safeSplit
    have := hx.scan [111, 114, 32] [] []
    rw [List.append_nil] at this
    rw [joinOr, delimOr_eq, this, safeSplitLoop_nil _ _ _ _ (by simpa using hx.value_ne_nil)]
    simp [hx.trimSpace]
  | cons y ys ih =>
    intro x h
    have hx := h x (by simp)
    have ih2 := ih y (fun z hz => h z (by simp [hz]))
    unfold safeSplit at ih2 ⊢
    rw [delimOr_eq] at ih2 ⊢
    rw [joinOr_cons_cons, hx.scan]
    have := safeSplitLoop_delim [111, 114, 32] (joinOr (y :: ys)) ([] ++ x)
    simp only [List.cons_append, List.nil_append] at this
    rw [List.nil_append, this, ih2, hx.trimSpace]

theorem joinOr_facts (xs : List Str) :
    ∀ x : Str, (∀ y ∈ x :: xs, isValueWord y) →
      joinOr (x :: xs) ≠ [] ∧ (∀ c ∈ joinOr (x :: xs), c ≠ 40 ∧ c ≠ 41) ∧
      (∀ q, quoteState q (joinOr (x :: xs)) = q) ∧
      (∀ (b : Bool) (r : Str), normalizeRuns b (joinOr (x :: xs) ++ r) =
        joinOr (x :: xs) ++ normalizeRuns false r) := by
  induction xs with
  | nil =>
    intro x h
    have hx := h x (by simp)
    rw [joinOr]
    exact ⟨hx.value_ne_nil, fun c hc => ⟨(hx.no_paren c hc).1, (hx.no_paren c hc).2.1⟩,
      hx.quotes_closed, fun b r => normalizeRuns_plain x b r hx.value_ne_nil
        (fun c hc => (hx.no_paren c hc).2.2)⟩
  | cons y ys ih =>
    intro x h
    have hx := h x (by simp)
    obtain ⟨_, i2, i3, i4⟩ := ih y (fun z hz => h z (by simp [hz]))
    rw [joinOr_cons_cons]
    refine ⟨by simp [hx.value_ne_nil], ?_, ?_, ?_⟩
    · intro c hc
      simp only [List.mem_append, List.mem_cons] at hc
      rcases hc with hc | hc | hc | hc | hc | hc
      · exact ⟨(hx.no_paren c hc).1, (hx.no_paren c hc).2.1⟩
      · subst hc; decide
      · subst hc; decide
      · subst hc; decide
      · subst hc; decide
      · exact i2 c (by simpa using hc)
    · intro q
      rw [quoteState_append, hx.quotes_closed]
      simp only [quoteState]
      exact i3 q
    · intro b r
      rw [List.append_assoc, normalizeRuns_plain x b _ hx.value_ne_nil
        (fun c hc => (hx.no_paren c hc).2.2)]
      simp only [List.cons_append, normalizeRuns, show isReSpace 32 = true from rfl,
        show isReSpace 111 = false from rfl, show isReSpace 114 = false from rfl, if_true,
        Bool.false_eq_true, if_false]
      change x ++ 32 :: 111 :: 114 :: 32 :: normalizeRuns true (joinOr (y :: ys) ++ r) = _
      rw [i4 true r]
      simp

theorem termsPattern_group (f inner : Str) (hf : isFieldName f = true) (hne : inner ≠ [])
    (hi : ∀ c ∈ inner, c ≠ 40 ∧ c ≠ 41) :
    termsPattern (f ++ 58 :: 40 :: (inner ++ [41])) = some (f, inner) := by
  have hf2 := (isFieldName_iff f).mp hf
  unfold termsPattern
  rw [dropWhile_stop isFieldChar f 58 _ hf2.2 (by decide),
    takeWhile_stop isFieldChar f 58 _ hf2.2 (by decide)]
  have h1 : f.isEmpty = false := by simpa using hf2.1
  have h2 : (inner ++ [41]).getLast? = some 41 := by simp
  have h3 : (inner ++ [41]).dropLast = inner := by simp
  have h4 : inner.isEmpty = false := by simpa using hne
  have h5 : inner.all (fun c => c != 40 && c != 41) = true := by
    rw [List.all_eq_true]
    intro c hc
    have := hi c hc
    simp [this.1, this.2]
  simp only [h1, h2, h3, h4, h5]
  simp

/-- C6: the terms shorthand `field:(v1 or ... or vn)` yields the Terms node of the field
with the values in order, their quotes removed. -/
theorem C6_terms_shorthand (f : Str) (vals : List (Bool × Str)) (hf : isFieldName f = true)
    (hne : vals ≠ []) (hv : ∀ v ∈ vals, isAlnumWord v.2 = true) :
    ConvertKQL2DSL (f ++ utf8 ":(" ++ joinOr (vals.map renderValue) ++ utf8 ")") =
      .ok (.terms f (vals.map Prod.snd)) := by
  have hf2 := (isFieldName_iff f).mp hf
  have hfi : ∀ c ∈ f, isInert c = true := fun c hc => isInert_of_isFieldChar c (hf2.2 c hc)
  cases vals with
  | nil => exact absurd rfl hne
  | cons v vs =>
    have hall : ∀ y ∈ renderValue v :: vs.map renderValue, isValueWord y := by
      intro y hy
      rcases List.mem_cons.mp hy with h | h
      · subst h; exact renderValue_isValueWord v (hv v (by simp))
      · obtain ⟨z, hz, rfl⟩ := List.mem_map.mp h
        exact renderValue_isValueWord z (hv z (by simp [hz]))
    obtain ⟨j1, j2, j3, j4⟩ := joinOr_facts _ _ hall
    have hsplit := safeSplit_joinOr _ _ hall
    rw [List.map_cons]
    generalize hin : joinOr (renderValue v :: vs.map renderValue) = inner at *
    have e1 : f ++ utf8 ":(" ++ inner ++ utf8 ")" = f ++ 58 :: 40 :: (inner ++ [41]) := by
      rw [show utf8 ":(" = [58, 40] from rfl, utf8_rparen]; simp
    have e2 : f ++ 58 :: 40 :: (inner ++ [41]) = (f ++ [58]) ++ 40 :: (inner ++ [41]) := by simp
    have e3 : f ++ 58 :: 40 :: (inner ++ [41]) = (f ++ [58, 40]) ++ (inner ++ [41]) := by simp
    have hw : ∀ c ∈ f ++ [58], isInert c = true := by
      intro c hc
      rcases List.mem_append.mp hc with h | h
      · exact hfi c h
      · simp at h; subst h; decide
    have hts : TrimSpace (f ++ 58 :: 40 :: (inner ++ [41])) = f ++ 58 :: 40 :: (inner ++ [41]) := by
      apply TrimSpace_eq_self
      · intro c hc
        cases f with
        | nil => exact absurd rfl hf2.1
        | cons a f =>
          simp at hc; subst hc
          exact isSolid_of_isInert _ (hfi _ (by simp))
      · intro c hc
        have : (f ++ 58 :: 40 :: (inner ++ [41])).getLast? = some 41 := by
          have : f ++ 58 :: 40 :: (inner ++ [41]) = (f ++ 58 :: 40 :: inner) ++ [41] := by simp
          rw [this]; exact getLast?_append_singleton _ _
        rw [this] at hc; simp at hc; subst hc; decide
    have hnorm : normalizeWhitespace (f ++ 58 :: 40 :: (inner ++ [41])) =
        f ++ 58 :: 40 :: (inner ++ [41]) := by
      unfold normalizeWhitespace
      rw [e3, normalizeRuns_plain (f ++ [58, 40]) false _ (by simp) (by
        intro c hc
        rcases List.mem_append.mp hc with h | h
        · exact isReSpace_of_isInert c (hfi c h)
        · simp at h; rcases h with h | h <;> subst h <;> decide), j4]
      simp [normalizeRuns, isReSpace]
    have hgroup : ∀ tl : Str,
        (safeSplit (f ++ 58 :: 40 :: (inner ++ [41])) (32 :: tl)).length ≤ 1 := by
      intro tl
      rw [e2, safeSplit_group tl _ inner hw j2 (j3 false)]
      simp
    rw [e1, ConvertKQL2DSL_eq _ hnorm hts (by simp), parseExpression_eq,
      parseStep_terms _ _ f inner hts (lparen_prefix_clause f _ hf)
        (by rw [delimOr_eq]; exact hgroup _) (by rw [delimAnd_eq]; exact hgroup _)
        (not_prefix_clause f _ hf) (termsPattern_group f inner hf j1 j2), hsplit,
      utf8_quote_space]
    congr 2
    rw [← List.map_cons, List.map_map]
    apply List.map_congr_left
    intro z hz
    exact isValueWord.trim (hv z hz)

/-- C6, witness: `status:(500 or 503)`. -/
theorem C6_terms_shorthand_witness :
    isFieldName (utf8 "status") = true ∧
    (∀ v ∈ [(false, utf8 "500"), (true, utf8 "503")], isAlnumWord v.2 = true) ∧
    ConvertKQL2DSL (utf8 "status" ++ utf8 ":(" ++
        joinOr ([(false, utf8 "500"), (true, utf8 "503")].map renderValue) ++ utf8 ")") =
      .ok (.terms (utf8 "status") ([(false, utf8 "500"), (true, utf8 "503")].map Prod.snd)) :=
  ⟨by decide, by decide,
    C6_terms_shorthand (utf8 "status") [(false, utf8 "500"), (true, utf8 "503")] (by decide)
      (by simp) (by decide)⟩

/-! ## Invariants of the tree -/

theorem allNodesList_iff (p : Query → Bool) (l : List Query) :
    allNodesList p l = true ↔ ∀ q ∈ l, q.allNodes p = true := by
  induction l with
  | nil => simp [allNodesList]
  | cons q qs ih => simp [allNodesList, ih]

theorem parseParts_ok (f : Str → Result) (parts : List Str) :
    ∀ qs : List Query, parseParts f parts = .ok qs →
      qs.length = parts.length ∧ ∀ q ∈ qs, ∃ part ∈ parts, f part = .ok q := by
  induction parts with
  | nil =>
    intro qs h
    simp only [parseParts] at h
    injection h with h
    subst h
    simp
  | cons part parts ih =>
    intro qs h
    simp only [parseParts] at h
    split at h
    · exact Except.noConfusion h
    · rename_i q hq
      split at h
      · exact Except.noConfusion h
      · rename_i qs2 hqs
        injection h with h
        subst h
        obtain ⟨h1, h2⟩ := ih qs2 hqs
        refine ⟨by simp [h1], ?_⟩
        intro x hx
        rcases List.mem_cons.mp hx with hx | hx
        · subst hx; exact ⟨part, by simp, hq⟩
        · obtain ⟨y, hy, hfy⟩ := h2 x hx
          exact ⟨y, by simp [hy], hfy⟩

/-- The field that the terms-shorthand pattern captures is a field name. -/
theorem termsPattern_field (e field inner : Str) (h : termsPattern e = some (field, inner)) :
    isFieldName field = true := by
  unfold termsPattern at h
  split at h
  · dsimp only at h
    split_ifs at h with hc
    simp only [Option.some.injEq, Prod.mk.injEq] at h
    rw [← h.1]
    simp only [Bool.and_eq_true, Bool.not_eq_true'] at hc
    rw [isFieldName_iff]
    constructor
    · intro hnil
      rw [hnil] at hc
      simp at hc
    · intro c hc2
      exact List.mem_takeWhile_imp hc2
  · exact Option.noConfusion h

/-- Induction on the trees `parseExpression` returns: a property that holds of the trees
of the terminal branches and is kept by the three connectives holds of every tree. -/
theorem parseFuel_induction (P : Query → Prop)
    (hor : ∀ qs : List Query, 2 ≤ qs.length → (∀ q ∈ qs, P q) →
      P (.bool none (some qs) (some 1) none))
    (hand : ∀ qs : List Query, 2 ≤ qs.length → (∀ q ∈ qs, P q) →
      P (.bool (some qs) none none none))
    (hnot : ∀ q : Query, P q → P (.bool none none none (some [q])))
    (hterms : ∀ (field : Str) (values : List Str), isFieldName field = true →
      P (.terms field values))
    (hterm : ∀ (e : Str) (q : Query), parseTerm e = .ok q → P q) :
    ∀ (n : Nat) (e : Str) (q : Query), parseFuel n e = .ok q → P q := by
  intro n
  induction n with
  | zero => intro e q h; exact Except.noConfusion h
  | succ n ih =>
    intro e q h
    simp only [parseFuel, parseStep] at h
    split at h
    · exact Except.noConfusion h
    · rename_i expr hexpr
      split at h
      · rename_i hlen
        split at h
        · exact Except.noConfusion h
        · rename_i qs hqs
          injection h with h
          subst h
          obtain ⟨h1, h2⟩ := parseParts_ok _ _ qs hqs
          refine hor qs (by omega) (fun x hx => ?_)
          obtain ⟨part, _, hp⟩ := h2 x hx
          exact ih part x hp
      · split at h
        · rename_i hlen
          split at h
          · exact Except.noConfusion h
          · rename_i qs hqs
            injection h with h
            subst h
            obtain ⟨h1, h2⟩ := parseParts_ok _ _ qs hqs
            refine hand qs (by omega) (fun x hx => ?_)
            obtain ⟨part, _, hp⟩ := h2 x hx
            exact ih part x hp
        · split at h
          · split at h
            · exact Except.noConfusion h
            · rename_i rest hrest
              split at h
              · exact Except.noConfusion h
              · rename_i sub hsub
                injection h with h
                subst h
                exact hnot sub (ih _ sub hsub)
          · split at h
            · rename_i field inner hterms2
              injection h with h
              subst h
              exact hterms _ _ (termsPattern_field _ _ _ hterms2)
            · exact hterm _ q h

theorem dropWhile_head (p : Nat → Bool) (l : Str) :
    ∀ c, (l.dropWhile p).head? = some c → p c = false := by
  induction l with
  | nil => intro c h; simp at h
  | cons a l ih =>
    intro c h
    by_cases ha : p a = true
    · rw [List.dropWhile_cons_of_pos ha] at h
      exact ih c h
    · rw [List.dropWhile_cons_of_neg ha] at h
      simp only [List.head?_cons, Option.some.injEq] at h
      subst h
      simpa using ha

/-- The first byte of what `strings.Trim` returns is outside the cutset. -/
theorem Trim_head (s cut : Str) (c : Nat) (h : (Trim s cut).head? = some c) :
    cut.contains c = false := by
  unfold Trim at h
  exact dropWhile_head _ _ c h

/-- The value that reaches the test for a quoted value does not start with a quote. -/
theorem Trim_not_quoted (s : Str) :
    (utf8 "\"").isPrefixOf (Trim s (utf8 "\" ")) = false := by
  rw [utf8_quote, utf8_quote_space]
  cases hv : Trim s [34, 32] with
  | nil => rfl
  | cons a v =>
    have := Trim_head s [34, 32] a (by rw [hv]; rfl)
    apply isPrefixOf_cons_ne
    intro e
    subst e
    simp at this

/-- What `classify` returns for a value that does not start with a quote. -/
theorem classify_cases (f v : Str) (hq : (utf8 "\"").isPrefixOf v = false) :
    classify f v = .ok (.existsField v) ∨
    (classify f v = .ok (.wildcard f v) ∧ 42 ∈ v) ∨
    (classify f v = .ok (.term f v) ∧ 42 ∉ v) := by
  unfold classify
  by_cases h1 : (f == utf8 "_exists_") = true
  · left; rw [if_pos h1]
  · right
    rw [if_neg h1, hq]
    simp only [Bool.false_and, Bool.false_eq_true, if_false]
    by_cases h2 : v.contains 42 = true
    · left; rw [if_pos h2]; exact ⟨rfl, by simpa using h2⟩
    · right; rw [if_neg h2]; exact ⟨rfl, by simpa using h2⟩

theorem rangeRegex_field (e f op v : Str) (h : rangeRegex e = some (f, op, v)) :
    isFieldName f = true := by
  unfold rangeRegex at h
  dsimp only at h
  split_ifs at h with hc
  have hf : isFieldName (e.takeWhile isFieldChar) = true := by
    rw [isFieldName_iff]
    constructor
    · intro hnil
      rw [hnil] at hc
      simp at hc
    · intro c hc2
      exact List.mem_takeWhile_imp hc2
  split at h
  · exact Option.noConfusion h
  · split_ifs at h
    split at h
    · simp only [Option.some.injEq, Prod.mk.injEq] at h
      rw [← h.1]; exact hf
    · split at h
      · simp only [Option.some.injEq, Prod.mk.injEq] at h
        rw [← h.1]; exact hf
      · exact Option.noConfusion h

/-- The four outcomes of `parseTerm`: a Range node of a field name, one of the three nodes
of a `field:value` clause, or the unrecognized-expression error. -/
theorem parseTerm_cases (e : Str) :
    (∃ f k v, isFieldName f = true ∧ parseTerm e = .ok (.range f k v)) ∨
    (∃ v, parseTerm e = .ok (.existsField v)) ∨
    (∃ f v, parseTerm e = .ok (.wildcard f v) ∧ 42 ∈ v) ∨
    (∃ f v, parseTerm e = .ok (.term f v) ∧ 42 ∉ v) ∨
    parseTerm e = .error (.message (utf8 "unrecognized expression: " ++ TrimSpace e)) := by
  unfold parseTerm
  dsimp only
  cases hr : rangeRegex (TrimSpace e) with
  | some m =>
    obtain ⟨f, op, v⟩ := m
    left
    exact ⟨f, opMap op, Trim v (utf8 "\""), rangeRegex_field _ f op v hr, rfl⟩
  | none =>
    dsimp only
    by_cases hc : (TrimSpace e).contains 58 = true
    · rw [if_pos hc]
      right
      have := classify_cases (TrimSpace ((TrimSpace e).takeWhile (fun c => c != 58)))
        (Trim (TrimSpace (((TrimSpace e).dropWhile (fun c => c != 58)).drop 1)) (utf8 "\" "))
        (Trim_not_quoted _)
      unfold classify at this
      rcases this with h | h | h
      · left; exact ⟨_, h⟩
      · right; left; exact ⟨_, _, h⟩
      · right; right; left; exact ⟨_, _, h⟩
    · rw [if_neg hc]
      right; right; right; right
      rfl

theorem ConvertKQL2DSL_ok (kql : Str) (q : Query) (h : ConvertKQL2DSL kql = .ok q) :
    q = .matchAll ∨ parseExpression (normalizeWhitespace kql) = .ok q := by
  unfold ConvertKQL2DSL at h
  dsimp only at h
  split_ifs at h
  · injection h with h
    left; exact h.symm
  · right; exact h

/-- A property of single nodes that holds of the nodes the branches of the parser build
holds at every node of every tree `ConvertKQL2DSL` returns. -/
theorem ConvertKQL2DSL_allNodes (p : Query → Bool) (hall : p .matchAll = true)
    (hor : ∀ qs : List Query, 2 ≤ qs.length → p (.bool none (some qs) (some 1) none) = true)
    (hand : ∀ qs : List Query, 2 ≤ qs.length → p (.bool (some qs) none none none) = true)
    (hnot : ∀ q : Query, p (.bool none none none (some [q])) = true)
    (hterms : ∀ (f : Str) (vs : List Str), isFieldName f = true → p (.terms f vs) = true)
    (hrange : ∀ f k v : Str, isFieldName f = true → p (.range f k v) = true)
    (hexists : ∀ v : Str, p (.existsField v) = true)
    (hwild : ∀ f v : Str, p (.wildcard f v) = true)
    (hterm : ∀ f v : Str, p (.term f v) = true)
    (kql : Str) (q : Query) (h : ConvertKQL2DSL kql = .ok q) : q.allNodes p = true := by
  rcases ConvertKQL2DSL_ok kql q h with h1 | h1
  · subst h1; simpa [Query.allNodes] using hall
  · refine parseFuel_induction (fun q => q.allNodes p = true) ?_ ?_ ?_ ?_ ?_ _ _ q h1
    · intro qs hl hq
      simp only [Query.allNodes, allNodesOpt, Bool.and_true, Bool.and_eq_true]
      exact ⟨hor qs hl, (allNodesList_iff p qs).mpr hq⟩
    · intro qs hl hq
      simp only [Query.allNodes, allNodesOpt, Bool.and_true, Bool.and_eq_true]
      exact ⟨hand qs hl, (allNodesList_iff p qs).mpr hq⟩
    · intro x hx
      simp only [Query.allNodes, allNodesOpt, Bool.and_true, Bool.and_eq_true]
      exact ⟨hnot x, (allNodesList_iff p [x]).mpr (by simpa using hx)⟩
    · intro f vs hf
      simpa [Query.allNodes] using hterms f vs hf
    · intro e x hx
      rcases parseTerm_cases e with ⟨f, k, v, hf, h2⟩ | ⟨v, h2⟩ | ⟨f, v, h2, _⟩ | ⟨f, v, h2, _⟩ | h2
      all_goals rw [h2] at hx
      · injection hx with hx; subst hx; simpa [Query.allNodes] using hrange f k v hf
      · injection hx with hx; subst hx; simpa [Query.allNodes] using hexists v
      · injection hx with hx; subst hx; simpa [Query.allNodes] using hwild f v
      · injection hx with hx; subst hx; simpa [Query.allNodes] using hterm f v
      · exact Except.noConfusion hx

/-- C12, as amended: in every tree `ConvertKQL2DSL` returns, the field name of every Terms
node and of every Range node is non-empty and made of field-name characters only. -/
theorem C12_matched_field_names (kql : Str) (q : Query) (h : ConvertKQL2DSL kql = .ok q) :
    q.allNodes hasMatchedFieldName = true :=
  ConvertKQL2DSL_allNodes hasMatchedFieldName rfl (fun _ _ => rfl) (fun _ _ => rfl)
    (fun _ => rfl) (fun _ _ hf => hf) (fun _ _ _ hf => hf) (fun _ => rfl) (fun _ _ => rfl)
    (fun _ _ => rfl) kql q h

/-- C12, witness: `status:(500 or 503) and count > 10`. -/
theorem C12_matched_field_names_witness :
    ConvertKQL2DSL (utf8 "status:(500 or 503) and count > 10") =
      .ok (.bool (some [.terms (utf8 "status") [utf8 "500", utf8 "503"],
        .range (utf8 "count") (utf8 "gt") (utf8 "10")]) none none none) ∧
    (Query.bool (some [.terms (utf8 "status") [utf8 "500", utf8 "503"],
        .range (utf8 "count") (utf8 "gt") (utf8 "10")]) none none none).allNodes
      hasMatchedFieldName = true :=
  ⟨by rfl, C12_matched_field_names (utf8 "status:(500 or 503) and count > 10") _ (by rfl)⟩

/-- C12, counterexample: `:x` yields a Term node with the empty field name, and `a b:c` a
Term node whose field name holds a space. -/
theorem C12_field_name_counterexample :
    ConvertKQL2DSL (utf8 ":x") = .ok (.term [] (utf8 "x")) ∧
    (Query.term [] (utf8 "x")).allNodes hasFieldName = false ∧
    ConvertKQL2DSL (utf8 "a b:c") = .ok (.term (utf8 "a b") (utf8 "c")) ∧
    (Query.term (utf8 "a b") (utf8 "c")).allNodes hasFieldName = false :=
  ⟨by rfl, by decide, by rfl, by decide⟩

/-- C13: in every tree `ConvertKQL2DSL` returns, every Bool node carries exactly one of
`should`, `must` and `must_not`; `should` and `must` have two or more children, `must_not`
exactly one; `minimum_should_match` is 1 on the `should` nodes and absent elsewhere. -/
theorem C13_bool_nodes (kql : Str) (q : Query) (h : ConvertKQL2DSL kql = .ok q) :
    q.allNodes isBoolShape = true :=
  ConvertKQL2DSL_allNodes isBoolShape rfl
    (fun qs hl => by simpa [isBoolShape] using hl)
    (fun qs hl => by simpa [isBoolShape] using hl)
    (fun _ => by simp [isBoolShape]) (fun _ _ _ => rfl) (fun _ _ _ _ => rfl) (fun _ => rfl)
    (fun _ _ => rfl) (fun _ _ => rfl) kql q h

/-- C13, witness: `not a:1 and b:2 or c:3`. -/
theorem C13_bool_nodes_witness :
    ConvertKQL2DSL (utf8 "not a:1 and b:2 or c:3") =
      .ok (.bool none (some [.bool (some [.bool none none none
          (some [.term (utf8 "a") (utf8 "1")]), .term (utf8 "b") (utf8 "2")]) none none none,
        .term (utf8 "c") (utf8 "3")]) (some 1) none) ∧
    (Query.bool none (some [.bool (some [.bool none none none
          (some [.term (utf8 "a") (utf8 "1")]), .term (utf8 "b") (utf8 "2")]) none none none,
        .term (utf8 "c") (utf8 "3")]) (some 1) none).allNodes isBoolShape = true :=
  ⟨by rfl, C13_bool_nodes (utf8 "not a:1 and b:2 or c:3") _ (by rfl)⟩

/-- C20: no tree `ConvertKQL2DSL` returns has a MatchPhrase node: the value that reaches
the test for a quoted value never starts with a quote, and `parseTerm` returns a Range,
Exists, Wildcard (the value has a `*`) or Term node (it has none). -/
theorem C20_no_match_phrase :
    (∀ (kql : Str) (q : Query), ConvertKQL2DSL kql = .ok q → q.allNodes isNotPhrase = true) ∧
    (∀ s : Str, (utf8 "\"").isPrefixOf (Trim s (utf8 "\" ")) = false) ∧
    (∀ (e : Str) (q : Query), parseTerm e = .ok q →
      (∃ f k v, q = .range f k v) ∨ (∃ v, q = .existsField v) ∨
      (∃ f v, q = .wildcard f v ∧ 42 ∈ v) ∨ (∃ f v, q = .term f v ∧ 42 ∉ v)) := by
  refine ⟨fun kql q h => ?_, Trim_not_quoted, fun e q h => ?_⟩
  · exact ConvertKQL2DSL_allNodes isNotPhrase rfl (fun _ _ => rfl) (fun _ _ => rfl)
      (fun _ => rfl) (fun _ _ _ => rfl) (fun _ _ _ _ => rfl) (fun _ => rfl) (fun _ _ => rfl)
      (fun _ _ => rfl) kql q h
  · rcases parseTerm_cases e with ⟨f, k, v, _, h2⟩ | ⟨v, h2⟩ | ⟨f, v, h2, h3⟩ |
      ⟨f, v, h2, h3⟩ | h2
    all_goals rw [h2] at h
    · injection h with h; exact Or.inl ⟨f, k, v, h.symm⟩
    · injection h with h; exact Or.inr (Or.inl ⟨v, h.symm⟩)
    · injection h with h; exact Or.inr (Or.inr (Or.inl ⟨f, v, h.symm, h3⟩))
    · injection h with h; exact Or.inr (Or.inr (Or.inr ⟨f, v, h.symm, h3⟩))
    · exact Except.noConfusion h

/-- C20, witness: `message:"exact phrase" or host:"web-*"`. -/
theorem C20_no_match_phrase_witness :
    ConvertKQL2DSL (utf8 "message:\"exact phrase\" or host:\"web-*\"") =
      .ok (.bool none (some [.term (utf8 "message") (utf8 "exact phrase"),
        .wildcard (utf8 "host") (utf8 "web-*")]) (some 1) none) ∧
    (Query.bool none (some [.term (utf8 "message") (utf8 "exact phrase"),
        .wildcard (utf8 "host") (utf8 "web-*")]) (some 1) none).allNodes isNotPhrase = true ∧
    parseTerm (utf8 "host:\"web-*\"") = .ok (.wildcard (utf8 "host") (utf8 "web-*")) ∧
    ((∃ f k v, Query.wildcard (utf8 "host") (utf8 "web-*") = .range f k v) ∨
      (∃ v, Query.wildcard (utf8 "host") (utf8 "web-*") = .existsField v) ∨
      (∃ f v, Query.wildcard (utf8 "host") (utf8 "web-*") = .wildcard f v ∧ 42 ∈ v) ∨
      (∃ f v, Query.wildcard (utf8 "host") (utf8 "web-*") = .term f v ∧ 42 ∉ v)) :=
  ⟨by rfl,
    C20_no_match_phrase.1 (utf8 "message:\"exact phrase\" or host:\"web-*\"") _ (by rfl),
    by rfl, C20_no_match_phrase.2.2 (utf8 "host:\"web-*\"") _ (by rfl)⟩

/-! ## Errors -/

/-- The loop over the parts returns the error of the first part that fails. -/
theorem parseParts_error (f : Str → Result) (pre : List Str) :
    ∀ (part : Str) (post : List Str) (err : Failure),
      (∀ p ∈ pre, ∃ q, f p = .ok q) → f part = .error err →
      parseParts f (pre ++ part :: post) = .error err := by
  induction pre with
  | nil =>
    intro part post err _ h
    simp only [List.nil_append, parseParts, h]
  | cons p pre ih =>
    intro part post err hpre h
    obtain ⟨q, hq⟩ := hpre p (by simp)
    have h2 := ih part post err (fun x hx => hpre x (by simp [hx])) h
    rw [List.cons_append, parseParts, hq]
    dsimp only
    rw [h2]

/-- C11, as amended: with `expr` the expression as `parseExpression` splits it (trimmed,
redundant outer parentheses stripped), when the split on ` or `, or else the split on
` and `, yields two or more segments, `parseExpression` fails with exactly the error of the
leftmost segment that fails; when neither splits and `expr` starts with `not `, it fails
with exactly the error of the rest; and a result is never both a tree and an error. -/
theorem C11_errors_propagate (e expr : Str)
    (hs : stripParens (TrimSpace e).length (TrimSpace e) = some expr) :
    (1 < (safeSplit expr delimOr).length →
      ∀ (pre : List Str) (part : Str) (post : List Str) (err : Failure),
        safeSplit expr delimOr = pre ++ part :: post →
        (∀ p ∈ pre, ∃ q, parseExpression p = .ok q) → parseExpression part = .error err →
        parseExpression e = .error err) ∧
    ((safeSplit expr delimOr).length ≤ 1 → 1 < (safeSplit expr delimAnd).length →
      ∀ (pre : List Str) (part : Str) (post : List Str) (err : Failure),
        safeSplit expr delimAnd = pre ++ part :: post →
        (∀ p ∈ pre, ∃ q, parseExpression p = .ok q) → parseExpression part = .error err →
        parseExpression e = .error err) ∧
    ((safeSplit expr delimOr).length ≤ 1 → (safeSplit expr delimAnd).length ≤ 1 →
      ∀ (rest : Str) (err : Failure), expr = utf8 "not " ++ rest →
        parseExpression (TrimSpace rest) = .error err → parseExpression e = .error err) ∧
    ¬ ∃ (q : Query) (err : Failure), parseExpression e = .ok q ∧ parseExpression e = .error err := by
  refine ⟨?_, ?_, ?_, ?_⟩
  · intro hl pre part post err hsplit hpre herr
    rw [parseExpression_eq]
    unfold parseStep
    rw [hs]
    dsimp only
    rw [if_pos hl, hsplit, parseParts_error _ pre part post err hpre herr]
  · intro hor hl pre part post err hsplit hpre herr
    rw [parseExpression_eq]
    unfold parseStep
    rw [hs]
    dsimp only
    rw [if_neg (by omega), if_pos hl, hsplit, parseParts_error _ pre part post err hpre herr]
  · intro hor hand rest err hrest herr
    rw [parseExpression_eq]
    unfold parseStep
    rw [hs]
    dsimp only
    have hpre : (utf8 "not ").isPrefixOf expr = true := by
      rw [hrest, List.isPrefixOf_iff_prefix]; exact List.prefix_append _ _
    have hsl : slice expr 4 expr.length = some rest := by
      subst hrest
      unfold slice
      rw [if_pos (by simp [utf8_not])]
      simp [utf8_not]
    rw [if_neg (by omega), if_neg (by omega), if_pos hpre, hsl]
    dsimp only
    rw [herr]
  · rintro ⟨q, err, h1, h2⟩
    rw [h1] at h2
    exact Except.noConfusion h2

/-- C11, witness: `a:1 or bad or worse` fails with the error of `bad`, `a:1 and bad` too,
and `not bad` too. -/
theorem C11_errors_propagate_witness :
    parseExpression (utf8 "a:1 or bad or worse") =
      .error (.message (utf8 "unrecognized expression: bad")) ∧
    parseExpression (utf8 "a:1 and bad") =
      .error (.message (utf8 "unrecognized expression: bad")) ∧
    parseExpression (utf8 "not bad") =
      .error (.message (utf8 "unrecognized expression: bad")) :=
  ⟨(C11_errors_propagate (utf8 "a:1 or bad or worse") (utf8 "a:1 or bad or worse")
      (by rfl)).1 (by decide) [utf8 "a:1"] (utf8 "bad") [utf8 "worse"] _ (by rfl)
      (by
        intro p hp
        simp only [List.mem_singleton] at hp
        subst hp
        exact ⟨.term (utf8 "a") (utf8 "1"), by rfl⟩) (by rfl),
    (C11_errors_propagate (utf8 "a:1 and bad") (utf8 "a:1 and bad")
      (by rfl)).2.1 (by decide) (by decide) [utf8 "a:1"] (utf8 "bad") [] _ (by rfl)
      (by
        intro p hp
        simp only [List.mem_singleton] at hp
        subst hp
        exact ⟨.term (utf8 "a") (utf8 "1"), by rfl⟩) (by rfl),
    (C11_errors_propagate (utf8 "not bad") (utf8 "not bad")
      (by rfl)).2.2.1 (by decide) (by decide) (utf8 "bad") _ (by rfl) (by rfl)⟩

/-- C11, counterexample: `or b` fails with its own text, `not or b` is split at ` or ` and
fails with the text `not`. -/
theorem C11_not_prefix_counterexample :
    parseExpression (utf8 "or b") =
      .error (.message (utf8 "unrecognized expression: or b")) ∧
    parseExpression (utf8 "not " ++ utf8 "or b") =
      .error (.message (utf8 "unrecognized expression: not")) ∧
    parseExpression (utf8 "not " ++ utf8 "or b") ≠ parseExpression (utf8 "or b") := by
  have h1 : parseExpression (utf8 "or b") =
      .error (.message (utf8 "unrecognized expression: or b")) := by rfl
  have h2 : parseExpression (utf8 "not " ++ utf8 "or b") =
      .error (.message (utf8 "unrecognized expression: not")) := by rfl
  refine ⟨h1, h2, ?_⟩
  rw [h1, h2]
  intro h
  injection h with h
  injection h with h
  exact absurd h (by decide)

/-! ## Balance -/

theorem forall_take_cons (P : Str → Prop) (c : Nat) (s : Str) :
    (∀ n : Nat, P ((c :: s).take n)) ↔ P [] ∧ ∀ n : Nat, P (c :: s.take n) := by
  constructor
  · intro h
    exact ⟨h 0, fun n => h (n + 1)⟩
  · rintro ⟨h0, h1⟩ n
    cases n with
    | zero => exact h0
    | succ n => exact h1 n

/-- The loop of `balancedParentheses`, started at a depth `d` that is not negative, against
the counts. -/
theorem balancedLoop_iff (s : Str) :
    ∀ (d : Int) (q : Bool), 0 ≤ d →
      (balancedLoop s d q = true ↔
        (∀ n : Nat, (countOutside 41 q (s.take n) : Int) ≤ d + countOutside 40 q (s.take n)) ∧
          d + countOutside 40 q s = countOutside 41 q s) := by
  induction s with
  | nil =>
    intro d q hd
    simp only [balancedLoop, List.take_nil, countOutside, beq_iff_eq]
    constructor
    · intro h; subst h; simp
    · intro h; simpa using h.2
  | cons c s ih =>
    intro d q hd
    rw [forall_take_cons (fun t => (countOutside 41 q t : Int) ≤ d + countOutside 40 q t)]
    by_cases h34 : c = 34
    · subst h34
      simp only [balancedLoop, countOutside, beq_self_eq_true, if_true]
      rw [ih d (!q) hd]
      simp [hd]
    · have e34 : (c == 34) = false := by simpa using h34
      cases q with
      | true =>
        simp only [balancedLoop, countOutside, e34, Bool.false_eq_true, if_false,
          Bool.not_true, Bool.false_and, zero_add]
        rw [ih d true hd]
        simp [hd]
      | false =>
        by_cases h40 : c = 40
        · subst h40
          simp only [balancedLoop, countOutside, e34, Bool.false_eq_true, if_false,
            Bool.not_false, Bool.true_and, beq_self_eq_true, if_true,
            show ((40 : Nat) == 41) = false from rfl, zero_add]
          rw [ih (d + 1) false (by omega)]
          simp only [Nat.cast_add, Nat.cast_one, Nat.cast_zero]
          constructor
          · rintro ⟨h1, h2⟩
            exact ⟨⟨by omega, fun n => by have := h1 n; omega⟩, by omega⟩
          · rintro ⟨⟨_, h1⟩, h2⟩
            exact ⟨fun n => by have := h1 n; omega, by omega⟩
        · have e40 : (c == 40) = false := by simpa using h40
          by_cases h41 : c = 41
          · subst h41
            simp only [balancedLoop, countOutside, e34, Bool.false_eq_true, if_false,
              Bool.not_false, Bool.true_and, beq_self_eq_true, if_true, e40, zero_add]
            by_cases hneg : d - 1 < 0
            · rw [if_pos hneg]
              simp only [Bool.false_eq_true, false_iff, Nat.cast_add, Nat.cast_one,
                Nat.cast_zero]
              rintro ⟨⟨_, h1⟩, _⟩
              have := h1 0
              simp only [List.take_zero, countOutside, Nat.cast_zero] at this
              omega
            · rw [if_neg hneg, ih (d - 1) false (by omega)]
              simp only [Nat.cast_add, Nat.cast_one, Nat.cast_zero]
              constructor
              · rintro ⟨h1, h2⟩
                exact ⟨⟨by omega, fun n => by have := h1 n; omega⟩, by omega⟩
              · rintro ⟨⟨_, h1⟩, h2⟩
                exact ⟨fun n => by have := h1 n; omega, by omega⟩
          · have e41 : (c == 41) = false := by simpa using h41
            simp only [balancedLoop, countOutside, e34, Bool.false_eq_true, if_false,
              Bool.not_false, Bool.true_and, e40, e41, zero_add, ite_self]
            rw [ih d false hd]
            simp [hd]

/-- C18: `balancedParentheses` is true exactly when, counting only the parentheses outside
quoted runs, no prefix has more `)` than `(` and the string has as many `(` as `)`. -/
theorem C18_balanced_reference (s : Str) : balancedParentheses s = true ↔ balancedRef s := by
  unfold balancedParentheses balancedRef
  rw [balancedLoop_iff s 0 false (Int.le_refl 0)]
  simp only [zero_add]
  constructor
  · rintro ⟨h1, h2⟩
    exact ⟨fun n => by exact_mod_cast h1 n, by exact_mod_cast h2⟩
  · rintro ⟨h1, h2⟩
    exact ⟨fun n => by exact_mod_cast h1 n, by exact_mod_cast h2⟩

/-! ## The split on indices -/

theorem scanState_append (a : Str) :
    ∀ (d : Int) (q : Bool) (b : Str),
      scanState d q (a ++ b) = scanState (scanState d q a).1 (scanState d q a).2 b := by
  induction a with
  | nil => intro d q b; rfl
  | cons c a ih => intro d q b; simp only [List.cons_append, scanState]; exact ih _ _ b

theorem scanState_plain (t : Str) :
    ∀ (d : Int) (q : Bool), (∀ c ∈ t, c ≠ 34 ∧ c ≠ 40 ∧ c ≠ 41) → scanState d q t = (d, q) := by
  induction t with
  | nil => intro d q _; rfl
  | cons c t ih =>
    intro d q h
    have hc := h c (by simp)
    have h34 : (c == 34) = false := by simpa using hc.1
    have h40 : (c == 40) = false := by simpa using hc.2.1
    have h41 : (c == 41) = false := by simpa using hc.2.2
    simp only [scanState, depthAfter, quoteAfter, h34, h40, h41, Bool.false_and,
      Bool.false_eq_true, if_false]
    exact ih d q (fun x hx => h x (by simp [hx]))

theorem isPrefixOf_drop_iff (delim s : Str) (i : Nat) (hi : i ≤ s.length) :
    delim.isPrefixOf (s.drop i) = true ↔
      i + delim.length ≤ s.length ∧ (s.take (i + delim.length)).drop i = delim := by
  rw [List.isPrefixOf_iff_prefix, List.drop_take]
  simp only [Nat.add_sub_cancel_left]
  constructor
  · intro h
    have hl := h.length_le
    simp only [List.length_drop] at hl
    refine ⟨by omega, ?_⟩
    obtain ⟨t, ht⟩ := h
    rw [← ht]
    simp
  · rintro ⟨_, h⟩
    rw [← h]
    exact List.take_prefix _ _

theorem safeSplitLoop_skip_drop (delim t : Str) (k : Nat) (cur : Str) (d : Int) (q : Bool)
    (hk : k ≤ t.length) :
    safeSplitLoop delim t k cur d q = safeSplitLoop delim (t.drop k) 0 cur d q := by
  have := safeSplitLoop_skip delim (t.take k) (t.drop k) cur d q
  rw [List.take_append_drop, List.length_take, Nat.min_eq_left hk] at this
  exact this

theorem slice_eq (s : Str) (lo hi : Nat) (h1 : lo ≤ hi) (h2 : hi ≤ s.length) :
    slice s lo hi = some ((s.take hi).drop lo) := by
  unfold slice
  rw [if_pos ⟨h1, h2⟩]

/-- The loop on indices never leaves the string, returns the parts of the loop on the rest
of the string, and cuts only at occurrences of the delimiter where the scan is at depth 0
outside quotes. -/
theorem safeSplitIdxLoop_spec (s delim : Str) (hd : 0 < delim.length)
    (ht : ∀ c ∈ delim.drop 1, c ≠ 34 ∧ c ≠ 40 ∧ c ≠ 41) :
    ∀ (fuel i start : Nat) (depth : Int) (q : Bool) (cuts : List Nat) (parts : List Str),
      start ≤ i → i ≤ s.length → s.length - i < fuel →
      scanState 0 false (s.take i) = (depth, q) →
      ∃ cuts2 : List Nat,
        safeSplitIdxLoop s delim fuel i start depth q cuts parts =
          some (cuts2, parts ++ safeSplitLoop delim (s.drop i) 0 ((s.take i).drop start) depth q) ∧
        ∀ j ∈ cuts2, j ∈ cuts ∨
          (delim.isPrefixOf (s.drop j) = true ∧ scanState 0 false (s.take (j + 1)) = (0, false)) := by
  intro fuel
  induction fuel with
  | zero => intro i start depth q cuts parts _ _ hf; omega
  | succ fuel ih =>
    intro i start depth q cuts parts hsi hil hf hst
    by_cases hi : i < s.length
    · have hc : s[i]? = some s[i] := List.getElem?_eq_getElem hi
      generalize s[i] = c at hc
      have hdrop : s.drop i = c :: s.drop (i + 1) := by
        rw [List.drop_eq_getElem_cons hi]
        congr 1
        have := List.getElem?_eq_getElem hi
        rw [hc] at this
        exact (Option.some.inj this).symm
      have htake : s.take (i + 1) = s.take i ++ [c] := by
        rw [List.take_succ, hc]; rfl
      have hst1 : scanState 0 false (s.take (i + 1)) =
          (depthAfter c q depth, quoteAfter c q) := by
        rw [htake, scanState_append, hst]
        rfl
      have hcur : (s.take (i + 1)).drop start = (s.take i).drop start ++ [c] := by
        rw [htake, List.drop_append_of_le_length (by simp; omega)]
      have hadv := ih (i + 1) start (depthAfter c q depth) (quoteAfter c q) cuts parts
        (by omega) (by omega) (by omega) hst1
      rw [hcur] at hadv
      rw [safeSplitIdxLoop, if_pos hi, hc, hdrop, safeSplitLoop]
      dsimp only
      by_cases hcond : (depthAfter c q depth == 0 && !quoteAfter c q) = true
      · by_cases hb : i + delim.length ≤ s.length
        · rw [slice_eq s i (i + delim.length) (by omega) hb]
          dsimp only
          by_cases hw : (s.take (i + delim.length)).drop i = delim
          · have hpre : delim.isPrefixOf (c :: s.drop (i + 1)) = true := by
              rw [← hdrop, isPrefixOf_drop_iff delim s i hil]
              exact ⟨hb, hw⟩
            have hst2 : scanState 0 false (s.take (i + delim.length)) =
                (depthAfter c q depth, quoteAfter c q) := by
              have e1 : s.take (i + delim.length) =
                  s.take (i + 1) ++ (s.take (i + delim.length)).drop (i + 1) := by
                have := List.take_append_drop (i + 1) (s.take (i + delim.length))
                rw [List.take_take, Nat.min_eq_left (by omega)] at this
                exact this.symm
              have e2 : (s.take (i + delim.length)).drop (i + 1) = delim.drop 1 := by
                have e5 : (s.take (i + delim.length)).drop (i + 1) =
                    ((s.take (i + delim.length)).drop i).drop 1 := by
                  rw [List.drop_drop]
                rw [e5, hw]
              rw [e1, scanState_append, hst1, e2]
              exact scanState_plain _ _ _ ht
            obtain ⟨cuts2, h1, h2⟩ := ih (i + delim.length) (i + delim.length)
              (depthAfter c q depth) (quoteAfter c q) (cuts ++ [i])
              (parts ++ [TrimSpace ((s.take i).drop start)]) (Nat.le_refl _) hb (by omega) hst2
            refine ⟨cuts2, ?_, ?_⟩
            · rw [hcond, hpre]
              simp only [hb, decide_True, Bool.and_self, if_true, hw, beq_self_eq_true,
                slice_eq s start i hsi hil]
              rw [h1]
              have e3 : (s.take (i + delim.length)).drop (i + delim.length) = [] := by
                rw [List.drop_eq_nil_iff]; simp
              rw [e3, safeSplitLoop_skip_drop delim (s.drop (i + 1)) (delim.length - 1) []
                _ _ (by simp; omega), List.drop_drop]
              have e4 : i + 1 + (delim.length - 1) = i + delim.length := by omega
              rw [e4]
              simp
            · intro j hj
              rcases h2 j hj with h3 | h3
              · rcases List.mem_append.mp h3 with h4 | h4
                · exact Or.inl h4
                · simp only [List.mem_singleton] at h4
                  subst h4
                  right
                  refine ⟨by rw [hdrop]; exact hpre, ?_⟩
                  rw [hst1]
                  simp only [Bool.and_eq_true, beq_iff_eq, Bool.not_eq_true'] at hcond
                  rw [hcond.1, hcond.2]
              · exact Or.inr h3
          · have hpre : delim.isPrefixOf (c :: s.drop (i + 1)) = false := by
              rw [← hdrop, Bool.eq_false_iff, Ne, isPrefixOf_drop_iff delim s i hil]
              exact fun h => hw h.2
            obtain ⟨cuts2, h1, h2⟩ := hadv
            refine ⟨cuts2, ?_, h2⟩
            have hne : ((s.take (i + delim.length)).drop i == delim) = false := by
              simpa using hw
            rw [hcond, hpre, hne]
            simp only [hb, decide_True, Bool.and_self, if_true, Bool.and_false,
              Bool.false_eq_true, if_false]
            exact h1
        · have hpre : delim.isPrefixOf (c :: s.drop (i + 1)) = false := by
            rw [← hdrop, Bool.eq_false_iff, Ne, isPrefixOf_drop_iff delim s i hil]
            exact fun h => hb h.1
          obtain ⟨cuts2, h1, h2⟩ := hadv
          refine ⟨cuts2, ?_, h2⟩
          rw [hcond, hpre]
          simp only [hb, decide_False, Bool.and_false, Bool.false_eq_true, if_false]
          exact h1
      · obtain ⟨cuts2, h1, h2⟩ := hadv
        refine ⟨cuts2, ?_, h2⟩
        have hcond2 : (depthAfter c q depth == 0 && !quoteAfter c q) = false := by
          simpa using hcond
        rw [hcond2]
        simp only [Bool.false_and, Bool.false_eq_true, if_false]
        exact h1
    · have hlen : i = s.length := by omega
      subst hlen
      refine ⟨cuts, ?_, fun j hj => Or.inl hj⟩
      rw [safeSplitIdxLoop, if_neg hi]
      have e1 : s.drop s.length = [] := by simp
      rw [e1, safeSplitLoop, List.take_length]
      by_cases hs : start < s.length
      · rw [if_pos hs, slice_eq s start s.length hsi (Nat.le_refl _), List.take_length]
        have : (s.drop start).isEmpty = false := by
          rw [List.isEmpty_eq_false]
          intro h
          rw [List.drop_eq_nil_iff] at h
          omega
        simp [this]
      · rw [if_neg hs]
        have : (s.drop start).isEmpty = true := by
          rw [List.isEmpty_iff, List.drop_eq_nil_iff]
          omega
        simp [this]

/-! ## No panic -/

theorem wrapped_length (s : Str) (h1 : (utf8 "(").isPrefixOf s = true)
    (h2 : (utf8 ")").isSuffixOf s = true) : 2 ≤ s.length := by
  rw [utf8_lparen] at h1
  rw [utf8_rparen, List.isSuffixOf_iff_suffix] at h2
  rcases s with _ | ⟨a, _ | ⟨b, t⟩⟩
  · simp at h1
  · simp only [List.isPrefixOf, Bool.and_true, beq_iff_eq] at h1
    obtain ⟨t, ht⟩ := h2
    have hl := congrArg List.length ht
    simp only [List.length_append, List.length_singleton] at hl
    have : t = [] := List.length_eq_zero.mp (by omega)
    subst this
    simp only [List.nil_append, List.cons.injEq, and_true] at ht
    omega
  · simp

/-- The slice of the stripping loop is in range: the loop never panics. -/
theorem stripParens_some (n : Nat) : ∀ s : Str, ∃ t : Str, stripParens n s = some t := by
  induction n with
  | zero => intro s; exact ⟨s, rfl⟩
  | succ n ih =>
    intro s
    rw [stripParens]
    by_cases hc : ((utf8 "(").isPrefixOf s && (utf8 ")").isSuffixOf s) = true
    · rw [if_pos hc]
      simp only [Bool.and_eq_true] at hc
      have hl := wrapped_length s hc.1 hc.2
      rw [slice_eq s 1 (s.length - 1) (by omega) (by omega)]
      dsimp only
      split_ifs
      · exact ih _
      · exact ⟨s, rfl⟩
    · rw [if_neg hc]
      exact ⟨s, rfl⟩

theorem parseTerm_structured (e : Str) : Structured (parseTerm e) := by
  rcases parseTerm_cases e with ⟨f, k, v, _, h⟩ | ⟨v, h⟩ | ⟨f, v, h, _⟩ | ⟨f, v, h, _⟩ | h
  · exact Or.inl ⟨_, h⟩
  · exact Or.inl ⟨_, h⟩
  · exact Or.inl ⟨_, h⟩
  · exact Or.inl ⟨_, h⟩
  · exact Or.inr ⟨_, h⟩

theorem parseParts_structured (f : Str → Result) (parts : List Str)
    (h : ∀ p ∈ parts, Structured (f p)) :
    (∃ qs, parseParts f parts = .ok qs) ∨ ∃ msg, parseParts f parts = .error (.message msg) := by
  induction parts with
  | nil => exact Or.inl ⟨[], rfl⟩
  | cons p ps ih =>
    rw [parseParts]
    rcases h p (by simp) with ⟨q, hq⟩ | ⟨msg, hm⟩
    · rw [hq]
      dsimp only
      rcases ih (fun x hx => h x (by simp [hx])) with ⟨qs, hqs⟩ | ⟨msg, hm⟩
      · rw [hqs]; exact Or.inl ⟨_, rfl⟩
      · rw [hm]; exact Or.inr ⟨_, rfl⟩
    · rw [hm]; exact Or.inr ⟨_, rfl⟩

theorem parseStep_structured (g : Str → Result) (e : Str)
    (h : ∀ t : Str, t.length < e.length → Structured (g t)) : Structured (parseStep g e) := by
  unfold parseStep
  have h0 := TrimSpace_length_le e
  obtain ⟨expr, hs⟩ := stripParens_some (TrimSpace e).length (TrimSpace e)
  have h1 := stripParens_length_le _ _ _ hs
  rw [hs]
  dsimp only
  split_ifs with hor hand hnot
  · rcases parseParts_structured g _ (fun p hp => h p (by
      have := safeSplit_part_lt _ _ _ hor hp; omega)) with ⟨qs, hq⟩ | ⟨msg, hm⟩
    · rw [hq]; exact Or.inl ⟨_, rfl⟩
    · rw [hm]; exact Or.inr ⟨_, rfl⟩
  · rcases parseParts_structured g _ (fun p hp => h p (by
      have := safeSplit_part_lt _ _ _ hand hp; omega)) with ⟨qs, hq⟩ | ⟨msg, hm⟩
    · rw [hq]; exact Or.inl ⟨_, rfl⟩
    · rw [hm]; exact Or.inr ⟨_, rfl⟩
  · have hlen : 4 ≤ expr.length := by
      have := List.IsPrefix.length_le (List.isPrefixOf_iff_prefix.mp hnot)
      simpa [utf8, encodeRune] using this
    rw [slice_eq expr 4 expr.length hlen (Nat.le_refl _)]
    dsimp only
    have hr : (TrimSpace ((expr.take expr.length).drop 4)).length < e.length := by
      rw [List.take_length]
      have := TrimSpace_length_le (expr.drop 4)
      simp only [List.length_drop] at this
      omega
    rcases h _ hr with ⟨q, hq⟩ | ⟨msg, hm⟩
    · rw [hq]; exact Or.inl ⟨_, rfl⟩
    · rw [hm]; exact Or.inr ⟨_, rfl⟩
  · cases ht : termsPattern expr with
    | some m => exact Or.inl ⟨_, rfl⟩
    | none => exact parseTerm_structured expr

theorem parseFuel_structured (n : Nat) :
    ∀ e : Str, e.length < n → Structured (parseFuel n e) := by
  induction n with
  | zero => intro e h; omega
  | succ n ih =>
    intro e h
    rw [parseFuel]
    exact parseStep_structured _ e (fun t ht => ih t (by omega))

theorem ConvertKQL2DSL_structured (kql : Str) : Structured (ConvertKQL2DSL kql) := by
  unfold ConvertKQL2DSL
  dsimp only
  split_ifs
  · exact Or.inl ⟨_, rfl⟩
  · exact parseFuel_structured _ _ (Nat.lt_succ_self _)

theorem delimOr_tail : ∀ c ∈ delimOr.drop 1, c ≠ 34 ∧ c ≠ 40 ∧ c ≠ 41 := by decide

theorem delimAnd_tail : ∀ c ∈ delimAnd.drop 1, c ≠ 34 ∧ c ≠ 40 ∧ c ≠ 41 := by decide

/-- The split on indices returns the parts of `safeSplit`, and cuts only at occurrences of
the delimiter where the scan is at depth 0 outside quotes. -/
theorem safeSplitIdx_spec (s delim : Str) (hd : 0 < delim.length)
    (ht : ∀ c ∈ delim.drop 1, c ≠ 34 ∧ c ≠ 40 ∧ c ≠ 41) :
    ∃ cuts : List Nat, safeSplitIdx s delim = some (cuts, safeSplit s delim) ∧
      ∀ j ∈ cuts, delim.isPrefixOf (s.drop j) = true ∧
        scanState 0 false (s.take (j + 1)) = (0, false) := by
  obtain ⟨cuts, h1, h2⟩ := safeSplitIdxLoop_spec s delim hd ht (s.length + 1) 0 0 0 false [] []
    (Nat.le_refl _) (Nat.zero_le _) (by omega) rfl
  refine ⟨cuts, ?_, ?_⟩
  · unfold safeSplitIdx safeSplit
    rw [h1]
    simp
  · intro j hj
    rcases h2 j hj with h3 | h3
    · simp at h3
    · exact h3

/-- C14: `ConvertKQL2DSL` returns a tree or the error value on every input, never a panic:
the slices of `parseExpression` and of `parseTerm` are in range, and so are the index and
the slices of `safeSplit`, whose loop on indices returns the parts of `safeSplit`. -/
theorem C14_no_panic :
    (∀ kql : Str, (∃ q : Query, ConvertKQL2DSL kql = .ok q) ∨
      ∃ msg : Str, ConvertKQL2DSL kql = .error (.message msg)) ∧
    (∀ (n : Nat) (s : Str), stripParens n s ≠ none) ∧
    (∀ e : Str, parseTerm e ≠ .error .panic) ∧
    (∀ s : Str, ∃ cuts : List Nat, safeSplitIdx s delimOr = some (cuts, safeSplit s delimOr)) ∧
    (∀ s : Str, ∃ cuts : List Nat, safeSplitIdx s delimAnd = some (cuts, safeSplit s delimAnd)) := by
  refine ⟨ConvertKQL2DSL_structured, ?_, ?_, ?_, ?_⟩
  · intro n s h
    obtain ⟨t, ht⟩ := stripParens_some n s
    rw [h] at ht
    exact Option.noConfusion ht
  · intro e h
    rcases parseTerm_structured e with ⟨q, hq⟩ | ⟨msg, hm⟩
    · rw [h] at hq; exact Except.noConfusion hq
    · rw [h] at hm
      injection hm with hm
      exact Failure.noConfusion hm
  · intro s
    obtain ⟨cuts, h, _⟩ := safeSplitIdx_spec s delimOr (by decide) delimOr_tail
    exact ⟨cuts, h⟩
  · intro s
    obtain ⟨cuts, h, _⟩ := safeSplitIdx_spec s delimAnd (by decide) delimAnd_tail
    exact ⟨cuts, h⟩

/-! ## Where the split cuts -/

/-- One round of the loop of `balancedParentheses` that goes on to succeed, seen from the
scan of `safeSplit` one level deeper. -/
theorem balancedLoop_step (c : Nat) (m : Str) (k : Int) (q : Bool) (hk : 0 ≤ k)
    (h : balancedLoop (c :: m) k q = true) :
    ∃ k2 : Int, 0 ≤ k2 ∧ balancedLoop m k2 (quoteAfter c q) = true ∧
      depthAfter c q (k + 1) = k2 + 1 := by
  rw [balancedLoop] at h
  by_cases h34 : c = 34
  · subst h34
    simp only [beq_self_eq_true, if_true] at h
    exact ⟨k, hk, by simpa [quoteAfter] using h, by simp [depthAfter]⟩
  · have e34 : (c == 34) = false := by simpa using h34
    simp only [e34, Bool.false_eq_true, if_false] at h
    cases q with
    | true =>
      simp only [Bool.not_true, Bool.false_eq_true, if_false] at h
      exact ⟨k, hk, by simpa [quoteAfter, e34] using h, by simp [depthAfter]⟩
    | false =>
      simp only [Bool.not_false, if_true] at h
      by_cases h40 : c = 40
      · subst h40
        simp only [beq_self_eq_true, if_true] at h
        exact ⟨k + 1, by omega, by simpa [quoteAfter] using h, by simp [depthAfter]⟩
      · have e40 : (c == 40) = false := by simpa using h40
        simp only [e40, Bool.false_eq_true, if_false] at h
        by_cases h41 : c = 41
        · subst h41
          simp only [beq_self_eq_true, if_true] at h
          split_ifs at h with hneg
          refine ⟨k - 1, by omega, by simpa [quoteAfter] using h, ?_⟩
          simp [depthAfter]
        · have e41 : (c == 41) = false := by simpa using h41
          simp only [e41, Bool.false_eq_true, if_false] at h
          exact ⟨k, hk, by simpa [quoteAfter, e34] using h, by simp [depthAfter, e40, e41]⟩

/-- Inside a balanced string one level deep the scan never cuts. -/
theorem safeSplitLoop_balanced (delim : Str) (m : Str) :
    ∀ (r cur : Str) (k : Int) (q : Bool), 0 ≤ k → balancedLoop m k q = true →
      safeSplitLoop delim (m ++ r) 0 cur (k + 1) q =
        safeSplitLoop delim r 0 (cur ++ m) 1 (quoteState q m) := by
  induction m with
  | nil =>
    intro r cur k q _ h
    simp only [balancedLoop, beq_iff_eq] at h
    subst h
    simp [quoteState]
  | cons c m ih =>
    intro r cur k q hk h
    obtain ⟨k2, hk2, hb, hd⟩ := balancedLoop_step c m k q hk h
    have hne : (k2 + 1 == 0) = false := by
      simp only [beq_eq_false_iff_ne, ne_eq]
      omega
    rw [List.cons_append, safeSplitLoop, hd, hne]
    simp only [Bool.false_and, Bool.false_eq_true, if_false]
    rw [ih r _ k2 _ hk2 hb]
    simp [quoteState, quoteAfter]

/-- A balanced string in parentheses is one part. -/
theorem safeSplit_wrapped (tl m : Str) (h : balancedParentheses m = true) :
    safeSplit (40 :: (m ++ [41])) (32 :: tl) = [40 :: (m ++ [41])] := by
  unfold safeSplit
  rw [safeSplitLoop_open]
  have := safeSplitLoop_balanced (32 :: tl) m [41] ([] ++ [40]) 0 false (Int.le_refl 0) h
  rw [zero_add] at this
  rw [this]
  have hts : TrimSpace (40 :: (m ++ [41])) = 40 :: (m ++ [41]) := by
    apply TrimSpace_eq_self
    · intro c hc; simp at hc; subst hc; decide
    · intro c hc
      have : (40 :: (m ++ [41])).getLast? = some 41 := by
        rw [← List.cons_append]; exact getLast?_append_singleton _ _
      rw [this] at hc; simp at hc; subst hc; decide
  cases hq : quoteState false m with
  | false =>
    rw [safeSplitLoop_close, safeSplitLoop_nil _ _ _ _ (by simp)]
    simp [hts]
  | true =>
    rw [safeSplitLoop]
    simp only [depthAfter, quoteAfter, show ((41 : Nat) == 34) = false from rfl,
      Bool.false_eq_true, if_false, Bool.not_true, Bool.and_false, Bool.false_and]
    rw [safeSplitLoop_nil _ _ _ _ (by simp)]
    simp [hts]

/-- A quoted string is one part. -/
theorem safeSplit_in_quotes (tl t : Str) (h : 34 ∉ t) :
    safeSplit (34 :: (t ++ [34])) (32 :: tl) = [34 :: (t ++ [34])] := by
  have := safeSplit_quoted tl [] t (by simp) (fun c hc e => h (e ▸ hc))
  rw [List.nil_append] at this
  rw [this]
  congr 1
  apply TrimSpace_eq_self
  · intro c hc; simp at hc; subst hc; decide
  · intro c hc
    have : (34 :: (t ++ [34])).getLast? = some 34 := by
      rw [← List.cons_append]; exact getLast?_append_singleton _ _
    rw [this] at hc; simp at hc; subst hc; decide

/-- The state of the scan is the same before and after the first byte of a delimiter that
starts with a space. -/
theorem scanState_before (tl s : Str) (i : Nat)
    (hp : (32 :: tl).isPrefixOf (s.drop i) = true) :
    scanState 0 false (s.take (i + 1)) = scanState 0 false (s.take i) := by
  have hi : i < s.length := by
    by_contra hn
    have : s.drop i = [] := List.drop_eq_nil_iff.mpr (by omega)
    rw [this] at hp
    simp [List.isPrefixOf] at hp
  have hc : s[i] = 32 := by
    rw [List.drop_eq_getElem_cons hi] at hp
    simp only [List.isPrefixOf, Bool.and_eq_true, beq_iff_eq] at hp
    exact hp.1.symm
  rw [List.take_succ, List.getElem?_eq_getElem hi, hc, scanState_append]
  rfl

theorem delim_cases (d : Str) (h : d = delimOr ∨ d = delimAnd) :
    ∃ tl : Str, d = 32 :: tl ∧ 0 < d.length ∧ ∀ c ∈ d.drop 1, c ≠ 34 ∧ c ≠ 40 ∧ c ≠ 41 := by
  rcases h with h | h
  · subst h; exact ⟨[111, 114, 32], rfl, by decide, delimOr_tail⟩
  · subst h; exact ⟨[97, 110, 100, 32], rfl, by decide, delimAnd_tail⟩

/-- C16: `safeSplit` cuts only at occurrences of the delimiter at which the scan is at
depth 0 outside quotes; a balanced string in parentheses, and a quoted string, are one
part, whatever they hold. -/
theorem C16_split_only_at_top_level :
    (∀ s d : Str, d = delimOr ∨ d = delimAnd →
      ∃ cuts : List Nat, safeSplitIdx s d = some (cuts, safeSplit s d) ∧
        ∀ i ∈ cuts, d.isPrefixOf (s.drop i) = true ∧
          scanState 0 false (s.take i) = (0, false)) ∧
    (∀ m d : Str, d = delimOr ∨ d = delimAnd → balancedParentheses m = true →
      safeSplit (utf8 "(" ++ m ++ utf8 ")") d = [utf8 "(" ++ m ++ utf8 ")"]) ∧
    (∀ t d : Str, d = delimOr ∨ d = delimAnd → 34 ∉ t →
      safeSplit (utf8 "\"" ++ t ++ utf8 "\"") d = [utf8 "\"" ++ t ++ utf8 "\""]) := by
  refine ⟨?_, ?_, ?_⟩
  · intro s d hd
    obtain ⟨tl, he, hl, ht⟩ := delim_cases d hd
    obtain ⟨cuts, h1, h2⟩ := safeSplitIdx_spec s d hl ht
    refine ⟨cuts, h1, fun i hi => ⟨(h2 i hi).1, ?_⟩⟩
    have hp := (h2 i hi).1
    rw [he] at hp
    rw [← scanState_before tl s i hp]
    exact (h2 i hi).2
  · intro m d hd hb
    obtain ⟨tl, he, _, _⟩ := delim_cases d hd
    rw [he, utf8_lparen, utf8_rparen]
    simpa using safeSplit_wrapped tl m hb
  · intro t d hd hq
    obtain ⟨tl, he, _, _⟩ := delim_cases d hd
    rw [he, utf8_quote]
    simpa using safeSplit_in_quotes tl t hq

/-- C16, witness: the cuts of `a or (b or c) or "x or y"` are at 1 and 13, and the wrapped
and the quoted strings are one part each. -/
theorem C16_split_only_at_top_level_witness :
    (∃ cuts : List Nat,
      safeSplitIdx (utf8 "a or (b or c) or \"x or y\"") delimOr =
        some (cuts, safeSplit (utf8 "a or (b or c) or \"x or y\"") delimOr) ∧
      ∀ i ∈ cuts, delimOr.isPrefixOf ((utf8 "a or (b or c) or \"x or y\"").drop i) = true ∧
        scanState 0 false ((utf8 "a or (b or c) or \"x or y\"").take i) = (0, false)) ∧
    balancedParentheses (utf8 "b or c") = true ∧
    safeSplit (utf8 "(" ++ utf8 "b or c" ++ utf8 ")") delimOr =
      [utf8 "(" ++ utf8 "b or c" ++ utf8 ")"] ∧
    34 ∉ utf8 "x or y" ∧
    safeSplit (utf8 "\"" ++ utf8 "x or y" ++ utf8 "\"") delimOr =
      [utf8 "\"" ++ utf8 "x or y" ++ utf8 "\""] :=
  ⟨C16_split_only_at_top_level.1 (utf8 "a or (b or c) or \"x or y\"") delimOr (Or.inl rfl),
    by decide, C16_split_only_at_top_level.2.1 (utf8 "b or c") delimOr (Or.inl rfl) (by decide),
    by decide,
    C16_split_only_at_top_level.2.2 (utf8 "x or y") delimOr (Or.inl rfl) (by decide)⟩

/-- Without an occurrence of the delimiter at depth 0 outside quotes, the scan goes to the
end of the string without a cut. -/
theorem safeSplitLoop_no_cut (tl : Str) (rest : Str) :
    ∀ (pre cur : Str) (d : Int) (q : Bool), scanState 0 false pre = (d, q) →
      (∀ i : Nat, (32 :: tl).isPrefixOf ((pre ++ rest).drop i) = true →
        scanState 0 false ((pre ++ rest).take i) ≠ (0, false)) →
      safeSplitLoop (32 :: tl) rest 0 cur d q =
        if (cur ++ rest).isEmpty then [] else [TrimSpace (cur ++ rest)] := by
  induction rest with
  | nil =>
    intro pre cur d q _ _
    rw [safeSplitLoop, List.append_nil]
  | cons c cs ih =>
    intro pre cur d q hst hno
    rw [safeSplitLoop]
    by_cases hcond : (depthAfter c q d == 0 && !quoteAfter c q
        && (32 :: tl).isPrefixOf (c :: cs)) = true
    · exfalso
      simp only [Bool.and_eq_true, beq_iff_eq, Bool.not_eq_true'] at hcond
      obtain ⟨⟨h1, h2⟩, h3⟩ := hcond
      have hc : c = 32 := by
        simp only [List.isPrefixOf, Bool.and_eq_true, beq_iff_eq] at h3
        exact h3.1.symm
      subst hc
      have hd : d = 0 := by simpa [depthAfter] using h1
      have hq : q = false := by simpa [quoteAfter] using h2
      subst hd
      subst hq
      refine hno pre.length ?_ ?_
      · rw [List.drop_left]; exact h3
      · rw [List.take_left]; exact hst
    · rw [if_neg hcond]
      have e1 : pre ++ c :: cs = (pre ++ [c]) ++ cs := by simp
      rw [ih (pre ++ [c]) (cur ++ [c]) _ _ (by rw [scanState_append, hst]; rfl)
        (by rw [← e1]; exact hno)]
      simp

/-- C17, as amended: on a non-empty string in which the delimiter does not occur at depth 0
outside quotes, `safeSplit` returns one part, the trimmed string. -/
theorem C17_no_split (s d : Str) (hd : d = delimOr ∨ d = delimAnd) (hne : s ≠ [])
    (hno : ∀ i : Nat, d.isPrefixOf (s.drop i) = true →
      scanState 0 false (s.take i) ≠ (0, false)) :
    safeSplit s d = [TrimSpace s] := by
  obtain ⟨tl, he, _, _⟩ := delim_cases d hd
  subst he
  unfold safeSplit
  rw [safeSplitLoop_no_cut tl s [] [] 0 false rfl (by simpa using hno)]
  simp [hne]

/-- C17, witness: `(a or b)` is not split at ` or `. -/
theorem C17_no_split_witness :
    utf8 "(a or b)" ≠ [] ∧
    (∀ i : Nat, delimOr.isPrefixOf ((utf8 "(a or b)").drop i) = true →
      scanState 0 false ((utf8 "(a or b)").take i) ≠ (0, false)) ∧
    safeSplit (utf8 "(a or b)") delimOr = [TrimSpace (utf8 "(a or b)")] := by
  have hno : ∀ i : Nat, delimOr.isPrefixOf ((utf8 "(a or b)").drop i) = true →
      scanState 0 false ((utf8 "(a or b)").take i) ≠ (0, false) := by
    intro i hi
    by_cases h8 : i < 8
    · interval_cases i <;> first | exact absurd hi (by decide) | decide
    · have : (utf8 "(a or b)").drop i = [] := by
        apply List.drop_eq_nil_iff.mpr
        have : (utf8 "(a or b)").length = 8 := by decide
        omega
      rw [this] at hi
      exact absurd hi (by decide)
  exact ⟨by decide, hno, C17_no_split (utf8 "(a or b)") delimOr (Or.inl rfl) (by decide) hno⟩

/-- C17, counterexample: the empty string has no occurrence of the delimiter, and
`safeSplit` returns no part at all for it. -/
theorem C17_empty_string_counterexample :
    (∀ i : Nat, delimOr.isPrefixOf ((utf8 "").drop i) = true →
      scanState 0 false ((utf8 "").take i) ≠ (0, false)) ∧
    safeSplit (utf8 "") delimOr = [] ∧
    (safeSplit (utf8 "") delimOr).length ≠ 1 ∧
    safeSplit (utf8 "") delimOr ≠ [TrimSpace (utf8 "")] := by
  refine ⟨?_, by rfl, by decide, by decide⟩
  intro i hi
  have : (utf8 "").drop i = [] := by
    rw [show utf8 "" = [] from rfl]; simp
  rw [this] at hi
  exact absurd hi (by decide)

/-! ## Termination -/

/-- C19: the recursion of `parseExpression` is on the length of its argument. A round of
the stripping loop shortens the expression; the segments of a split in two or more and
the rest after `not ` are shorter than the expression, which is no longer than the
argument; so a budget above the length is never used up, `parseExpression` is its own body
applied to itself, and `ConvertKQL2DSL` returns on every input. -/
theorem C19_termination :
    (∀ expr inner : Str, (utf8 "(").isPrefixOf expr = true → (utf8 ")").isSuffixOf expr = true →
      slice expr 1 (expr.length - 1) = some inner → (TrimSpace inner).length < expr.length) ∧
    (∀ e expr : Str, stripParens (TrimSpace e).length (TrimSpace e) = some expr →
      expr.length ≤ e.length) ∧
    (∀ expr d p : Str, d = delimOr ∨ d = delimAnd → 1 < (safeSplit expr d).length →
      p ∈ safeSplit expr d → p.length < expr.length) ∧
    (∀ expr rest : Str, (utf8 "not ").isPrefixOf expr = true →
      slice expr 4 expr.length = some rest → (TrimSpace rest).length < expr.length) ∧
    (∀ (n : Nat) (e : Str), e.length < n → parseFuel n e = parseExpression e) ∧
    (∀ e : Str, parseExpression e = parseStep parseExpression e) ∧
    (∀ e : Str, parseExpression e ≠ .error .outOfFuel) ∧
    (∀ kql : Str, ConvertKQL2DSL kql ≠ .error .outOfFuel) := by
  refine ⟨?_, ?_, ?_, ?_, ?_, parseExpression_eq, ?_, ?_⟩
  · intro expr inner h1 h2 hs
    have hl := wrapped_length expr h1 h2
    have := slice_length _ _ _ _ hs
    have := TrimSpace_length_le inner
    omega
  · intro e expr hs
    have := stripParens_length_le _ _ _ hs
    have := TrimSpace_length_le e
    omega
  · intro expr d p _ hl hp
    exact safeSplit_part_lt expr d p hl hp
  · intro expr rest hp hs
    have hlen : 4 ≤ expr.length := by
      have := List.IsPrefix.length_le (List.isPrefixOf_iff_prefix.mp hp)
      simpa [utf8, encodeRune] using this
    have := slice_length _ _ _ _ hs
    have := TrimSpace_length_le rest
    omega
  · intro n e h
    exact parseFuel_indep n (e.length + 1) e h (Nat.lt_succ_self _)
  · intro e h
    rcases parseFuel_structured (e.length + 1) e (Nat.lt_succ_self _) with ⟨q, hq⟩ | ⟨msg, hm⟩
    · rw [show parseFuel (e.length + 1) e = parseExpression e from rfl, h] at hq
      exact Except.noConfusion hq
    · rw [show parseFuel (e.length + 1) e = parseExpression e from rfl, h] at hm
      injection hm with hm
      exact Failure.noConfusion hm
  · intro kql h
    rcases ConvertKQL2DSL_structured kql with ⟨q, hq⟩ | ⟨msg, hm⟩
    · rw [h] at hq; exact Except.noConfusion hq
    · rw [h] at hm
      injection hm with hm
      exact Failure.noConfusion hm

/-- C19, witness: the round of the loop on `( a )`, the split of `a:1 or b:2`, the rest of
`not a:1`, and a budget of 100 on `(a:1 or b:2) and not c:3`. -/
theorem C19_termination_witness :
    (TrimSpace (utf8 " a ")).length < (utf8 "( a )").length ∧
    (utf8 "a:1").length < (utf8 "a:1 or b:2").length ∧
    (TrimSpace (utf8 "a:1")).length < (utf8 "not a:1").length ∧
    parseFuel 100 (utf8 "(a:1 or b:2) and not c:3") =
      parseExpression (utf8 "(a:1 or b:2) and not c:3") :=
  ⟨C19_termination.1 (utf8 "( a )") (utf8 " a ") (by decide) (by decide) (by decide),
    C19_termination.2.2.1 (utf8 "a:1 or b:2") delimOr (utf8 "a:1") (Or.inl rfl) (by decide)
      (by decide),
    C19_termination.2.2.2.1 (utf8 "not a:1") (utf8 "a:1") (by decide) (by decide),
    C19_termination.2.2.2.2.1 100 (utf8 "(a:1 or b:2) and not c:3") (by decide)⟩

/-! ## Uppercase connectives -/

/-- `strings.Trim` removes a head and a tail made of bytes of the cutset around a core
whose end bytes are outside the cutset. -/
theorem Trim_strip (a core b cut : Str) (ha : ∀ c ∈ a, cut.contains c = true)
    (hb : ∀ c ∈ b, cut.contains c = true) (hne : core ≠ [])
    (hh : ∀ c, core.head? = some c → cut.contains c = false)
    (hl : ∀ c, core.getLast? = some c → cut.contains c = false) :
    Trim (a ++ core ++ b) cut = core := by
  unfold Trim
  have e1 : (a ++ core ++ b).reverse = b.reverse ++ (core.reverse ++ a.reverse) := by simp
  rw [e1, List.dropWhile_append_of_pos (fun c hc => hb c (List.mem_reverse.mp hc))]
  have e2 : (core.reverse ++ a.reverse).dropWhile (fun c => cut.contains c) =
      core.reverse ++ a.reverse := by
    rcases hr : core.reverse with _ | ⟨l, m⟩
    · exact absurd (List.reverse_eq_nil_iff.mp hr) hne
    · have hlast : core.getLast? = some l := by
        rw [List.getLast?_eq_head?_reverse, hr]; rfl
      rw [List.cons_append, List.dropWhile_cons_of_neg
        (by simp only [hl l hlast, Bool.false_eq_true, not_false_eq_true])]
  rw [e2]
  have e3 : (core.reverse ++ a.reverse).reverse = a ++ core := by simp
  rw [e3, List.dropWhile_append_of_pos ha]
  cases core with
  | nil => exact absurd rfl hne
  | cons h t =>
    rw [List.dropWhile_cons_of_neg
      (by simp only [hh h rfl, Bool.false_eq_true, not_false_eq_true])]

/-- A clause, an uppercase word and a second clause, between single spaces, are not split
by a delimiter that starts at neither the word nor the second clause. -/
theorem safeSplit_upper (tl fa rva w fb rvb : Str) (hfa : ∀ c ∈ fa, isInert c = true)
    (hrva : isValueWord rva) (hw : isPlainWord tl w) (hfb : ∀ c ∈ fb, isInert c = true)
    (hrvb : isValueWord rvb)
    (hb : ∀ r2 : Str, List.isPrefixOf (32 :: tl) (32 :: ((fb ++ 58 :: rvb) ++ r2)) = false) :
    (safeSplit (fa ++ 58 :: (rva ++ 32 :: (w ++ 32 :: (fb ++ 58 :: rvb)))) (32 :: tl)).length
      ≤ 1 := by
  have h58 : ∀ (f : Str), (∀ c ∈ f, isInert c = true) → ∀ c ∈ f ++ [58], isInert c = true := by
    intro f hf c hc
    rcases List.mem_append.mp hc with h | h
    · exact hf c h
    · simp at h; subst h; decide
  have e1 : fa ++ 58 :: (rva ++ 32 :: (w ++ 32 :: (fb ++ 58 :: rvb))) =
      (fa ++ [58]) ++ (rva ++ 32 :: (w ++ 32 :: ((fb ++ 58 :: rvb) ++ []))) := by simp
  have e2 : (fb ++ 58 :: rvb) ++ [] = (fb ++ [58]) ++ (rvb ++ []) := by simp
  unfold safeSplit
  rw [e1, safeSplitLoop_inert tl _ _ _ _ _ (h58 fa hfa), hrva.scan,
    safeSplitLoop_space _ _ _ _ _ (hw.2.2 _), safeSplitLoop_inert tl w _ _ _ _ hw.2.1,
    safeSplitLoop_space _ _ _ _ _ (hb _), e2, safeSplitLoop_inert tl _ _ _ _ _ (h58 fb hfb),
    hrvb.scan, safeSplitLoop_nil _ _ _ _ (by simp)]
  simp

theorem isValueWord.no_space {x : Str} (h : isValueWord x) : 32 ∉ x := by
  intro hm
  rcases h.mem 32 hm with h1 | h1
  · exact absurd h1 (by decide)
  · exact absurd h1 (by decide)

theorem renderValue_split (v : Bool × Str) :
    renderValue v = (if v.1 then [34] else []) ++ openValue v ∧
    renderValue v = closeValue v ++ (if v.1 then [34] else []) := by
  unfold renderValue openValue closeValue
  cases v.1 <;> simp [utf8_quote]

/-- What `ConvertKQL2DSL` returns for two clauses around an uppercase word: one node, made
of the first field and, as the value, all the text after the first colon without its outer
quotes. -/
theorem ConvertKQL2DSL_upper (fa fb w : Str) (va vb : Bool × Str)
    (hfa : isFieldName fa = true) (hfb : isFieldName fb = true)
    (hva : isAlnumWord va.2 = true) (hvb : isAlnumWord vb.2 = true)
    (hw : w = [65, 78, 68] ∨ w = [79, 82]) :
    ConvertKQL2DSL (fa ++ 58 :: (renderValue va ++ 32 :: (w ++ 32 ::
        (fb ++ 58 :: renderValue vb)))) =
      classify fa (openValue va ++ 32 :: (w ++ 32 :: (fb ++ 58 :: closeValue vb))) := by
  have hfa2 := (isFieldName_iff fa).mp hfa
  have hfb2 := (isFieldName_iff fb).mp hfb
  have hfai : ∀ c ∈ fa, isInert c = true := fun c hc => isInert_of_isFieldChar c (hfa2.2 c hc)
  have hfbi : ∀ c ∈ fb, isInert c = true := fun c hc => isInert_of_isFieldChar c (hfb2.2 c hc)
  have hra := renderValue_isValueWord va hva
  have hrb := renderValue_isValueWord vb hvb
  have hwi : ∀ c ∈ w, isInert c = true := by
    rcases hw with h | h <;> subst h <;> decide
  have hwne : w ≠ [] := by rcases hw with h | h <;> subst h <;> simp
  have hwOr : isPlainWord [111, 114, 32] w :=
    ⟨hwne, hwi, not_start_of_head 111 _ w hwne (by rcases hw with h | h <;> subst h <;> simp)⟩
  have hwAnd : isPlainWord [97, 110, 100, 32] w :=
    ⟨hwne, hwi, not_start_of_head 97 _ w hwne (by rcases hw with h | h <;> subst h <;> simp)⟩
  have hb32 : 32 ∉ fb ++ 58 :: renderValue vb := by
    intro hm
    simp only [List.mem_append, List.mem_cons] at hm
    rcases hm with h | h | h
    · exact absurd (hfbi 32 h) (by decide)
    · exact absurd h (by decide)
    · exact hrb.no_space h
  have hb58 : 58 ∈ fb ++ 58 :: renderValue vb := by simp
  have hE : fa ++ 58 :: (renderValue va ++ 32 :: (w ++ 32 :: (fb ++ 58 :: renderValue vb))) =
      (fa ++ 58 :: renderValue va) ++ spaced [w, fb ++ 58 :: renderValue vb] := by
    simp [spaced]
  have hplain1 : ∀ c ∈ fa ++ 58 :: renderValue va, isReSpace c = false := by
    intro c hc
    simp only [List.mem_append, List.mem_cons] at hc
    rcases hc with h | h | h
    · exact isReSpace_of_isInert c (hfai c h)
    · subst h; decide
    · exact (hra.no_paren c h).2.2
  have hplain2 : ∀ c ∈ fb ++ 58 :: renderValue vb, isReSpace c = false := by
    intro c hc
    simp only [List.mem_append, List.mem_cons] at hc
    rcases hc with h | h | h
    · exact isReSpace_of_isInert c (hfbi c h)
    · subst h; decide
    · exact (hrb.no_paren c h).2.2
  have hnorm := normalizeWhitespace_words (fa ++ 58 :: renderValue va)
    [w, fb ++ 58 :: renderValue vb] (by simp) hplain1 (by
      intro x hx
      simp only [List.mem_cons, List.mem_singleton, List.not_mem_nil, or_false] at hx
      rcases hx with hx | hx
      · subst hx; exact ⟨hwne, fun c hc => isReSpace_of_isInert c (hwi c hc)⟩
      · subst hx; exact ⟨by simp, hplain2⟩)
  rw [← hE] at hnorm
  have hts : TrimSpace (fa ++ 58 :: (renderValue va ++ 32 :: (w ++ 32 ::
        (fb ++ 58 :: renderValue vb)))) =
      fa ++ 58 :: (renderValue va ++ 32 :: (w ++ 32 :: (fb ++ 58 :: renderValue vb))) := by
    apply TrimSpace_eq_self
    · intro c hc
      cases fa with
      | nil => exact absurd rfl hfa2.1
      | cons a f =>
        simp at hc; subst hc
        exact isSolid_of_isInert _ (hfai _ (by simp))
    · intro c hc
      have e1 : fa ++ 58 :: (renderValue va ++ 32 :: (w ++ 32 :: (fb ++ 58 :: renderValue vb)))
          = (fa ++ 58 :: (renderValue va ++ 32 :: (w ++ 32 :: (fb ++ [58])))) ++ renderValue vb := by
        simp
      rw [e1, getLast?_append_ne _ _ hrb.value_ne_nil] at hc
      exact hrb.solid c (getLast_mem _ c hc)
  have hrest : TrimSpace (renderValue va ++ 32 :: (w ++ 32 :: (fb ++ 58 :: renderValue vb))) =
      renderValue va ++ 32 :: (w ++ 32 :: (fb ++ 58 :: renderValue vb)) := by
    apply TrimSpace_eq_self
    · intro c hc
      have : c ∈ renderValue va := by
        rcases hv : renderValue va with _ | ⟨a, t⟩
        · exact absurd hv hra.value_ne_nil
        · rw [hv] at hc; simp at hc; subst hc; simp
      exact hra.solid c this
    · intro c hc
      have e1 : renderValue va ++ 32 :: (w ++ 32 :: (fb ++ 58 :: renderValue vb))
          = (renderValue va ++ 32 :: (w ++ 32 :: (fb ++ [58]))) ++ renderValue vb := by
        simp
      rw [e1, getLast?_append_ne _ _ hrb.value_ne_nil] at hc
      exact hrb.solid c (getLast_mem _ c hc)
  have hva2 := (isAlnumWord_iff va.2).mp hva
  have hvb2 := (isAlnumWord_iff vb.2).mp hvb
  have hcut : ∀ c, isAlnum c = true → [34, 32].contains c = false := by
    intro c hc
    have := (isInert_iff c).mp (isInert_of_isAlnum c hc)
    simp; omega
  have htrim : Trim (renderValue va ++ 32 :: (w ++ 32 :: (fb ++ 58 :: renderValue vb))) [34, 32]
      = openValue va ++ 32 :: (w ++ 32 :: (fb ++ 58 :: closeValue vb)) := by
    have e1 : renderValue va ++ 32 :: (w ++ 32 :: (fb ++ 58 :: renderValue vb)) =
        (if va.1 then [34] else []) ++
          (openValue va ++ 32 :: (w ++ 32 :: (fb ++ 58 :: closeValue vb))) ++
          (if vb.1 then [34] else []) := by
      conv_lhs => rw [(renderValue_split va).1, (renderValue_split vb).2]
      simp
    rw [e1]
    apply Trim_strip
    · intro c hc; split_ifs at hc <;> simp at hc; subst hc; decide
    · intro c hc; split_ifs at hc <;> simp at hc; subst hc; decide
    · unfold openValue
      split_ifs <;> simp [hva2.1]
    · intro c hc
      apply hcut
      have : c ∈ va.2 := by
        unfold openValue at hc
        rcases hv : va.2 with _ | ⟨a, t⟩
        · exact absurd hv hva2.1
        · rw [hv] at hc
          split_ifs at hc <;> simp at hc <;> subst hc <;> simp
      exact hva2.2 c this
    · intro c hc
      apply hcut
      have e2 : openValue va ++ 32 :: (w ++ 32 :: (fb ++ 58 :: closeValue vb)) =
          (openValue va ++ 32 :: (w ++ 32 :: (fb ++ 58 :: (if vb.1 then [34] else [])))) ++ vb.2 := by
        unfold closeValue
        split_ifs <;> simp [utf8_quote]
      rw [e2, getLast?_append_ne _ _ hvb2.1] at hc
      exact hvb2.2 c (getLast_mem _ c hc)
  rw [ConvertKQL2DSL_eq _ hnorm hts (by simp), parseExpression_eq,
    parseStep_clause _ fa _ hfa hts
      (by
        rcases hv : renderValue va with _ | ⟨a, t⟩
        · exact absurd hv hra.value_ne_nil
        · intro e
          simp at e
          subst e
          have := (hra.no_paren 40 (by rw [hv]; simp)).1
          exact this rfl)
      (by
        rw [delimOr_eq]
        exact safeSplit_upper _ fa _ w fb _ hfai hra hwOr hfbi hrb
          (not_start_of_colon [111, 114] _ (by decide) hb32 hb58))
      (by
        rw [delimAnd_eq]
        exact safeSplit_upper _ fa _ w fb _ hfai hra hwAnd hfbi hrb
          (not_start_of_colon [97, 110, 100] _ (by decide) hb32 hb58)),
    hrest, utf8_quote_space, htrim]

/-- C15, as amended: an uppercase ` AND ` or ` OR ` between two terminal clauses is not a
connective and the input is not rejected: `ConvertKQL2DSL` returns one Term node (an Exists
node for the field `_exists_`) with the field of the first clause and, as the value, all
the text after the first colon without its outer quotes; so does the first sample input of
`main`. -/
theorem C15_uppercase_connectives (fa fb conn : Str) (va vb : Bool × Str)
    (hconn : conn = utf8 " AND " ∨ conn = utf8 " OR ")
    (hfa : isFieldName fa = true) (hfb : isFieldName fb = true)
    (hva : isAlnumWord va.2 = true) (hvb : isAlnumWord vb.2 = true) :
    ConvertKQL2DSL (clause fa (renderValue va) ++ conn ++ clause fb (renderValue vb)) =
      .ok (if fa = utf8 "_exists_"
        then .existsField (openValue va ++ conn ++ clause fb (closeValue vb))
        else .term fa (openValue va ++ conn ++ clause fb (closeValue vb))) ∧
    ConvertKQL2DSL (utf8 "event_type:\"flow\" AND dest_port:80 OR event_type:\"dns\"") =
      .ok (.term (utf8 "event_type") (utf8 "flow\" AND dest_port:80 OR event_type:\"dns")) := by
  refine ⟨?_, by rfl⟩
  have hfb2 := (isFieldName_iff fb).mp hfb
  have hva2 := (isAlnumWord_iff va.2).mp hva
  have hvb2 := (isAlnumWord_iff vb.2).mp hvb
  obtain ⟨w, hw, hc⟩ : ∃ w : Str, (w = [65, 78, 68] ∨ w = [79, 82]) ∧ conn = 32 :: (w ++ [32]) := by
    rcases hconn with h | h
    · exact ⟨[65, 78, 68], Or.inl rfl, by rw [h]; rfl⟩
    · exact ⟨[79, 82], Or.inr rfl, by rw [h]; rfl⟩
  have e1 : clause fa (renderValue va) ++ conn ++ clause fb (renderValue vb) =
      fa ++ 58 :: (renderValue va ++ 32 :: (w ++ 32 :: (fb ++ 58 :: renderValue vb))) := by
    rw [hc]; simp [clause, utf8_colon]
  have e2 : openValue va ++ conn ++ clause fb (closeValue vb) =
      openValue va ++ 32 :: (w ++ 32 :: (fb ++ 58 :: closeValue vb)) := by
    rw [hc]; simp [clause, utf8_colon]
  rw [e1, e2, ConvertKQL2DSL_upper fa fb w va vb hfa hfb hva hvb hw]
  by_cases hx : fa = utf8 "_exists_"
  · rw [if_pos hx]
    unfold classify
    rw [if_pos (by simpa using hx)]
  · rw [if_neg hx]
    apply classify_plain _ _ hx
    · unfold openValue
      rcases hv : va.2 with _ | ⟨a, t⟩
      · exact absurd hv hva2.1
      · have ha := hva2.2 a (by rw [hv]; simp)
        have : a ≠ 34 := by intro e; subst e; exact absurd ha (by decide)
        split_ifs <;> simpa using this
    · have h42 : ∀ c, isAlnum c = true → c ≠ 42 := by
        intro c hc e; subst e; exact absurd hc (by decide)
      have : 42 ∉ openValue va ++ 32 :: (w ++ 32 :: (fb ++ 58 :: closeValue vb)) := by
        intro hm
        simp only [List.mem_append, List.mem_cons] at hm
        rcases hm with h | h | h | h | h | h | h
        · unfold openValue at h
          split_ifs at h
          · simp only [utf8_quote, List.mem_append, List.mem_singleton] at h
            rcases h with h | h
            · exact h42 42 (hva2.2 42 h) rfl
            · exact absurd h (by decide)
          · exact h42 42 (hva2.2 42 h) rfl
        · exact absurd h (by decide)
        · rcases hw with hw | hw <;> subst hw <;> simp at h
        · exact absurd h (by decide)
        · exact absurd (hfb2.2 42 h) (by decide)
        · exact absurd h (by decide)
        · unfold closeValue at h
          split_ifs at h
          · simp only [utf8_quote, List.singleton_append, List.mem_cons] at h
            rcases h with h | h
            · exact absurd h (by decide)
            · exact h42 42 (hvb2.2 42 h) rfl
          · exact h42 42 (hvb2.2 42 h) rfl
      simpa using this

/-- C15, witness: `status:500 AND level:"error"`. -/
theorem C15_uppercase_connectives_witness :
    isFieldName (utf8 "status") = true ∧ isFieldName (utf8 "level") = true ∧
    isAlnumWord (utf8 "500") = true ∧ isAlnumWord (utf8 "error") = true ∧
    ConvertKQL2DSL (clause (utf8 "status") (renderValue (false, utf8 "500")) ++ utf8 " AND " ++
        clause (utf8 "level") (renderValue (true, utf8 "error"))) =
      .ok (if utf8 "status" = utf8 "_exists_"
        then .existsField (openValue (false, utf8 "500") ++ utf8 " AND " ++
          clause (utf8 "level") (closeValue (true, utf8 "error")))
        else .term (utf8 "status") (openValue (false, utf8 "500") ++ utf8 " AND " ++
          clause (utf8 "level") (closeValue (true, utf8 "error")))) :=
  ⟨by decide, by decide, by decide, by decide,
    (C15_uppercase_connectives (utf8 "status") (utf8 "level") (utf8 " AND ")
      (false, utf8 "500") (true, utf8 "error") (Or.inl rfl) (by decide) (by decide) (by decide)
      (by decide)).1⟩

/-- C15, counterexample: `a:1 AND b:2` and `a:1 OR b:2` are not rejected; each yields a
Term node. -/
theorem C15_not_rejected_counterexample :
    ConvertKQL2DSL (utf8 "a:1" ++ utf8 " AND " ++ utf8 "b:2") =
      .ok (.term (utf8 "a") (utf8 "1 AND b:2")) ∧
    ConvertKQL2DSL (utf8 "a:1" ++ utf8 " OR " ++ utf8 "b:2") =
      .ok (.term (utf8 "a") (utf8 "1 OR b:2")) ∧
    (∀ err : Failure, ConvertKQL2DSL (utf8 "a:1" ++ utf8 " AND " ++ utf8 "b:2") ≠ .error err) ∧
    (∀ err : Failure,
      ConvertKQL2DSL (utf8 "event_type:\"flow\" AND dest_port:80 OR event_type:\"dns\"") ≠
        .error err) := by
  have h1 : ConvertKQL2DSL (utf8 "a:1" ++ utf8 " AND " ++ utf8 "b:2") =
      .ok (.term (utf8 "a") (utf8 "1 AND b:2")) := by rfl
  have h2 : ConvertKQL2DSL (utf8 "event_type:\"flow\" AND dest_port:80 OR event_type:\"dns\"") =
      .ok (.term (utf8 "event_type") (utf8 "flow\" AND dest_port:80 OR event_type:\"dns")) := by
    rfl
  refine ⟨h1, by rfl, fun err h => ?_, fun err h => ?_⟩
  · rw [h1] at h; exact Except.noConfusion h
  · rw [h2] at h; exact Except.noConfusion h

end KQL
